import Mathlib

/-!
# Verification of the scrape-web link-discovery engine

A shallow embedding, in Lean 4, of the pure core of the `scrape-web`
repository (backend/scraper.py, backend/scraper_hybrid.py,
backend/advanced_scraper.py, backend/scraper_bundle.py,
backend/scraper_network.py), together with proofs settling the claims
about URL canonicalization, same-origin filtering, strategy escalation,
the crawl frontier, and result-shape invariants.

Python strings are modelled as `List Char` (a sequence of Unicode code
points, which is exactly CPython's `str`).  The functions of
`urllib.parse` that the repository calls (`urlparse`, `urlunparse`,
`urljoin`, `parse_qs`, `urlencode`, `quote_plus`, `unquote`) are
transcribed from CPython 3.11's `Lib/urllib/parse.py`.  Network and
browser effects are modelled by passing the fetched data (response
status, body, extracted candidate attributes) as explicit inputs.
-/

namespace Scrape

/-- Python `str` modelled as a list of code points. -/
abbrev Str := List Char

/-- Convenience coercion from Lean string literals. -/
def strOf (s : String) : Str := s.data

/-! ## Generic character/string helpers (Python `str` methods) -/

/-- `s.startswith(p)` -/
def startsWith (p s : Str) : Bool := p.isPrefixOf s

/-- `s.endswith(p)` -/
def endsWith (p s : Str) : Bool := p.reverse.isPrefixOf s.reverse

/-- `s.rstrip(c)` for a single strip character: removes every trailing `c`. -/
def rstripChar (c : Char) (s : Str) : Str :=
  (s.reverse.dropWhile (· = c)).reverse

/-- `s.strip()` (both-ends whitespace strip, ASCII whitespace as Python). -/
def pyStrip (s : Str) : Str :=
  ((s.dropWhile Char.isWhitespace).reverse.dropWhile Char.isWhitespace).reverse

/-- Split at the first occurrence of character `c`: returns the part
before and the part after (`c` removed), or `none` when `c` is absent.
This is Python's `s.split(c, 1)` (two pieces). -/
def splitFirst (c : Char) (s : Str) : Option (Str × Str) :=
  match s.span (· ≠ c) with
  | (_, []) => none
  | (pre, _ :: post) => some (pre, post)

/-- Python `s.split(c)` (full split on a single-character separator).
`''.split(c) = ['']`. -/
def splitAll (c : Char) : Str → List Str
  | [] => [[]]
  | x :: xs =>
    let rest := splitAll c xs
    if x = c then [] :: rest
    else match rest with
      | [] => [[x]]
      | r :: rs => (x :: r) :: rs

/-- `sep.join(pieces)` for a single-character separator. -/
def joinChar (c : Char) (l : List Str) : Str :=
  match l with
  | [] => []
  | [x] => x
  | x :: xs => x ++ c :: joinChar c xs

/-- Python substring containment `pat in s` (naive left-to-right scan). -/
def containsSub (pat : Str) : Str → Bool
  | [] => pat.isEmpty
  | s@(_ :: rest) => pat.isPrefixOf s || containsSub pat rest

/-- Python `s.replace(pat, repl)` for a nonempty pattern: left-to-right,
non-overlapping, resuming after each replacement.  Structured with a
step-count (first argument) so the kernel can evaluate it; the wrapper
supplies `s.length`, which always suffices because each step consumes at
least one character. -/
def replaceSubF (pat repl : Str) : Nat → Str → Str
  | _, [] => []
  | 0, s => s
  | fuel + 1, x :: rest =>
    if pat ≠ [] ∧ pat.isPrefixOf (x :: rest) then
      repl ++ replaceSubF pat repl fuel ((x :: rest).drop pat.length)
    else x :: replaceSubF pat repl fuel rest

def replaceSub (pat repl : Str) (s : Str) : Str :=
  replaceSubF pat repl s.length s

/-- Python `s.lower()` restricted to ASCII case mapping (every string the
repository lowercases and then compares is an ASCII host or scheme). -/
def lowerS (s : Str) : Str := s.map Char.toLower

/-- Single-character membership test. -/
def hasChar (c : Char) (s : Str) : Bool := s.contains c

/-! ## CPython `urllib.parse`: `urlsplit` / `urlunsplit` and friends -/

/-- `scheme_chars` from `urllib/parse.py`. -/
def isSchemeChar (c : Char) : Bool :=
  c.isAlpha && c.toNat < 128 || c.isDigit || c = '+' || c = '-' || c = '.'

/-- `uses_relative` from `urllib/parse.py`. -/
def usesRelative : List Str :=
  [strOf "", strOf "ftp", strOf "http", strOf "gopher", strOf "nntp",
   strOf "imap", strOf "wais", strOf "file", strOf "https", strOf "shttp",
   strOf "mms", strOf "prospero", strOf "rtsp", strOf "rtspu", strOf "sftp",
   strOf "svn", strOf "svn+ssh", strOf "ws", strOf "wss"]

/-- `uses_netloc` from `urllib/parse.py`. -/
def usesNetloc : List Str :=
  [strOf "", strOf "ftp", strOf "http", strOf "gopher", strOf "nntp",
   strOf "telnet", strOf "imap", strOf "wais", strOf "file", strOf "mms",
   strOf "https", strOf "shttp", strOf "snews", strOf "prospero",
   strOf "rtsp", strOf "rtsps", strOf "rtspu", strOf "rsync", strOf "svn",
   strOf "svn+ssh", strOf "sftp", strOf "nfs", strOf "git",
   strOf "git+ssh", strOf "ws", strOf "wss"]

/-- `uses_params` from `urllib/parse.py`. -/
def usesParams : List Str :=
  [strOf "", strOf "ftp", strOf "hdl", strOf "prospero", strOf "http",
   strOf "imap", strOf "https", strOf "shttp", strOf "rtsp", strOf "rtsps",
   strOf "rtspu", strOf "sip", strOf "sips", strOf "mms", strOf "sftp",
   strOf "tel"]

/-- Result of `urlsplit`. -/
structure SplitResult where
  scheme : Str
  netloc : Str
  path : Str
  query : Str
  fragment : Str
  deriving Repr, DecidableEq

/-- Result of `urlparse` (adds the path-parameter component). -/
structure ParseResult where
  scheme : Str
  netloc : Str
  path : Str
  params : Str
  query : Str
  fragment : Str
  deriving Repr, DecidableEq

/-- `_WHATWG_C0_CONTROL_OR_SPACE` membership: code points 0x00–0x20. -/
def isC0OrSpace (c : Char) : Bool := c.toNat ≤ 0x20

/-- The `urlsplit` input cleanup: left-strip C0-control/space characters,
then remove every tab, carriage return and newline
(`_UNSAFE_URL_BYTES_TO_REMOVE`). -/
def cleanUrlInput (s : Str) : Str :=
  (s.dropWhile isC0OrSpace).filter (fun c => ¬(c = '\t' ∨ c = '\r' ∨ c = '\n'))

/-- Scheme detection of `urlsplit`: the prefix before the first `':'` is a
scheme when the colon is not first, the first character is an ASCII
letter, and every prefix character is in `scheme_chars`; the matched
scheme is lowercased.  Returns `(scheme?, rest)`. -/
def splitScheme (url : Str) : Option Str × Str :=
  match splitFirst ':' url with
  | none => (none, url)
  | some (pre, post) =>
    if pre ≠ [] ∧ (pre.head?.all fun c => c.isAlpha && c.toNat < 128)
        ∧ pre.all isSchemeChar then
      (some (lowerS pre), post)
    else (none, url)

/-- `_splitnetloc`: the netloc runs from position 2 up to the first of
`/`, `?`, `#`. -/
def splitNetloc (rest : Str) : Str × Str :=
  (rest.takeWhile (fun c => ¬(c = '/' ∨ c = '?' ∨ c = '#')),
   rest.dropWhile (fun c => ¬(c = '/' ∨ c = '?' ∨ c = '#')))

/-- CPython `urlsplit(url, scheme=default)` (with `allow_fragments=True`).

The embedding is total: the `ValueError`s CPython raises for mismatched
IPv6 brackets or a non-NFKC netloc are outside the model, and theorems
that depend on the netloc assume an ASCII, bracket-free netloc. -/
def pyUrlsplit (url0 : Str) (dscheme : Str) : SplitResult :=
  let url1 := cleanUrlInput url0
  let (sch?, url2) := splitScheme url1
  let scheme := sch?.getD dscheme
  let (netloc, url3) :=
    if startsWith (strOf "//") url2 then splitNetloc (url2.drop 2)
    else ([], url2)
  let (url4, fragment) := (splitFirst '#' url3).getD (url3, [])
  let (path, query) := (splitFirst '?' url4).getD (url4, [])
  ⟨scheme, netloc, path, query, fragment⟩

/-- CPython `urlunsplit`. -/
def pyUrlunsplit (r : SplitResult) : Str :=
  let url0 := r.path
  let url1 :=
    if r.netloc ≠ [] ∨ (r.scheme ≠ [] ∧ r.scheme ∈ usesNetloc
        ∧ ¬startsWith (strOf "//") url0) then
      let u := if url0 ≠ [] ∧ ¬startsWith (strOf "/") url0
               then '/' :: url0 else url0
      strOf "//" ++ r.netloc ++ u
    else url0
  let url2 := if r.scheme ≠ [] then r.scheme ++ ':' :: url1 else url1
  let url3 := if r.query ≠ [] then url2 ++ '?' :: r.query else url2
  if r.fragment ≠ [] then url3 ++ '#' :: r.fragment else url3

/-- `_splitparams`. -/
def splitParams (url : Str) : Str × Str :=
  if hasChar '/' url then
    -- `i = url.find(';', url.rfind('/'))`
    let afterLastSlash := (url.reverse.takeWhile (· ≠ '/')).reverse
    let beforeIncl := url.take (url.length - afterLastSlash.length)
    match splitFirst ';' afterLastSlash with
    | none => (url, [])
    | some (pre, post) => (beforeIncl ++ pre, post)
  else
    match splitFirst ';' url with
    | none => (url, [])
    | some (pre, post) => (pre, post)

/-- CPython `urlparse(url, scheme=default)`. -/
def pyUrlparse (url : Str) (dscheme : Str) : ParseResult :=
  let s := pyUrlsplit url dscheme
  let (path, params) :=
    if s.scheme ∈ usesParams ∧ hasChar ';' s.path then splitParams s.path
    else (s.path, [])
  ⟨s.scheme, s.netloc, path, params, s.query, s.fragment⟩

/-- CPython `urlunparse`. -/
def pyUrlunparse (r : ParseResult) : Str :=
  let url := if r.params ≠ [] then r.path ++ ';' :: r.params else r.path
  pyUrlunsplit ⟨r.scheme, r.netloc, url, r.query, r.fragment⟩

/-! ## CPython percent-encoding: `quote_plus`, `unquote`, UTF-8 -/

/-- UTF-8 encoding of one code point (CPython `str.encode('utf-8')`,
one character; `Char` carries the scalar-value invariant). -/
def utf8Bytes (c : Char) : List Nat :=
  let n := c.toNat
  if n < 0x80 then [n]
  else if n < 0x800 then [0xC0 + n / 64, 0x80 + n % 64]
  else if n < 0x10000 then
    [0xE0 + n / 4096, 0x80 + (n / 64) % 64, 0x80 + n % 64]
  else
    [0xF0 + n / 262144, 0x80 + (n / 4096) % 64, 0x80 + (n / 64) % 64,
     0x80 + n % 64]

/-- Is `b` a UTF-8 continuation byte? -/
def isCont (b : Nat) : Bool := 0x80 ≤ b ∧ b < 0xC0

/-- The replacement character U+FFFD. -/
def fffd : Char := Char.ofNat 0xFFFD

/-- `bytes.decode('utf-8', errors='replace')`: strict UTF-8 decoding where
each maximal invalid subsequence yields one U+FFFD (CPython's behavior:
a valid prefix of a truncated sequence is consumed by one replacement;
an invalid start byte is replaced alone). -/
def utf8DecodeReplaceF : Nat → List Nat → Str
  | _, [] => []
  | 0, _ => []
  | fuel + 1, b :: rest =>
    if b < 0x80 then Char.ofNat b :: utf8DecodeReplaceF fuel rest
    else if 0xC2 ≤ b ∧ b ≤ 0xDF then
      match rest with
      | b1 :: rest1 =>
        if isCont b1 then
          Char.ofNat ((b - 0xC0) * 64 + (b1 - 0x80)) :: utf8DecodeReplaceF fuel rest1
        else fffd :: utf8DecodeReplaceF fuel (b1 :: rest1)
      | [] => [fffd]
    else if 0xE0 ≤ b ∧ b ≤ 0xEF then
      -- the first continuation byte has a restricted range for E0 and ED
      let lo1 := if b = 0xE0 then 0xA0 else 0x80
      let hi1 := if b = 0xED then 0x9F else 0xBF
      match rest with
      | b1 :: rest1 =>
        if lo1 ≤ b1 ∧ b1 ≤ hi1 then
          match rest1 with
          | b2 :: rest2 =>
            if isCont b2 then
              Char.ofNat ((b - 0xE0) * 4096 + (b1 - 0x80) * 64 + (b2 - 0x80))
                :: utf8DecodeReplaceF fuel rest2
            else fffd :: utf8DecodeReplaceF fuel (b2 :: rest2)
          | [] => [fffd]
        else fffd :: utf8DecodeReplaceF fuel (b1 :: rest1)
      | [] => [fffd]
    else if 0xF0 ≤ b ∧ b ≤ 0xF4 then
      let lo1 := if b = 0xF0 then 0x90 else 0x80
      let hi1 := if b = 0xF4 then 0x8F else 0xBF
      match rest with
      | b1 :: rest1 =>
        if lo1 ≤ b1 ∧ b1 ≤ hi1 then
          match rest1 with
          | b2 :: rest2 =>
            if isCont b2 then
              match rest2 with
              | b3 :: rest3 =>
                if isCont b3 then
                  Char.ofNat ((b - 0xF0) * 262144 + (b1 - 0x80) * 4096
                      + (b2 - 0x80) * 64 + (b3 - 0x80))
                    :: utf8DecodeReplaceF fuel rest3
                else fffd :: utf8DecodeReplaceF fuel (b3 :: rest3)
              | [] => [fffd]
            else fffd :: utf8DecodeReplaceF fuel (b2 :: rest2)
          | [] => [fffd]
        else fffd :: utf8DecodeReplaceF fuel (b1 :: rest1)
      | [] => [fffd]
    else fffd :: utf8DecodeReplaceF fuel rest

/-- `bytes.decode('utf-8', errors='replace')` (each decode step consumes
at least one byte, so `bs.length` steps always suffice). -/
def utf8DecodeReplace (bs : List Nat) : Str := utf8DecodeReplaceF bs.length bs

/-- `_ALWAYS_SAFE` of `urllib/parse.py`: ASCII alphanumerics and `_.-~`
(`quote` with `safe=''` keeps exactly these). -/
def isAlwaysSafe (c : Char) : Bool :=
  (c.isAlpha && c.toNat < 128) || c.isDigit || c = '_' || c = '.' || c = '-' || c = '~'

/-- Upper-case hex digit (CPython quoter format `'%{:02X}'`). -/
def hexUp (n : Nat) : Char :=
  if n < 10 then Char.ofNat ('0'.toNat + n) else Char.ofNat ('A'.toNat + n - 10)

/-- `'%XX'` for one byte. -/
def pctByte (b : Nat) : Str := ['%', hexUp (b / 16), hexUp (b % 16)]

/-- CPython `quote_plus(s)` (with `safe=''`): safe characters pass
through, space becomes `+`, every other character is `%`-encoded through
its UTF-8 bytes.  (CPython implements this as `quote(s, safe=' ')`
followed by `' '→'+'` when `s` contains a space, and `quote(s, '')`
otherwise; per character this amounts to exactly the mapping below.) -/
def pyQuotePlus (s : Str) : Str :=
  s.flatMap fun c =>
    if isAlwaysSafe c then [c]
    else if c = ' ' then ['+']
    else (utf8Bytes c).flatMap pctByte

/-- Numeric value of a hex digit, if any. -/
def hexVal? (c : Char) : Option Nat :=
  if '0' ≤ c ∧ c ≤ '9' then some (c.toNat - '0'.toNat)
  else if 'a' ≤ c ∧ c ≤ 'f' then some (c.toNat - 'a'.toNat + 10)
  else if 'A' ≤ c ∧ c ≤ 'F' then some (c.toNat - 'A'.toNat + 10)
  else none

/-- CPython `unquote(s)`: maximal ASCII runs are converted to bytes with
`%XX` escapes decoded (an invalid escape keeps its `%` literal), then
UTF-8-decoded with `errors='replace'`; non-ASCII characters pass through
unchanged.  `acc` accumulates the bytes of the current ASCII run. -/
def pyUnquoteCoreF : Nat → Str → List Nat → Str
  | _, [], acc => utf8DecodeReplace acc
  | 0, s, acc => utf8DecodeReplace acc ++ s
  | fuel + 1, '%' :: h1 :: h2 :: rest, acc =>
    match hexVal? h1, hexVal? h2 with
    | some a, some b => pyUnquoteCoreF fuel rest (acc ++ [16 * a + b])
    | _, _ => pyUnquoteCoreF fuel (h1 :: h2 :: rest) (acc ++ ['%'.toNat])
  | fuel + 1, c :: rest, acc =>
    if c.toNat < 128 then pyUnquoteCoreF fuel rest (acc ++ [c.toNat])
    else utf8DecodeReplace acc ++ c :: pyUnquoteCoreF fuel rest []

/-- CPython `unquote` (each scan step consumes at least one character,
so `s.length` steps always suffice). -/
def pyUnquote (s : Str) : Str := pyUnquoteCoreF s.length s []

/-- CPython `unquote_plus`. -/
def pyUnquotePlus (s : Str) : Str :=
  pyUnquote (s.map fun c => if c = '+' then ' ' else c)

/-! ## CPython `parse_qs` / `urlencode` -/

/-- `parse_qsl(qs, keep_blank_values=True)`: split the query on `&`
(an empty query yields no fields, an empty field is skipped), split each
field at the first `=` (a field with no `=` gets a blank value), and
`unquote_plus` names and values. -/
def pyParseQsl (qs : Str) : List (Str × Str) :=
  let pieces := if qs = [] then [] else splitAll '&' qs
  pieces.foldr
    (fun piece acc =>
      if piece = [] then acc
      else
        let (n, v) := (splitFirst '=' piece).getD (piece, [])
        (pyUnquotePlus n, pyUnquotePlus v) :: acc)
    []

/-- Append one `(name, value)` pair to the grouped dictionary, preserving
first-occurrence key order (Python dict insertion order). -/
def qsInsert (d : List (Str × List Str)) (k : Str) (v : Str) :
    List (Str × List Str) :=
  match d with
  | [] => [(k, [v])]
  | (k', vs) :: rest =>
    if k' = k then (k', vs ++ [v]) :: rest
    else (k', vs) :: qsInsert rest k v

/-- `parse_qs(qs, keep_blank_values=True)` as an insertion-ordered
association list. -/
def pyParseQs (qs : Str) : List (Str × List Str) :=
  (pyParseQsl qs).foldl (fun d (kv : Str × Str) => qsInsert d kv.1 kv.2) []

/-- `urlencode(d, doseq=True)` on a dict of string lists. -/
def pyUrlencode (d : List (Str × List Str)) : Str :=
  joinChar '&' <| d.flatMap fun kv =>
    kv.2.map fun v => pyQuotePlus kv.1 ++ '=' :: pyQuotePlus v

/-! ## `normalize_url` (backend/scraper.py lines 8–61; the function in
backend/scraper_hybrid.py lines 11–59 is character-for-character the
same code, so one embedding covers both). -/

/-- The tracking-parameter deny list. -/
def trackingParams : List Str :=
  [strOf "utm_source", strOf "utm_medium", strOf "utm_campaign",
   strOf "utm_term", strOf "utm_content",
   strOf "utm_id", strOf "utm_cid", strOf "utm_reader",
   strOf "utm_referrer", strOf "utm_name",
   strOf "utm_social", strOf "utm_social-type", strOf "utm_brand",
   strOf "utm_pubreferrer",
   strOf "fbclid", strOf "gclid", strOf "dclid", strOf "msclkid",
   strOf "ref", strOf "referrer", strOf "source", strOf "campaign",
   strOf "mc_cid", strOf "mc_eid",
   strOf "yclid",
   strOf "_ga", strOf "_gid",
   strOf "affiliate", strOf "affiliateCode",
   strOf "amp", strOf "amp;"]

/-- `key.lower() not in {p.lower() for p in tracking_params}` -/
def isTracking (k : Str) : Bool :=
  (trackingParams.map lowerS).contains (lowerS k)

/-- The path step of `normalize_url`: remove the trailing slash unless
the path is exactly `/`.  (`path.rstrip('/')` removes **all** trailing
slashes.) -/
def normPath (p : Str) : Str :=
  if p ≠ strOf "/" ∧ endsWith (strOf "/") p then rstripChar '/' p else p

/-- `normalize_url(url)`. -/
def normalizeUrl (url : Str) : Str :=
  let parsed := pyUrlparse url []
  let queryParams := pyParseQs parsed.query
  let filteredParams := queryParams.filter fun kv => ¬isTracking kv.1
  let newQuery := pyUrlencode filteredParams
  let path := normPath parsed.path
  pyUrlunparse ⟨parsed.scheme, parsed.netloc, path, parsed.params, newQuery, []⟩

/-! ## CPython `urljoin` -/

/-- `segments[1:-1] = filter(None, segments[1:-1])`: drop empty segments
from everything but the first and last positions. -/
def filterMiddle (l : List Str) : List Str :=
  match l with
  | [] => []
  | x :: xs =>
    match xs.getLast? with
    | none => [x]
    | some last => x :: (xs.dropLast.filter (· ≠ [])) ++ [last]

/-- The `resolved_path` accumulation loop of `urljoin`. -/
def resolveSegments (segments : List Str) : List Str :=
  segments.foldl
    (fun acc seg =>
      if seg = strOf ".." then acc.dropLast
      else if seg = strOf "." then acc
      else acc ++ [seg])
    []

/-- CPython `urljoin(base, url)`. -/
def pyUrljoin (base url : Str) : Str :=
  if base = [] then url
  else if url = [] then base
  else
    let b := pyUrlparse base []
    let u := pyUrlparse url b.scheme
    if u.scheme ≠ b.scheme ∨ u.scheme ∉ usesRelative then url
    else if u.scheme ∈ usesNetloc ∧ u.netloc ≠ [] then
      pyUrlunparse ⟨u.scheme, u.netloc, u.path, u.params, u.query, u.fragment⟩
    else
      let netloc := if u.scheme ∈ usesNetloc then b.netloc else u.netloc
      if u.path = [] ∧ u.params = [] then
        let query := if u.query = [] then b.query else u.query
        pyUrlunparse ⟨u.scheme, netloc, b.path, b.params, query, u.fragment⟩
      else
        let baseParts0 := splitAll '/' b.path
        let baseParts :=
          if baseParts0.getLast? ≠ some [] then baseParts0.dropLast
          else baseParts0
        let segments :=
          if startsWith (strOf "/") u.path then splitAll '/' u.path
          else filterMiddle (baseParts ++ splitAll '/' u.path)
        let resolved0 := resolveSegments segments
        let resolved :=
          if segments.getLast? = some (strOf ".")
              ∨ segments.getLast? = some (strOf "..") then
            resolved0 ++ [[]]
          else resolved0
        let joined := joinChar '/' resolved
        let path := if joined = [] then strOf "/" else joined
        pyUrlunparse ⟨u.scheme, netloc, path, u.params, u.query, u.fragment⟩

/-! ## Python `set` of strings and `sorted(list(s))`

A Python `set` is modelled as a duplicate-free list in insertion order
(iteration order of a CPython set is unspecified; every claim settled
against this model is order-independent or explicitly about the sorted
output). -/

/-- `s.add(x)`. -/
def insertS (l : List Str) (x : Str) : List Str :=
  if x ∈ l then l else l ++ [x]

/-- Fold `insertS` over many elements (`s.update(xs)`). -/
def unionS (l : List Str) (xs : List Str) : List Str := xs.foldl insertS l

/-- Python string `<=`: lexicographic comparison by code point. -/
def leS : Str → Str → Bool
  | [], _ => true
  | _ :: _, [] => false
  | a :: as, b :: bs => if a < b then true else if a = b then leS as bs else false

/-- Insert into a `leS`-sorted list, keeping it sorted. -/
def insertSorted (x : Str) : List Str → List Str
  | [] => [x]
  | y :: ys => if leS x y then x :: y :: ys else y :: insertSorted x ys

/-- Python `sorted(list(s))`: ascending code-point-lexicographic order
(insertion sort; the inputs here are duplicate-free sets, so stability
is irrelevant). -/
def sortedS (l : List Str) : List Str := l.foldr insertSorted []

/-! ## A small backtracking regex engine

Just enough of Python `re` to transcribe the fixed pattern battery of
`scraper_bundle.py` and the inline-`style` pattern of
`advanced_scraper.py`: character classes, concatenation, alternation,
lazy star, greedy star, greedy bounded/optional repetition and a single
capture group.  Alternatives are enumerated in exactly Python's
backtracking preference order, so the head of the enumeration is the
match Python finds.  Repetition is unrolled only through iterations that
consume input (every repeated sub-pattern in the transcribed battery
consumes at least one character per iteration, so this coincides with
Python's behavior on them). -/

inductive RE where
  | eps
  | cls (p : Char → Bool)
  | cat (a b : RE)
  | alt (a b : RE)
  | starL (a : RE)
  | starG (a : RE)
  | repG (lo hi : Nat) (a : RE)
  | optG (a : RE)
  | grp (a : RE)

namespace RE

/-- Combine the capture of a later sub-match with an earlier one (the
later assignment of a group wins, as in Python). -/
def capJoin (later earlier : Option Str) : Option Str :=
  match later with
  | some c => some c
  | none => earlier

/-- A bound on the recursion depth of the matcher at `re` on an input of
length `n`: every recursive call strictly decreases `2·n + fuelSize`. -/
def fuelSize : RE → Nat
  | .eps => 1
  | .cls _ => 1
  | .cat a b => 1 + a.fuelSize + b.fuelSize
  | .alt a b => 1 + a.fuelSize + b.fuelSize
  | .starL a => 1 + a.fuelSize
  | .starG a => 1 + a.fuelSize
  | .repG lo hi a => 1 + lo + hi + a.fuelSize
  | .optG a => 1 + a.fuelSize
  | .grp a => 1 + a.fuelSize

/-- All matches of `re` at the start of `s`, in Python preference order,
as `(remaining input, group-1 capture)` pairs.  The step count (first
argument) makes the recursion structural so the kernel can evaluate it;
`2 * s.length + re.fuelSize` steps always suffice (see `fuelSize`), and
the wrapper below supplies that. -/
def reMatchesF : Nat → RE → Str → List (Str × Option Str)
  | 0, _, _ => []
  | fuel + 1, re, s =>
    match re with
    | .eps => [(s, none)]
    | .cls p =>
      match s with
      | [] => []
      | c :: rest => if p c then [(rest, none)] else []
    | .cat a b =>
      (reMatchesF fuel a s).flatMap fun r1 =>
        (reMatchesF fuel b r1.1).map fun r2 => (r2.1, capJoin r2.2 r1.2)
    | .alt a b => reMatchesF fuel a s ++ reMatchesF fuel b s
    | .optG a => reMatchesF fuel a s ++ [(s, none)]
    | .grp a =>
      (reMatchesF fuel a s).map fun r =>
        (r.1, some (s.take (s.length - r.1.length)))
    | .starL a =>
      (s, none) :: ((reMatchesF fuel a s).flatMap fun r1 =>
        if r1.1.length < s.length then
          (reMatchesF fuel (.starL a) r1.1).map fun r2 =>
            (r2.1, capJoin r2.2 r1.2)
        else [])
    | .starG a =>
      ((reMatchesF fuel a s).flatMap fun r1 =>
        if r1.1.length < s.length then
          (reMatchesF fuel (.starG a) r1.1).map fun r2 =>
            (r2.1, capJoin r2.2 r1.2)
        else []) ++ [(s, none)]
    | .repG lo hi a =>
      if hi = 0 then [(s, none)]
      else if lo > 0 then
        (reMatchesF fuel a s).flatMap fun r1 =>
          (reMatchesF fuel (.repG (lo - 1) (hi - 1) a) r1.1).map fun r2 =>
            (r2.1, capJoin r2.2 r1.2)
      else
        ((reMatchesF fuel a s).flatMap fun r1 =>
          (reMatchesF fuel (.repG 0 (hi - 1) a) r1.1).map fun r2 =>
            (r2.1, capJoin r2.2 r1.2)) ++ [(s, none)]

def reMatches (re : RE) (s : Str) : List (Str × Option Str) :=
  reMatchesF (2 * s.length + re.fuelSize) re s

end RE

/-- `re.findall`: scan left to right, take Python's (first) match at the
first position that matches, emit the group-1 capture (the whole match
when the pattern records no group), and continue after the match
(advancing one character after a zero-width match).  The scan step count
is bounded by `s.length + 1`, which the wrapper supplies. -/
def reFindAllF (re : RE) : Nat → Str → List Str
  | 0, _ => []
  | fuel + 1, s =>
    match (RE.reMatches re s).head? with
    | some r =>
      if r.1.length < s.length then
        (r.2.getD (s.take (s.length - r.1.length))) :: reFindAllF re fuel r.1
      else
        match s with
        | [] => [r.2.getD []]
        | _ :: t => r.2.getD [] :: reFindAllF re fuel t
    | none =>
      match s with
      | [] => []
      | _ :: t => reFindAllF re fuel t

def reFindAll (re : RE) (s : Str) : List Str :=
  reFindAllF re (s.length + 1) s

/-! Pattern-building helpers. -/

/-- Literal sequence. -/
def reLit (lit : String) : RE :=
  lit.data.foldr (fun c acc => RE.cat (RE.cls (· = c)) acc) RE.eps

/-- Case-insensitive literal sequence (`re.IGNORECASE`). -/
def reLitI (lit : String) : RE :=
  lit.data.foldr
    (fun c acc => RE.cat (RE.cls fun x => x.toLower = c.toLower) acc)
    RE.eps

/-- `["\']` -/
def reQuote : RE := RE.cls fun c => c = '"' ∨ c = '\''

/-- `[^"\']` -/
def reNotQuote (c : Char) : Bool := ¬(c = '"' ∨ c = '\'')

/-- Python `\s` (ASCII repertoire). -/
def pyIsSpace (c : Char) : Bool :=
  c = ' ' ∨ c = '\t' ∨ c = '\n' ∨ c = '\r' ∨ c = '\x0b' ∨ c = '\x0c'

/-- Chain a list of regexes. -/
def reSeq (l : List RE) : RE := l.foldr RE.cat RE.eps

/-! ## The pattern battery of `scraper_bundle.py` (lines 148–184) and the
inline-style pattern of `advanced_scraper.py` (line 112). -/

/-- Pattern 1: `["\']\/blog\/([^"\'\/\s]{3,50})["\']` -/
def reBundle1 : RE :=
  reSeq [reQuote, reLit "/blog/",
    RE.grp (RE.repG 3 50 (RE.cls fun c =>
      ¬(c = '"' ∨ c = '\'' ∨ c = '/' ∨ pyIsSpace c))),
    reQuote]

/-- Pattern 2 (`re.IGNORECASE`):
`\{[^}]*?["\']slug["\']:\s*["\']([^"\']{5,50})["\'][^}]*?\}` -/
def reBundle2 : RE :=
  reSeq [reLit "\x7b", RE.starL (RE.cls (· ≠ '}')), reQuote, reLitI "slug",
    reQuote, reLit ":", RE.starG (RE.cls pyIsSpace), reQuote,
    RE.grp (RE.repG 5 50 (RE.cls reNotQuote)), reQuote,
    RE.starL (RE.cls (· ≠ '}')), reLit "\x7d"]

/-- Pattern 3:
`(?:router\.push|window\.location\.href|navigate)\(["\'](?:\/blog\/)?([^"\']{5,50})["\']` -/
def reBundle3 : RE :=
  reSeq [RE.alt (reLit "router.push")
      (RE.alt (reLit "window.location.href") (reLit "navigate")),
    reLit "(", reQuote, RE.optG (reLit "/blog/"),
    RE.grp (RE.repG 5 50 (RE.cls reNotQuote)), reQuote]

/-- The repeated body of pattern 4:
`\s*\{[^}]*?["\']slug["\']:\s*["\']([^"\']{5,50})["\'][^}]*?\}\s*,?` -/
def reBundle4Body : RE :=
  reSeq [RE.starG (RE.cls pyIsSpace), reLit "\x7b", RE.starL (RE.cls (· ≠ '}')),
    reQuote, reLit "slug", reQuote, reLit ":", RE.starG (RE.cls pyIsSpace),
    reQuote, RE.grp (RE.repG 5 50 (RE.cls reNotQuote)), reQuote,
    RE.starL (RE.cls (· ≠ '}')), reLit "\x7d", RE.starG (RE.cls pyIsSpace),
    RE.optG (reLit ",")]

/-- Pattern 4 (`re.DOTALL`; the pattern contains no `.`): `\[(?:…)+\s*\]`
with the repeated body above. -/
def reBundle4 : RE :=
  reSeq [reLit "[", reBundle4Body, RE.starG reBundle4Body,
    RE.starG (RE.cls pyIsSpace), reLit "]"]

/-- `advanced_scraper.py` style-attribute pattern:
`url\(["\']?([^"\']+)["\']?\)` -/
def reStyleUrl : RE :=
  reSeq [reLit "url(", RE.optG reQuote,
    RE.grp (RE.cat (RE.cls reNotQuote) (RE.starG (RE.cls reNotQuote))),
    RE.optG reQuote, reLit ")"]

/-! ## Strategy results -/

/-- The result dictionary shape shared by the extraction strategies
(`success`, `links`, `count`, optional `error`). -/
structure MethodResult where
  success : Bool
  links : List Str
  count : Nat
  error : Option Str := none
  deriving Repr, DecidableEq

/-! ## `extract_static_links` (backend/scraper_hybrid.py lines 61–120)

The HTTP fetch and BeautifulSoup parse are effects: the candidate being
iterated is `a['href']` for each `<a href=…>` element of the fetched
document, so the embedding receives the list of anchor `href` values and
performs the per-candidate pipeline of lines 85–111 verbatim. -/

/-- The unwanted-pattern list of lines 100–101. -/
def unwantedHybrid : List Str :=
  [strOf "cdn", strOf ".png", strOf ".jpg", strOf ".jpeg", strOf ".gif",
   strOf ".svg", strOf ".webp", strOf "assets", strOf "static",
   strOf ".js", strOf ".css"]

/-- `netloc.lower().replace('www.', '')` (the same-origin comparison key
used throughout the repository; `str.replace` removes every occurrence
of the substring, not only a leading prefix). -/
def domainKey (netloc : Str) : Str :=
  replaceSub (strOf "www.") [] (lowerS netloc)

/-- The link-collection loop of `extract_static_links` (lines 66–102). -/
def extractStaticCore (url : Str) (hrefs : List Str) : List Str :=
  let baseDomain := domainKey (pyUrlparse url []).netloc
  hrefs.foldl
    (fun acc href =>
      if startsWith (strOf "#") href ∨ startsWith (strOf "javascript:") href
          ∨ startsWith (strOf "mailto:") href then acc
      else
        let absoluteUrl := pyUrljoin url href
        let linkDomain := domainKey (pyUrlparse absoluteUrl []).netloc
        if linkDomain = baseDomain then
          if ¬ unwantedHybrid.any (fun pat => containsSub pat (lowerS absoluteUrl)) then
            insertS acc (normalizeUrl absoluteUrl)
          else acc
        else acc)
    []

/-- The successful-response path of `extract_static_links`
(`raise_for_status` plus lines 81–111). -/
def extractStaticResponse (url : Str) (p : Nat × List Str) : MethodResult :=
  if 400 ≤ p.1 then ⟨false, [], 0, some (strOf "HTTPError")⟩
  else
    let links := extractStaticCore url p.2
    ⟨true, sortedS links, links.length, none⟩

/-- `extract_static_links`, with the network fetch supplied as an oracle
returning either an exception message or `(status, anchor hrefs)`;
`raise_for_status` turns a status ≥ 400 into the exception branch. -/
def extractStaticLinks (fetch : Str → Except Str (Nat × List Str))
    (url : Str) : MethodResult :=
  match fetch url with
  | .error e => ⟨false, [], 0, some e⟩
  | .ok p => extractStaticResponse url p

/-! ## `extract_links_from_html` and `scrape_url` (backend/scraper.py) -/

/-- The unwanted-pattern list of lines 111–119 (brackets included). -/
def unwantedScraper : List Str :=
  unwantedHybrid ++
  [strOf "(", strOf ")", strOf "\x7b", strOf "\x7d", strOf "[", strOf "]"]

/-- The per-candidate pipeline of `extract_links_from_html`
(lines 93–143).  The two `href` regexes scan the raw HTML and
`html.unescape` decodes entity references; both are document-reading
effects here, so the embedding receives the unescaped captured
candidate values and performs lines 100–141 on each. -/
def extractLinksFromHtml (candidates : List Str) (baseUrl : Str) : List Str :=
  let baseDomainClean := domainKey (pyUrlparse baseUrl []).netloc
  let links := candidates.foldl
    (fun acc url =>
      if url = [] ∨ startsWith (strOf "#") url
          ∨ startsWith (strOf "javascript:") url
          ∨ startsWith (strOf "mailto:") url then acc
      else if hasChar '#' url then acc
      else
        let absoluteUrl := pyUrljoin baseUrl url
        if unwantedScraper.any (fun pat => containsSub pat (lowerS absoluteUrl)) then acc
        else
          let parsed := pyUrlparse absoluteUrl []
          if parsed.scheme = strOf "http" ∨ parsed.scheme = strOf "https" then
            if domainKey parsed.netloc = baseDomainClean then
              -- `absolute_url.split('"')[0]`
              let cleanUrl := absoluteUrl.takeWhile (· ≠ '"')
              insertS acc (normalizeUrl cleanUrl)
            else acc
          else acc)
    []
  sortedS links

/-- The result dictionary of `scrape_url`. -/
structure ScrapeResult where
  success : Bool
  links : List Str
  count : Nat
  error : Option Str := none
  statusCode : Option Nat := none
  deriving Repr, DecidableEq

/-- The successful-response path of `scrape_url` (`raise_for_status`
plus lines 184–195). -/
def scrapeUrlResponse (url : Str) (p : Nat × List Str) : ScrapeResult :=
  if 400 ≤ p.1 then
    ⟨false, [], 0, some (strOf "Request failed"), none⟩
  else
    let links := extractLinksFromHtml p.2 url
    ⟨true, links, links.length, none, some p.1⟩

/-- `scrape_url(url)`: invalid-URL guard, fetch via an oracle returning
either an exception message (timeout / request failure / unexpected —
all three `except` arms build the same error-dictionary shape) or
`(status, unescaped href candidates)`; `raise_for_status` maps a status
≥ 400 to the request-failure arm. -/
def scrapeUrl (fetch : Str → Except Str (Nat × List Str)) (url : Str) :
    ScrapeResult :=
  let parsed := pyUrlparse url []
  if parsed.scheme = [] ∨ parsed.netloc = [] then
    ⟨false, [], 0, some (strOf "Invalid URL format"), none⟩
  else
    match fetch url with
    | .error e => ⟨false, [], 0, some e, none⟩
    | .ok p => scrapeUrlResponse url p

/-! ## `extract_links_hybrid` (backend/scraper_hybrid.py lines 426–478)

The three strategies perform network/browser I/O, so the aggregator is
embedded over their result dictionaries; `invoked` instruments which
strategies the control flow runs (`static` and `nextjs`
unconditionally, `dynamic` only under the `len(all_links) < 5` guard —
the `dynamicR` argument is only consulted in that case). -/

structure HybridResult where
  success : Bool
  links : List Str
  count : Nat
  methodsUsed : List Str
  errors : List Str
  invoked : List Str
  deriving Repr, DecidableEq

/-- The running aggregation value: `(all_links, methods_used, errors)`. -/
abbrev HybridAcc := List Str × List Str × List Str

/-- Method 1 handling (lines 435–444). -/
def hybridAccStatic (staticR : MethodResult) : HybridAcc :=
  if staticR.success ∧ staticR.count > 0 then
    (unionS [] staticR.links, [strOf "static"], [])
  else
    ([], [],
     if ¬staticR.success then
       [strOf "Static: " ++ (staticR.error.getD (strOf "unknown"))]
     else [])

/-- Method 2 handling (lines 446–456). -/
def hybridAccNextjs (nextjsR : MethodResult) (a : HybridAcc) : HybridAcc :=
  if nextjsR.success ∧ nextjsR.count > 0 then
    (unionS a.1 nextjsR.links, a.2.1 ++ [strOf "nextjs"], a.2.2)
  else
    (a.1, a.2.1,
     if ¬nextjsR.success then
       a.2.2 ++ [strOf "Next.js: " ++ (nextjsR.error.getD (strOf "unknown"))]
     else a.2.2)

/-- Method 3 handling (lines 459–469), reached only when
`len(all_links) < 5`. -/
def hybridAccDynamic (dynamicR : MethodResult) (a : HybridAcc) : HybridAcc :=
  if dynamicR.success ∧ dynamicR.count > 0 then
    (unionS a.1 dynamicR.links, a.2.1 ++ [strOf "dynamic"], a.2.2)
  else
    (a.1, a.2.1,
     if ¬dynamicR.success then
       a.2.2 ++ [strOf "Dynamic: " ++ (dynamicR.error.getD (strOf "unknown"))]
     else a.2.2)

def extractLinksHybrid (staticR nextjsR dynamicR : MethodResult) :
    HybridResult :=
  let a1 := hybridAccStatic staticR
  let a2 := hybridAccNextjs nextjsR a1
  let a3 := if a2.1.length < 5 then hybridAccDynamic dynamicR a2 else a2
  { success := a3.1.length > 0
    links := sortedS a3.1
    count := a3.1.length
    methodsUsed := a3.2.1
    errors := a3.2.2
    invoked := [strOf "static", strOf "nextjs"]
               ++ (if a2.1.length < 5 then [strOf "dynamic"] else []) }

/-! ## `extract_links_from_network` result packaging
(backend/scraper_network.py lines 132–152)

The browser navigation, response interception and the 13-pattern regex
battery produce the raw candidate set `links`; the embedding receives it
and performs the filter/packaging of lines 132–152. -/

/-- The unwanted-pattern list of lines 136–138. -/
def unwantedNetwork : List Str :=
  [strOf ".js", strOf ".css", strOf ".png", strOf ".jpg", strOf ".jpeg",
   strOf ".gif", strOf ".svg", strOf ".webp", strOf "assets",
   strOf "static", strOf "cdn"]

def packageNetworkResult (url : Str) (rawLinks : List Str) : MethodResult :=
  let parsed := pyUrlparse url []
  let baseDomain := domainKey parsed.netloc
  let baseUrl := parsed.scheme ++ strOf "://" ++ parsed.netloc
  let filtered := rawLinks.foldl
    (fun acc link =>
      if ¬ unwantedNetwork.any (fun p => containsSub p (lowerS link)) then
        if containsSub (strOf "/blog/") link ∧ link ≠ baseUrl ++ strOf "/blog" then
          let linkDomain := domainKey (pyUrlparse link []).netloc
          if linkDomain = [] ∨ linkDomain = baseDomain then insertS acc link
          else acc
        else acc
      else acc)
    []
  ⟨true, sortedS filtered, filtered.length, none⟩

/-! ## `extract_links_from_bundle` (backend/scraper_bundle.py lines 144–352)

The browser work (loading the page, fetching the first 20 script
sources, reading the in-page `a[href]` list) is effect input: the
embedding receives the collected script payloads (`all_js_content`) and
the browser-filtered same-host page links (`page_links`), and performs
the pattern battery, slug validation, URL construction and combination
steps.  The runtime click-verification step only adds links observed
from live history-API navigation, so it contributes nothing in this
browserless model; the debug-file write is dropped. -/

/-- The pattern-battery loop over one payload (lines 144–184), folded
into the running slug set. -/
def bundleSlugsOfContent (slugs : List Str) (content : Str) : List Str :=
  if content = [] ∨ content.length < 100 then slugs
  else
    -- Pattern 1: direct `/blog/` URLs in strings
    let s1 := (reFindAll reBundle1 content).foldl
      (fun acc slug =>
        if slug ≠ [] ∧ hasChar '-' slug then insertS acc slug else acc)
      slugs
    -- Pattern 2: post objects with slug fields
    let s2 := (reFindAll reBundle2 content).foldl
      (fun acc slug =>
        if slug ≠ [] ∧ hasChar '-' slug then insertS acc slug else acc)
      s1
    -- Pattern 3: router.push / window.location patterns
    let s3 := (reFindAll reBundle3 content).foldl
      (fun acc slug =>
        if slug ≠ [] ∧ hasChar '-' slug ∧ ¬startsWith (strOf "http") slug then
          insertS acc slug
        else acc)
      s2
    -- Pattern 4: array of post objects
    (reFindAll reBundle4 content).foldl
      (fun acc m =>
        if m ≠ [] ∧ hasChar '-' m then insertS acc m else acc)
      s3

/-- `re.sub(r'[^a-zA-Z0-9\-]', '', slug)` -/
def cleanSlug (slug : Str) : Str :=
  slug.filter fun c => (c.isAlpha && c.toNat < 128) || c.isDigit || c = '-'

def extractLinksFromBundle (url : Str) (jsContents : List Str)
    (pageLinks : List Str) : MethodResult :=
  let parsed := pyUrlparse url []
  let baseUrl := parsed.scheme ++ strOf "://" ++ parsed.netloc
  let hrefLinks := pageLinks.foldl insertS []
  let slugPatterns := jsContents.foldl bundleSlugsOfContent []
  -- Step 3 (lines 188–211): construct URLs from validated slugs
  let currentPath := rstripChar '/' parsed.path
  let blogPosts := slugPatterns.foldl
    (fun posts slug =>
      let cs := cleanSlug slug
      if 5 ≤ cs.length ∧ hasChar '-' cs then
        let constructed := baseUrl ++ currentPath ++ '/' :: cs
        -- `if '#' in constructed_url: constructed_url.split('#')[0]`
        let constructed := constructed.takeWhile (· ≠ '#')
        insertS posts constructed
      else posts)
    []
  -- Combination (lines 298–314)
  let allFound0 := hrefLinks.foldl insertS []
  let allFound := blogPosts.foldl
    (fun acc postUrl =>
      if postUrl ≠ baseUrl ++ currentPath
          ∧ postUrl ≠ baseUrl ++ currentPath ++ strOf "/"
          ∧ (baseUrl ++ currentPath ++ strOf "/").length < postUrl.length then
        insertS acc postUrl
      else acc)
    allFound0
  ⟨true, sortedS allFound, allFound.length, none⟩

/-! ## `AdvancedScraper` (backend/advanced_scraper.py)

One crawl session.  The aiohttp fetch is an oracle from URL to outcome;
a successful outcome carries the response status, content type, byte
size, and the BeautifulSoup view of the body as a list of tags (parsing
HTML is the library effect).  `asyncio.gather` starts the per-depth
tasks in list order and each task's pre-await section (the
`should_download` check and the `visited_urls.add`) runs synchronously
at task start, so the batch is modelled as a sequential fold; set
iteration order is modelled as insertion order.  `fetch_log` is the
trace of `session.get` calls (instrumentation for stating fetch-count
properties); the file writes are dropped. -/

/-- One element of the BeautifulSoup document view. -/
structure Tag where
  name : Str
  attrs : List (Str × Str)
  deriving Repr, DecidableEq

def Tag.attr? (t : Tag) (k : Str) : Option Str :=
  (t.attrs.find? fun kv => kv.1 = k).map (·.2)

/-- Fetch outcome: an exception message, or
`(status, content_type, size, parsed body)`. -/
inductive Fetch where
  | err (e : Str)
  | ok (status : Nat) (contentType : Str) (size : Nat) (body : List Tag)

/-- The per-URL result dictionary of `download_single_file`. -/
inductive DownloadResult where
  | skipped (url : Str)
  | failed (url : Str) (error : Str)
  | success (url : Str) (fileType : Str) (filename : Str) (size : Nat)
      (contentType : Str) (depth : Nat) (linksExtracted : Option Nat)
  deriving Repr, DecidableEq

structure Crawler where
  baseUrl : Str      -- `base_url.rstrip('/')`
  maxDepth : Nat
  deriving Repr

/-- `AdvancedScraper(base_url, max_depth)` constructor state. -/
def initCrawler (baseUrl : Str) (maxDepth : Nat) : Crawler :=
  ⟨rstripChar '/' baseUrl, maxDepth⟩

structure ScrapeState where
  visited : List Str
  discovered : List Str
  downloadedFiles : List DownloadResult
  fetchLog : List Str
  deriving Repr

/-- `clean_url` (lines 51–54): drop the fragment. -/
def cleanUrlA (url : Str) : Str :=
  let p := pyUrlparse url []
  pyUrlunparse ⟨p.scheme, p.netloc, p.path, p.params, p.query, []⟩

/-- `is_same_domain` (lines 43–49). -/
def isSameDomain (c : Crawler) (url : Str) : Bool :=
  (pyUrlparse url []).netloc = (pyUrlparse c.baseUrl []).netloc

/-- `os.path.basename` for the URL paths here: the part after the last
`/`. -/
def basenameS (p : Str) : Str := (p.reverse.takeWhile (· ≠ '/')).reverse

/-- Python `s.strip('/')`. -/
def stripSlashes (s : Str) : Str :=
  ((s.dropWhile (· = '/')).reverse.dropWhile (· = '/')).reverse

/-- `get_file_type_and_path` (lines 56–74). -/
def getFileTypeAndPath (url : Str) : Str × Str :=
  let path := stripSlashes (pyUrlparse url []).path
  if path = [] ∨ endsWith (strOf "/") path then
    (strOf "html", strOf "index.html")
  else if endsWith (strOf ".css") path then
    (strOf "css", strOf "css/" ++ basenameS path)
  else if endsWith (strOf ".js") path then
    (strOf "js", strOf "js/" ++ basenameS path)
  else if [strOf ".png", strOf ".jpg", strOf ".jpeg", strOf ".gif",
      strOf ".svg", strOf ".ico", strOf ".webp"].any
      (fun ext => endsWith ext path) then
    (strOf "image", strOf "images/" ++ basenameS path)
  else if ¬ hasChar '.' (basenameS path) then
    (strOf "html", (path.map fun c => if c = '/' then '_' else c) ++ strOf ".html")
  else
    (strOf "other", path.map fun c => if c = '/' then '_' else c)

/-- `extract_all_links` (lines 76–117): anchors, stylesheet links,
script sources, image sources, and `url(...)` references in inline
`style` attributes; each candidate is resolved against the base and
fragment-stripped.  Returns the set as an insertion-ordered list. -/
def extractAllLinks (doc : List Tag) (baseUrl : Str) : List Str :=
  let links : List Str := []
  -- 1. anchors
  let links := doc.foldl
    (fun acc t =>
      if t.name = strOf "a" then
        match t.attr? (strOf "href") with
        | some href0 =>
          let href := pyStrip href0
          if href ≠ [] ∧ ¬startsWith (strOf "#") href
              ∧ ¬startsWith (strOf "mailto:") href
              ∧ ¬startsWith (strOf "tel:") href then
            insertS acc (cleanUrlA (pyUrljoin baseUrl href))
          else acc
        | none => acc
      else acc)
    links
  -- 2. `<link href=…>`
  let links := doc.foldl
    (fun acc t =>
      if t.name = strOf "link" then
        match t.attr? (strOf "href") with
        | some href0 =>
          let href := pyStrip href0
          if href ≠ [] then insertS acc (cleanUrlA (pyUrljoin baseUrl href))
          else acc
        | none => acc
      else acc)
    links
  -- 3. `<script src=…>`
  let links := doc.foldl
    (fun acc t =>
      if t.name = strOf "script" then
        match t.attr? (strOf "src") with
        | some src0 =>
          let src := pyStrip src0
          if src ≠ [] then insertS acc (cleanUrlA (pyUrljoin baseUrl src))
          else acc
        | none => acc
      else acc)
    links
  -- 4. `<img src=…>`
  let links := doc.foldl
    (fun acc t =>
      if t.name = strOf "img" then
        match t.attr? (strOf "src") with
        | some src0 =>
          let src := pyStrip src0
          if src ≠ [] then insertS acc (cleanUrlA (pyUrljoin baseUrl src))
          else acc
        | none => acc
      else acc)
    links
  -- 5. background URLs in style attributes
  doc.foldl
    (fun acc t =>
      match t.attr? (strOf "style") with
      | some style =>
        (reFindAll reStyleUrl style).foldl
          (fun acc u => insertS acc (cleanUrlA (pyUrljoin baseUrl (pyStrip u))))
          acc
      | none => acc)
    links

/-- `should_download` (lines 119–140). -/
def shouldDownload (c : Crawler) (st : ScrapeState) (url : Str) : Bool :=
  if ¬ isSameDomain c url then false
  else if url ∈ st.visited then false
  else
    let path := lowerS (pyUrlparse url []).path
    ¬ [strOf "/_next/static/chunks/webpack", strOf "/_next/static/chunks/polyfills",
       strOf ".map", strOf ".xml", strOf ".txt"].any
      fun pat => containsSub pat path

/-- `is_html_content` (lines 142–149). -/
def isHtmlContent (url : Str) (contentType : Str) : Bool :=
  if containsSub (strOf "html") (lowerS contentType) then true
  else
    let path := (pyUrlparse url []).path
    ¬ hasChar '.' (basenameS path) ∨ endsWith (strOf "/") path

/-- The link-discovery step of `download_single_file` (lines 189–206):
on an HTML body below the depth limit, extract all links and append to
the discovered set those not yet visited and not yet discovered,
counting the new ones. -/
def discoverLinks (maxDepth : Nat) (st1 : ScrapeState) (url : Str)
    (contentType : Str) (body : List Tag) (depth : Nat) :
    ScrapeState × Option Nat :=
  if isHtmlContent url contentType ∧ depth < maxDepth then
    let extracted := extractAllLinks body url
    let r := extracted.foldl
      (fun acc link =>
        if link ∉ st1.visited ∧ link ∉ acc.1 then (acc.1 ++ [link], acc.2 + 1)
        else acc)
      (st1.discovered, 0)
    ({ st1 with discovered := r.1 }, some r.2)
  else (st1, none)

/-- `download_single_file` (lines 151–214). -/
def downloadSingleFile (c : Crawler) (fetch : Str → Fetch)
    (st : ScrapeState) (url : Str) (depth : Nat) :
    ScrapeState × DownloadResult :=
  if ¬ shouldDownload c st url ∨ depth > c.maxDepth then
    (st, .skipped url)
  else
    let st1 := { st with visited := insertS st.visited url,
                         fetchLog := st.fetchLog ++ [url] }
    match fetch url with
    | .err e => (st1, .failed url e)
    | .ok status contentType size body =>
      if status ≠ 200 then
        (st1, .failed url (strOf "HTTP " ++ strOf (toString status)))
      else
        let ftp := getFileTypeAndPath url
        let r := discoverLinks c.maxDepth st1 url contentType body depth
        let res := DownloadResult.success url ftp.1 ftp.2 size
          contentType depth r.2
        ({ r.1 with downloadedFiles := r.1.downloadedFiles ++ [res] }, res)

/-- One per-depth batch: `asyncio.gather` over
`urls_at_depth[:50]` (the `[:50]` cap is applied by the caller). -/
def processBatch (c : Crawler) (fetch : Str → Fetch)
    (st : ScrapeState) (urls : List Str) (depth : Nat) : ScrapeState :=
  urls.foldl (fun s u => (downloadSingleFile c fetch s u depth).1) st

/-- The depth loop of `scrape_recursive` (lines 228–238):
`for current_depth in range(self.max_depth + 1)` iterates
`max_depth + 1` times (the first argument counts the remaining
iterations, the second is `current_depth`), breaking early when no
unvisited discovered URL remains. -/
def scrapeLoop (c : Crawler) (fetch : Str → Fetch) :
    Nat → Nat → ScrapeState → ScrapeState
  | 0, _, st => st
  | remaining + 1, depth, st =>
    let urlsAtDepth := st.discovered.filter (· ∉ st.visited)
    if urlsAtDepth = [] then st
    else
      scrapeLoop c fetch remaining (depth + 1)
        (processBatch c fetch st (urlsAtDepth.take 50) depth)

/-- `scrape_recursive` (lines 216–268): seed the discovered set with the
base URL and run the depth loop (the summary JSON is assembled from this
final state). -/
def scrapeRecursive (c : Crawler) (fetch : Str → Fetch) : ScrapeState :=
  scrapeLoop c fetch (c.maxDepth + 1) 0 ⟨[], [c.baseUrl], [], []⟩

/-! ## Set / sort helper lemmas -/

theorem mem_insertS {l : List Str} {x y : Str} :
    y ∈ insertS l x ↔ y ∈ l ∨ y = x := by
  unfold insertS
  split
  · rename_i h
    constructor
    · exact Or.inl
    · rintro (hy | rfl) <;> [exact hy; exact h]
  · simp [List.mem_append]

theorem nodup_insertS {l : List Str} {x : Str} (h : l.Nodup) :
    (insertS l x).Nodup := by
  unfold insertS
  split
  · exact h
  · rename_i hx
    simpa [List.nodup_append] using ⟨h, fun hmem => hx hmem⟩

theorem length_insertS_ge {l : List Str} {x : Str} :
    l.length ≤ (insertS l x).length := by
  unfold insertS
  split
  · exact le_refl _
  · simp

theorem length_unionS_ge (l : List Str) (xs : List Str) :
    l.length ≤ (unionS l xs).length := by
  induction xs generalizing l with
  | nil => simp [unionS]
  | cons x t ih =>
    calc l.length ≤ (insertS l x).length := length_insertS_ge
    _ ≤ (unionS (insertS l x) t).length := ih _
    _ = (unionS l (x :: t)).length := rfl

theorem unionS_of_nodup_disjoint (acc xs : List Str) (hn : xs.Nodup)
    (hd : ∀ x ∈ xs, x ∉ acc) : unionS acc xs = acc ++ xs := by
  induction xs generalizing acc with
  | nil => simp [unionS]
  | cons x t ih =>
    have hx : x ∉ acc := hd x (by simp)
    have step : insertS acc x = acc ++ [x] := by simp [insertS, hx]
    have hn' : t.Nodup := (List.nodup_cons.mp hn).2
    have hxn : x ∉ t := (List.nodup_cons.mp hn).1
    have hd' : ∀ y ∈ t, y ∉ acc ++ [x] := by
      intro y hy
      simp only [List.mem_append, List.mem_singleton]
      rintro (hya | rfl)
      · exact hd y (by simp [hy]) hya
      · exact hxn hy
    show unionS (insertS acc x) t = acc ++ x :: t
    rw [step, ih _ hn' hd']
    simp

/-- Provenance of `insertS`-folds: if each step either keeps the
accumulator or inserts an element satisfying `Q`, every element of the
result is from the initial accumulator or satisfies `Q`. -/
theorem foldl_insert_mem {α : Type} (step : List Str → α → List Str)
    (l : List α) (Q : Str → Prop)
    (h : ∀ s x, x ∈ l → step s x = s ∨ ∃ y, Q y ∧ step s x = insertS s y) :
    ∀ acc z, z ∈ l.foldl step acc → z ∈ acc ∨ Q z := by
  induction l with
  | nil => intro acc z hz; exact Or.inl hz
  | cons x t ih =>
    intro acc z hz
    have hstep := h acc x (by simp)
    have ih' := ih (fun s y hy => h s y (by simp [hy])) (step acc x) z hz
    rcases ih' with hz' | hq
    · rcases hstep with he | ⟨y, hQ, he⟩
      · rw [he] at hz'; exact Or.inl hz'
      · rw [he] at hz'
        rcases mem_insertS.mp hz' with hz'' | rfl
        · exact Or.inl hz''
        · exact Or.inr hQ
    · exact Or.inr hq

/-- `insertS`-folds preserve `Nodup`. -/
theorem foldl_insert_nodup {α : Type} (step : List Str → α → List Str)
    (l : List α)
    (h : ∀ s x, x ∈ l → step s x = s ∨ ∃ y, step s x = insertS s y) :
    ∀ acc, acc.Nodup → (l.foldl step acc).Nodup := by
  induction l with
  | nil => intro acc ha; exact ha
  | cons x t ih =>
    intro acc ha
    have ha' : (step acc x).Nodup := by
      rcases h acc x (by simp) with he | ⟨y, he⟩
      · rw [he]; exact ha
      · rw [he]; exact nodup_insertS ha
    exact ih (fun s y hy => h s y (by simp [hy])) _ ha'

theorem leS_total (a b : Str) : leS a b = true ∨ leS b a = true := by
  induction a generalizing b with
  | nil => left; rfl
  | cons x xs ih =>
    cases b with
    | nil => right; rfl
    | cons y ys =>
      rcases lt_trichotomy x y with h | h | h
      · left; simp [leS, h]
      · subst h
        rcases ih ys with h' | h'
        · left; simp [leS, h']
        · right; simp [leS, h']
      · right; simp [leS, h]

theorem leS_trans (a b c : Str) (hab : leS a b = true) (hbc : leS b c = true) :
    leS a c = true := by
  induction a generalizing b c with
  | nil => rfl
  | cons x xs ih =>
    cases b with
    | nil => simp [leS] at hab
    | cons y ys =>
      cases c with
      | nil => simp [leS] at hbc
      | cons z zs =>
        simp only [leS] at hab hbc ⊢
        rcases lt_trichotomy x y with hxy | hxy | hxy
        · rcases lt_trichotomy y z with hyz | hyz | hyz
          · simp [lt_trans hxy hyz]
          · subst hyz; simp [hxy]
          · simp [not_lt_of_gt hyz] at hbc
            exact absurd hbc.1 (by intro he; rw [he] at hyz; exact absurd hyz (lt_irrefl _))
        · subst hxy
          rcases lt_trichotomy x z with hxz | hxz | hxz
          · simp [hxz]
          · subst hxz
            simp only [lt_irrefl, if_neg (lt_irrefl x), if_pos rfl] at hab hbc ⊢
            exact ih ys zs hab hbc
          · simp [not_lt_of_gt hxz] at hbc
            exact absurd hbc.1 (by intro he; rw [he] at hxz; exact absurd hxz (lt_irrefl _))
        · simp [not_lt_of_gt hxy] at hab
          exact absurd hab.1 (by intro he; rw [he] at hxy; exact absurd hxy (lt_irrefl _))

theorem insertSorted_perm (x : Str) (l : List Str) :
    (insertSorted x l).Perm (x :: l) := by
  induction l with
  | nil => rfl
  | cons y ys ih =>
    unfold insertSorted
    split
    · rfl
    · exact ((ih.cons y).trans (List.Perm.swap x y ys))

theorem sortedS_perm (l : List Str) : (sortedS l).Perm l := by
  induction l with
  | nil => rfl
  | cons x t ih =>
    exact (insertSorted_perm x (sortedS t)).trans (ih.cons x)

theorem mem_sortedS {l : List Str} {z : Str} : z ∈ sortedS l ↔ z ∈ l :=
  (sortedS_perm l).mem_iff

theorem sortedS_length (l : List Str) : (sortedS l).length = l.length :=
  (sortedS_perm l).length_eq

theorem sortedS_nodup {l : List Str} (h : l.Nodup) : (sortedS l).Nodup :=
  ((sortedS_perm l).symm.nodup h)

theorem insertSorted_sorted {x : Str} {l : List Str}
    (h : l.Pairwise (fun a b => leS a b = true)) :
    (insertSorted x l).Pairwise (fun a b => leS a b = true) := by
  induction l with
  | nil => simp [insertSorted]
  | cons y ys ih =>
    unfold insertSorted
    split
    · rename_i hxy
      refine List.Pairwise.cons ?_ h
      intro z hz
      rcases List.mem_cons.mp hz with rfl | hz'
      · exact hxy
      · exact leS_trans x y z hxy (List.rel_of_pairwise_cons h hz')
    · rename_i hxy
      have hyx : leS y x = true := by
        rcases leS_total x y with h' | h'
        · exact absurd h' hxy
        · exact h'
      refine List.Pairwise.cons ?_ (ih (List.Pairwise.of_cons h))
      intro z hz
      rcases List.mem_cons.mp ((insertSorted_perm x ys).mem_iff.mp hz) with rfl | hz'
      · exact hyx
      · exact List.rel_of_pairwise_cons h hz'

theorem sortedS_sorted (l : List Str) :
    (sortedS l).Pairwise (fun a b => leS a b = true) := by
  induction l with
  | nil => simp [sortedS]
  | cons x t ih => exact insertSorted_sorted ih

/-- Strictly ascending (Python `sorted` of a set): adjacentwise `≤` and
global distinctness. -/
def strictSorted (l : List Str) : Prop :=
  l.Pairwise (fun a b => leS a b = true ∧ a ≠ b)

theorem sortedS_strictSorted {l : List Str} (h : l.Nodup) :
    strictSorted (sortedS l) :=
  (sortedS_sorted l).and (sortedS_nodup h)

/-! ## Claim C5: trailing-slash normalization -/

theorem endsWith_rstripChar (c : Char) (s : Str) :
    endsWith [c] (rstripChar c s) = false := by
  unfold endsWith rstripChar
  rw [List.reverse_reverse]
  induction s.reverse with
  | nil => rfl
  | cons x t ih =>
    by_cases hx : x = c
    · simpa [List.dropWhile, hx] using ih
    · simp [List.dropWhile, hx, List.isPrefixOf, Ne.symm hx]

/-- C5 (amended): `normalize_url` removes **all** trailing slashes from
the path (not exactly one) whenever the path ends in `/` and is not
exactly `/`, leaves the root path `/` unchanged, and in particular
`https://x.com/a//` normalizes to `https://x.com/a` (the path keeps
none of its trailing slashes). -/
theorem C5_trailing_slash_strip :
    (∀ p : Str, normPath p ≠ strOf "/" →
       endsWith (strOf "/") (normPath p) = false)
    ∧ normPath (strOf "/") = strOf "/"
    ∧ normalizeUrl (strOf "https://x.com/a//") = strOf "https://x.com/a" := by
  refine ⟨?_, by decide, by decide⟩
  intro p hne
  unfold normPath at hne ⊢
  by_cases h : p ≠ strOf "/" ∧ endsWith (strOf "/") p = true
  · rw [if_pos h] at hne ⊢
    exact endsWith_rstripChar '/' p
  · rw [if_neg h] at hne ⊢
    rcases Decidable.not_and_iff_or_not.mp h with h1 | h2
    · exact absurd (Decidable.not_not.mp h1) hne
    · exact Bool.not_eq_true _ ▸ Bool.of_not_eq_true h2

/-- Witness for C5: the amended statement evaluated at the
double-trailing-slash path. -/
theorem C5_trailing_slash_strip_witness :
    endsWith (strOf "/") (normPath (strOf "/a//")) = false :=
  C5_trailing_slash_strip.1 (strOf "/a//") (by decide)

/-- C5 counterexample: the claim predicts that `'/a//'` retains all but
one slash (normalizing to `…/a/`); the code removes them all. -/
theorem C5_trailing_slash_counterexample :
    normalizeUrl (strOf "https://x.com/a//") ≠ strOf "https://x.com/a/"
    ∧ normalizeUrl (strOf "https://x.com/a//") = strOf "https://x.com/a" := by
  constructor <;> decide

/-! ## Claim C7: bundle-heuristic slug construction -/

/-- A script payload that is exactly the slug object (24 characters). -/
def bundlePayloadShort : Str := strOf "\x7b\"slug\":\"my-post-title\"\x7d"

/-- The same object inside a payload long enough to pass the
100-character minimum (inert `z` padding). -/
def bundlePayloadPadded : Str := bundlePayloadShort ++ List.replicate 80 'z'

/-- C7 counterexample: a script payload that contains (indeed, is) the
object text `{"slug":"my-post-title"}` on the page
`https://example.com/blog`, yet the strategy's output does **not**
contain `https://example.com/blog/my-post-title`, because
`extract_links_from_bundle` skips payloads shorter than 100 characters
(`if not content or len(content) < 100: continue`). -/
theorem C7_bundle_slug_counterexample :
    containsSub (strOf "\x7b\"slug\":\"my-post-title\"\x7d") bundlePayloadShort = true
    ∧ strOf "https://example.com/blog/my-post-title"
        ∉ (extractLinksFromBundle (strOf "https://example.com/blog")
            [bundlePayloadShort] []).links := by
  constructor
  · decide
  · decide

/-- C7 (amended): the bundle-heuristic scenario holds once the payload
meets the 100-character minimum: for the page at path `/blog` whose
(≥ 100-character) script payload contains `{"slug":"my-post-title"}`
followed by inert padding, the slug passes the minimum-length and
hyphen validation and the output contains
`https://example.com/blog/my-post-title`. -/
theorem C7_bundle_slug_construction :
    100 ≤ bundlePayloadPadded.length
    ∧ containsSub (strOf "\x7b\"slug\":\"my-post-title\"\x7d") bundlePayloadPadded = true
    ∧ strOf "https://example.com/blog/my-post-title"
        ∈ (extractLinksFromBundle (strOf "https://example.com/blog")
            [bundlePayloadPadded] []).links := by
  refine ⟨by decide, by decide, ?_⟩
  decide

/-! ## Claim C2: aggregator escalation -/

/-- A successful strategy result with five links (the minimum-link
threshold of `extract_links_hybrid` is `len(all_links) < 5`). -/
def staticFiveResult : MethodResult :=
  ⟨true,
   [strOf "https://a.com/1", strOf "https://a.com/2", strOf "https://a.com/3",
    strOf "https://a.com/4", strOf "https://a.com/5"], 5, none⟩

/-- A successful zero-link strategy result. -/
def emptyMethodResult : MethodResult := ⟨true, [], 0, none⟩

/-- C2 counterexample: the Static strategy returns 5 links (meeting the
threshold), yet the Next.js/Bundle-Heuristic strategy is still invoked —
`extract_links_hybrid` calls `extract_nextjs_data` unconditionally; only
the Runtime (dynamic) strategy is behind the `len(all_links) < 5`
guard. -/
theorem C2_escalation_counterexample :
    staticFiveResult.success = true ∧ 5 ≤ staticFiveResult.count
    ∧ strOf "nextjs"
        ∈ (extractLinksHybrid staticFiveResult emptyMethodResult
            emptyMethodResult).invoked := by
  refine ⟨rfl, by decide, by decide⟩

theorem nodup_unionS {l : List Str} (xs : List Str) (h : l.Nodup) :
    (unionS l xs).Nodup := by
  induction xs generalizing l with
  | nil => exact h
  | cons x t ih => exact ih (nodup_insertS h)

/-- C2 (amended): when the Static strategy succeeds with at least
five (distinct) links, the Runtime (dynamic) strategy is not invoked —
but the Next.js/Bundle-Heuristic strategy is always invoked, threshold
or not: the invocation list is exactly `["static", "nextjs"]`. -/
theorem C2_escalation :
    ∀ sR nR dR : MethodResult, sR.success = true → sR.links.Nodup →
      0 < sR.count → 5 ≤ sR.links.length →
      (extractLinksHybrid sR nR dR).invoked = [strOf "static", strOf "nextjs"] := by
  intro sR nR dR hs hn hc hl
  have hall1 : (hybridAccStatic sR).1 = sR.links := by
    unfold hybridAccStatic
    rw [if_pos ⟨hs, hc⟩]
    have := unionS_of_nodup_disjoint [] sR.links hn (by simp)
    simpa using this
  have h2len : 5 ≤ (hybridAccNextjs nR (hybridAccStatic sR)).1.length := by
    unfold hybridAccNextjs
    split
    · calc (5 : Nat) ≤ sR.links.length := hl
        _ = (hybridAccStatic sR).1.length := by rw [hall1]
        _ ≤ _ := length_unionS_ge _ _
    · simpa [hall1] using hl
  unfold extractLinksHybrid
  simp only [if_neg (by omega : ¬ (hybridAccNextjs nR (hybridAccStatic sR)).1.length < 5),
    List.append_nil]

/-- Witness for C2: the amended statement evaluated at the five-link
static result. -/
theorem C2_escalation_witness :
    (extractLinksHybrid staticFiveResult emptyMethodResult
        emptyMethodResult).invoked = [strOf "static", strOf "nextjs"] :=
  C2_escalation staticFiveResult emptyMethodResult emptyMethodResult
    rfl (by decide) (by decide) (by decide)

/-! ## Claim C3: end-to-end discovery scenario -/

/-- The seed page of the scenario: anchors to `/a`, `/a#frag`,
`https://example.com/a?utm_source=x`, and `https://other.com/b`. -/
def c3Doc : List Tag :=
  [⟨strOf "a", [(strOf "href", strOf "/a")]⟩,
   ⟨strOf "a", [(strOf "href", strOf "/a#frag")]⟩,
   ⟨strOf "a", [(strOf "href", strOf "https://example.com/a?utm_source=x")]⟩,
   ⟨strOf "a", [(strOf "href", strOf "https://other.com/b")]⟩]

def c3Fetch (u : Str) : Fetch :=
  if u = strOf "https://example.com" then
    .ok 200 (strOf "text/html") 100 c3Doc
  else .ok 200 (strOf "text/html") 10 []

/-- The crawl session seeded at `https://example.com` with `maxDepth=1`. -/
def c3Run : ScrapeState :=
  scrapeRecursive (initCrawler (strOf "https://example.com") 1) c3Fetch

/-- C3 counterexample: the newly discovered set is **not** exactly
`{https://example.com/a}` — the tracking-parameter variant and even the
cross-origin URL are also discovered, because `AdvancedScraper` resolves
candidates with `clean_url` (fragment stripping only, no query
normalization) and applies no same-origin filter at discovery time. -/
theorem C3_discovery_counterexample :
    strOf "https://example.com/a?utm_source=x" ∈ c3Run.discovered
    ∧ strOf "https://other.com/b" ∈ c3Run.discovered
    ∧ strOf "https://example.com/a?utm_source=x" ≠ strOf "https://example.com/a"
    ∧ strOf "https://example.com/a?utm_source=x" ≠ strOf "https://example.com" := by
  refine ⟨by decide, by decide, by decide, by decide⟩

/-- C3 (amended): for the scenario crawl, the set of URLs discovered
beyond the seed after depth 0 is exactly
`{https://example.com/a, https://example.com/a?utm_source=x,
https://other.com/b}`: the two fragment variants collapse to one URL,
but the `utm_source` variant stays distinct and the cross-origin link
enters the discovered set (it is only refused at download time). -/
theorem C3_discovery :
    (c3Run.discovered.filter (· ≠ strOf "https://example.com")).toFinset
      = ({strOf "https://example.com/a",
          strOf "https://example.com/a?utm_source=x",
          strOf "https://other.com/b"} : Finset Str) := by
  decide

/-! ## Claim C6: same-origin filtering -/

/-- Modelled from the spec: “**Same-origin**: host-equality check
ignoring a `www.` prefix” — strip one *leading* `www.` from a host.
(The code instead removes every occurrence of the substring `www.`;
this definition exists to state the divergence.) -/
def specStripLeadingWww (host : Str) : Str :=
  if startsWith (strOf "www.") host then host.drop 4 else host

/-- C6 counterexample: base `https://x.www.com` and candidate
`https://x.com/p` have different hosts under the claim's
leading-`www.`-insensitive comparison, yet the candidate appears in the
static strategy's output, because `.replace('www.', '')` deletes the
substring `www.` anywhere in the host, making `x.www.com` and `x.com`
compare equal. -/
theorem C6_same_origin_counterexample :
    specStripLeadingWww (lowerS (pyUrlparse (strOf "https://x.com/p") []).netloc)
      ≠ specStripLeadingWww (lowerS (pyUrlparse (strOf "https://x.www.com") []).netloc)
    ∧ strOf "https://x.com/p"
        ∈ extractStaticCore (strOf "https://x.www.com") [strOf "https://x.com/p"] := by
  refine ⟨by decide, by decide⟩

/-- C6 (amended): the same-origin filter compares hosts after
lowercasing and removing every occurrence of the substring `www.`
(`domainKey`): every link in the output of the static extractors is the
normalization of a candidate resolved against the base whose host agrees
with the base host under that comparison — links whose hosts differ
under it never appear. -/
theorem C6_same_origin :
    (∀ url hrefs z, z ∈ extractStaticCore url hrefs →
      ∃ a ∈ hrefs, z = normalizeUrl (pyUrljoin url a)
        ∧ domainKey (pyUrlparse (pyUrljoin url a) []).netloc
          = domainKey (pyUrlparse url []).netloc)
    ∧ (∀ cands base z, z ∈ extractLinksFromHtml cands base →
      ∃ a ∈ cands, z = normalizeUrl ((pyUrljoin base a).takeWhile (· ≠ '"'))
        ∧ domainKey (pyUrlparse (pyUrljoin base a) []).netloc
          = domainKey (pyUrlparse base []).netloc) := by
  constructor
  · intro url hrefs z hz
    unfold extractStaticCore at hz
    have := foldl_insert_mem _ hrefs
      (fun y => ∃ a ∈ hrefs, y = normalizeUrl (pyUrljoin url a)
        ∧ domainKey (pyUrlparse (pyUrljoin url a) []).netloc
          = domainKey (pyUrlparse url []).netloc) ?_ [] z hz
    · rcases this with h | h
      · exact absurd h (List.not_mem_nil z)
      · exact h
    · intro s x hx
      dsimp only
      split
      · exact Or.inl rfl
      · split
        · split
          · exact Or.inr ⟨normalizeUrl (pyUrljoin url x),
              ⟨x, hx, rfl, by assumption⟩, rfl⟩
          · exact Or.inl rfl
        · exact Or.inl rfl
  · intro cands base z hz
    unfold extractLinksFromHtml at hz
    rw [mem_sortedS] at hz
    have := foldl_insert_mem _ cands
      (fun y => ∃ a ∈ cands, y = normalizeUrl ((pyUrljoin base a).takeWhile (· ≠ '"'))
        ∧ domainKey (pyUrlparse (pyUrljoin base a) []).netloc
          = domainKey (pyUrlparse base []).netloc) ?_ [] z hz
    · rcases this with h | h
      · exact absurd h (List.not_mem_nil z)
      · exact h
    · intro s x hx
      dsimp only
      split
      · exact Or.inl rfl
      · split
        · exact Or.inl rfl
        · split
          · exact Or.inl rfl
          · split
            · split
              · exact Or.inr ⟨_, ⟨x, hx, rfl, by assumption⟩, rfl⟩
              · exact Or.inl rfl
            · exact Or.inl rfl

/-- Witness for C6: the same-origin provenance applied to a concrete
same-host link. -/
theorem C6_same_origin_witness :
    ∃ a ∈ [strOf "/p"],
      strOf "https://a.com/p" = normalizeUrl (pyUrljoin (strOf "https://a.com") a)
      ∧ domainKey (pyUrlparse (pyUrljoin (strOf "https://a.com") a) []).netloc
        = domainKey (pyUrlparse (strOf "https://a.com") []).netloc :=
  C6_same_origin.1 (strOf "https://a.com") [strOf "/p"]
    (strOf "https://a.com/p") (by decide)

/-! ## Structural lemmas about `download_single_file` -/

theorem shouldDownload_false_of_visited (c : Crawler) (st : ScrapeState)
    {url : Str} (h : url ∈ st.visited) : shouldDownload c st url = false := by
  unfold shouldDownload
  split <;> simp [h]

/-- The guard-skip behavior. -/
theorem downloadSingleFile_skip (c : Crawler) (fetch : Str → Fetch)
    (st : ScrapeState) (url : Str) (depth : Nat)
    (h : ¬ shouldDownload c st url = true ∨ depth > c.maxDepth) :
    downloadSingleFile c fetch st url depth = (st, .skipped url) := by
  unfold downloadSingleFile
  rw [if_pos h]

/-- The per-element discovery filter of `download_single_file` lines
196–200: the final discovered list extends the accumulator, every
element is an old one or was neither visited nor discovered, and the
old ones are kept. -/
theorem discFold_prop (visited discovered : List Str)
    (extracted : List Str) :
    ∀ acc : List Str × Nat,
      (∀ z ∈ acc.1, z ∈ discovered ∨ (z ∉ visited ∧ z ∉ discovered)) →
      (∀ z ∈ discovered, z ∈ acc.1) →
      (∀ z ∈ (List.foldl
          (fun acc link =>
            if link ∉ visited ∧ link ∉ acc.1 then (acc.1 ++ [link], acc.2 + 1)
            else acc) acc extracted).1,
          z ∈ discovered ∨ (z ∉ visited ∧ z ∉ discovered))
      ∧ (∀ z ∈ discovered, z ∈ (List.foldl
          (fun acc link =>
            if link ∉ visited ∧ link ∉ acc.1 then (acc.1 ++ [link], acc.2 + 1)
            else acc) acc extracted).1) := by
  induction extracted with
  | nil => intro acc h1 h2; exact ⟨h1, h2⟩
  | cons x t ih =>
    intro acc h1 h2
    simp only [List.foldl_cons]
    by_cases hx : x ∉ visited ∧ x ∉ acc.1
    · rw [if_pos hx]
      refine ih _ ?_ ?_
      · intro z hz
        rcases List.mem_append.mp hz with hz' | hz'
        · exact h1 z hz'
        · have : z = x := List.mem_singleton.mp hz'
          subst this
          exact Or.inr ⟨hx.1, fun hc => hx.2 (h2 z hc)⟩
      · intro z hz
        exact List.mem_append.mpr (Or.inl (h2 z hz))
    · rw [if_neg hx]
      exact ih _ h1 h2

/-- State effect of the link-discovery step: `visited`, `fetchLog` and
`downloadedFiles` are untouched; the discovered set keeps its old
elements and gains only links that were neither visited nor already
discovered. -/
theorem discoverLinks_state (maxDepth : Nat) (st1 : ScrapeState) (url : Str)
    (contentType : Str) (body : List Tag) (depth : Nat) :
    (discoverLinks maxDepth st1 url contentType body depth).1.visited = st1.visited
    ∧ (discoverLinks maxDepth st1 url contentType body depth).1.fetchLog = st1.fetchLog
    ∧ (discoverLinks maxDepth st1 url contentType body depth).1.downloadedFiles
        = st1.downloadedFiles
    ∧ (∀ z ∈ (discoverLinks maxDepth st1 url contentType body depth).1.discovered,
        z ∈ st1.discovered ∨ (z ∉ st1.visited ∧ z ∉ st1.discovered))
    ∧ (∀ z ∈ st1.discovered,
        z ∈ (discoverLinks maxDepth st1 url contentType body depth).1.discovered) := by
  unfold discoverLinks
  split
  · have hprop := discFold_prop st1.visited st1.discovered
      (extractAllLinks body url) (st1.discovered, 0)
      (fun z hz => Or.inl hz) (fun z hz => hz)
    exact ⟨rfl, rfl, rfl, hprop.1, hprop.2⟩
  · exact ⟨rfl, rfl, rfl, fun z hz => Or.inl hz, fun z hz => hz⟩

/-- The non-skip behavior: the fetch is logged, the URL is inserted into
`visited_urls` *before* the fetch, and discovery (when it happens) only
adds links that were neither visited nor already discovered, keeping the
old ones. -/
theorem downloadSingleFile_nonskip (c : Crawler) (fetch : Str → Fetch)
    (st : ScrapeState) (url : Str) (depth : Nat)
    (h : ¬(¬ shouldDownload c st url = true ∨ depth > c.maxDepth)) :
    (downloadSingleFile c fetch st url depth).1.visited = insertS st.visited url
    ∧ (downloadSingleFile c fetch st url depth).1.fetchLog = st.fetchLog ++ [url]
    ∧ (∀ z ∈ (downloadSingleFile c fetch st url depth).1.discovered,
        z ∈ st.discovered ∨ (z ∉ st.visited ∧ z ∉ st.discovered))
    ∧ (∀ z ∈ st.discovered, z ∈ (downloadSingleFile c fetch st url depth).1.discovered) := by
  unfold downloadSingleFile
  rw [if_neg h]
  split
  · exact ⟨rfl, rfl, fun z hz => Or.inl hz, fun z hz => hz⟩
  · split
    · exact ⟨rfl, rfl, fun z hz => Or.inl hz, fun z hz => hz⟩
    · rename_i status ct sz body heq hstatus
      have hd := discoverLinks_state c.maxDepth
        { st with visited := insertS st.visited url,
                  fetchLog := st.fetchLog ++ [url] } url ct body depth
      refine ⟨?_, ?_, ?_, ?_⟩
      · exact hd.1
      · exact hd.2.1
      · intro z hz
        rcases hd.2.2.2.1 z hz with h' | h'
        · exact Or.inl h'
        · exact Or.inr ⟨fun hc => h'.1 (mem_insertS.mpr (Or.inl hc)), h'.2⟩
      · exact hd.2.2.2.2

/-- The result record in the exception and non-200 arms. -/
theorem downloadSingleFile_err (c : Crawler) (fetch : Str → Fetch)
    (st : ScrapeState) (url : Str) (depth : Nat)
    (h : ¬(¬ shouldDownload c st url = true ∨ depth > c.maxDepth)) :
    (∀ e, fetch url = .err e →
      (downloadSingleFile c fetch st url depth).2 = .failed url e
      ∧ (downloadSingleFile c fetch st url depth).1.discovered = st.discovered)
    ∧ (∀ status ct sz body, fetch url = .ok status ct sz body → status ≠ 200 →
      (downloadSingleFile c fetch st url depth).2
        = .failed url (strOf "HTTP " ++ strOf (toString status))
      ∧ (downloadSingleFile c fetch st url depth).1.discovered = st.discovered) := by
  constructor
  · intro e he
    unfold downloadSingleFile
    rw [if_neg h]
    split
    · rename_i e' heq
      have hinj := he.symm.trans heq
      injection hinj with h1
      subst h1
      exact ⟨rfl, rfl⟩
    · rename_i status ct sz body heq
      rw [he] at heq
      exact absurd heq (by intro hc; cases hc)
  · intro status ct sz body hok hs
    unfold downloadSingleFile
    rw [if_neg h]
    split
    · rename_i e' heq
      rw [hok] at heq
      exact absurd heq (by intro hc; cases hc)
    · rename_i status' ct' sz' body' heq
      have hinj := hok.symm.trans heq
      injection hinj with h1 h2 h3 h4
      subst h1
      rw [if_pos hs]
      exact ⟨rfl, rfl⟩

/-! ## Claim C9: errors are data; no refetch within a session -/

/-- C9: in `download_single_file` (i) a target already in `visited_urls`
is never fetched again — the call returns the skipped record and leaves
the state untouched; (ii) whenever a fetch happens the target was added
to `visited_urls` before it; (iii) a network exception and (iv) a
non-200 status each produce an error record as data (the call still
returns normally), discover nothing, and leave the target visited. -/
theorem C9_errors_as_data :
    ∀ (c : Crawler) (fetch : Str → Fetch) (st : ScrapeState) (url : Str)
      (depth : Nat),
    (url ∈ st.visited →
      downloadSingleFile c fetch st url depth = (st, .skipped url))
    ∧ ((downloadSingleFile c fetch st url depth).1.fetchLog ≠ st.fetchLog →
        url ∈ (downloadSingleFile c fetch st url depth).1.visited)
    ∧ (∀ e, fetch url = .err e → shouldDownload c st url = true →
        depth ≤ c.maxDepth →
        (downloadSingleFile c fetch st url depth).2 = .failed url e
        ∧ (downloadSingleFile c fetch st url depth).1.discovered = st.discovered
        ∧ url ∈ (downloadSingleFile c fetch st url depth).1.visited)
    ∧ (∀ status ct sz body, fetch url = .ok status ct sz body →
        status ≠ 200 → shouldDownload c st url = true → depth ≤ c.maxDepth →
        (downloadSingleFile c fetch st url depth).2
          = .failed url (strOf "HTTP " ++ strOf (toString status))
        ∧ (downloadSingleFile c fetch st url depth).1.discovered = st.discovered
        ∧ url ∈ (downloadSingleFile c fetch st url depth).1.visited) := by
  intro c fetch st url depth
  refine ⟨?_, ?_, ?_, ?_⟩
  · intro hv
    exact downloadSingleFile_skip c fetch st url depth
      (Or.inl (by simp [shouldDownload_false_of_visited c st hv]))
  · intro hlog
    by_cases h : ¬ shouldDownload c st url = true ∨ depth > c.maxDepth
    · rw [downloadSingleFile_skip c fetch st url depth h] at hlog
      exact absurd rfl hlog
    · rw [(downloadSingleFile_nonskip c fetch st url depth h).1]
      exact mem_insertS.mpr (Or.inr rfl)
  · intro e he hsd hd
    have h : ¬(¬ shouldDownload c st url = true ∨ depth > c.maxDepth) := by
      simp [hsd]; omega
    have herr := (downloadSingleFile_err c fetch st url depth h).1 e he
    refine ⟨herr.1, herr.2, ?_⟩
    rw [(downloadSingleFile_nonskip c fetch st url depth h).1]
    exact mem_insertS.mpr (Or.inr rfl)
  · intro status ct sz body hok hs hsd hd
    have h : ¬(¬ shouldDownload c st url = true ∨ depth > c.maxDepth) := by
      simp [hsd]; omega
    have herr := (downloadSingleFile_err c fetch st url depth h).2
      status ct sz body hok hs
    refine ⟨herr.1, herr.2, ?_⟩
    rw [(downloadSingleFile_nonskip c fetch st url depth h).1]
    exact mem_insertS.mpr (Or.inr rfl)

/-- Witness for C9: the visited-target arm evaluated concretely. -/
theorem C9_errors_as_data_witness :
    downloadSingleFile (initCrawler (strOf "https://a.com") 1)
        (fun _ => .err (strOf "boom"))
        ⟨[strOf "https://a.com"], [strOf "https://a.com"], [], [strOf "https://a.com"]⟩
        (strOf "https://a.com") 1
      = (⟨[strOf "https://a.com"], [strOf "https://a.com"], [], [strOf "https://a.com"]⟩,
         .skipped (strOf "https://a.com")) :=
  (C9_errors_as_data (initCrawler (strOf "https://a.com") 1)
      (fun _ => .err (strOf "boom"))
      ⟨[strOf "https://a.com"], [strOf "https://a.com"], [], [strOf "https://a.com"]⟩
      (strOf "https://a.com") 1).1 (by decide)

/-! ## Claim C4: the frontier never revisits -/

theorem shouldDownload_true_not_visited {c : Crawler} {st : ScrapeState}
    {url : Str} (h : shouldDownload c st url = true) : url ∉ st.visited := by
  intro hv
  rw [shouldDownload_false_of_visited c st hv] at h
  cases h

/-- The per-session invariant: the fetch trace is duplicate-free and
every fetched URL is in `visited_urls`. -/
def SessionInv (st : ScrapeState) : Prop :=
  st.fetchLog.Nodup ∧ ∀ u ∈ st.fetchLog, u ∈ st.visited

theorem downloadSingleFile_inv (c : Crawler) (fetch : Str → Fetch)
    (st : ScrapeState) (url : Str) (depth : Nat) (h : SessionInv st) :
    SessionInv (downloadSingleFile c fetch st url depth).1 := by
  by_cases hg : ¬ shouldDownload c st url = true ∨ depth > c.maxDepth
  · rw [downloadSingleFile_skip c fetch st url depth hg]
    exact h
  · have hns := downloadSingleFile_nonskip c fetch st url depth hg
    have hsd : shouldDownload c st url = true := by
      rcases not_or.mp hg with ⟨h1, -⟩
      exact Decidable.not_not.mp h1
    have hnv : url ∉ st.visited := shouldDownload_true_not_visited hsd
    have hnl : url ∉ st.fetchLog := fun hc => hnv (h.2 url hc)
    constructor
    · rw [hns.2.1]
      refine List.Nodup.append h.1 (List.nodup_singleton url) ?_
      intro a ha hb
      rw [List.mem_singleton] at hb
      subst hb
      exact hnl ha
    · intro u hu
      rw [hns.2.1] at hu
      rw [hns.1]
      rcases List.mem_append.mp hu with hu' | hu'
      · exact mem_insertS.mpr (Or.inl (h.2 u hu'))
      · exact mem_insertS.mpr (Or.inr (List.mem_singleton.mp hu'))

theorem processBatch_inv (c : Crawler) (fetch : Str → Fetch)
    (urls : List Str) (depth : Nat) :
    ∀ st : ScrapeState, SessionInv st →
      SessionInv (processBatch c fetch st urls depth) := by
  induction urls with
  | nil => intro st h; exact h
  | cons u t ih =>
    intro st h
    exact ih _ (downloadSingleFile_inv c fetch st u depth h)

theorem scrapeLoop_inv (c : Crawler) (fetch : Str → Fetch) :
    ∀ (remaining depth : Nat) (st : ScrapeState), SessionInv st →
      SessionInv (scrapeLoop c fetch remaining depth st) := by
  intro remaining
  induction remaining with
  | zero => intro depth st h; exact h
  | succ r ih =>
    intro depth st h
    simp only [scrapeLoop]
    split
    · exact h
    · exact ih _ _ (processBatch_inv c fetch _ _ st h)

/-- C4: over a whole crawl session, each distinct URL is fetched at most
once (the trace of `session.get` calls is duplicate-free, because
`download_single_file` adds the URL to `visited_urls` before fetching
and `should_download` rejects visited URLs); moreover the discovery step
never re-enqueues a URL that is already visited or already discovered —
every addition to the discovered set was neither. -/
theorem C4_frontier_never_revisits :
    ∀ (c : Crawler) (fetch : Str → Fetch),
    (scrapeRecursive c fetch).fetchLog.Nodup
    ∧ (∀ (st : ScrapeState) (url : Str) (depth : Nat) (z : Str),
        z ∈ (downloadSingleFile c fetch st url depth).1.discovered →
        z ∈ st.discovered ∨ (z ∉ st.visited ∧ z ∉ st.discovered)) := by
  intro c fetch
  constructor
  · have := scrapeLoop_inv c fetch (c.maxDepth + 1) 0 ⟨[], [c.baseUrl], [], []⟩
      ⟨List.nodup_nil, by simp⟩
    exact this.1
  · intro st url depth z hz
    by_cases hg : ¬ shouldDownload c st url = true ∨ depth > c.maxDepth
    · rw [downloadSingleFile_skip c fetch st url depth hg] at hz
      exact Or.inl hz
    · exact (downloadSingleFile_nonskip c fetch st url depth hg).2.2.1 z hz

/-- Witness for C4: the discovery-disjointness arm applied at a concrete
state and URL. -/
theorem C4_frontier_never_revisits_witness :
    strOf "https://a.com" ∈ ([strOf "https://a.com"] : List Str)
    ∨ (strOf "https://a.com" ∉ ([] : List Str)
       ∧ strOf "https://a.com" ∉ ([strOf "https://a.com"] : List Str)) :=
  (C4_frontier_never_revisits (initCrawler (strOf "https://a.com") 1)
      (fun _ => .err (strOf "x"))).2
    ⟨[], [strOf "https://a.com"], [], []⟩ (strOf "https://a.com") 0
    (strOf "https://a.com") (by decide)

/-! ## Claim C10: result-shape invariant -/

theorem extractStaticCore_nodup (url : Str) (hrefs : List Str) :
    (extractStaticCore url hrefs).Nodup := by
  unfold extractStaticCore
  refine foldl_insert_nodup _ hrefs ?_ [] List.nodup_nil
  intro s x _
  dsimp only
  split
  · exact Or.inl rfl
  · split
    · split
      · exact Or.inr ⟨_, rfl⟩
      · exact Or.inl rfl
    · exact Or.inl rfl

theorem extractLinksFromHtml_inner_nodup (cands : List Str) (base : Str) :
    (cands.foldl (fun acc url =>
      if url = [] ∨ startsWith (strOf "#") url
          ∨ startsWith (strOf "javascript:") url
          ∨ startsWith (strOf "mailto:") url then acc
      else if hasChar '#' url then acc
      else
        let absoluteUrl := pyUrljoin base url
        if unwantedScraper.any (fun pat => containsSub pat (lowerS absoluteUrl)) then acc
        else
          let parsed := pyUrlparse absoluteUrl []
          if parsed.scheme = strOf "http" ∨ parsed.scheme = strOf "https" then
            if domainKey parsed.netloc = domainKey (pyUrlparse base []).netloc then
              insertS acc (normalizeUrl (absoluteUrl.takeWhile (· ≠ '"')))
            else acc
          else acc) []).Nodup := by
  refine foldl_insert_nodup _ cands ?_ [] List.nodup_nil
  intro s x _
  dsimp only
  split
  · exact Or.inl rfl
  · split
    · exact Or.inl rfl
    · split
      · exact Or.inl rfl
      · split
        · split
          · exact Or.inr ⟨_, rfl⟩
          · exact Or.inl rfl
        · exact Or.inl rfl

theorem extractLinksFromHtml_shape (cands : List Str) (base : Str) :
    (extractLinksFromHtml cands base).Nodup
    ∧ strictSorted (extractLinksFromHtml cands base) := by
  unfold extractLinksFromHtml
  have h := extractLinksFromHtml_inner_nodup cands base
  exact ⟨sortedS_nodup h, sortedS_strictSorted h⟩

theorem hybridAcc_nodup (sR nR dR : MethodResult) :
    ((if (hybridAccNextjs nR (hybridAccStatic sR)).1.length < 5 then
        hybridAccDynamic dR (hybridAccNextjs nR (hybridAccStatic sR))
      else hybridAccNextjs nR (hybridAccStatic sR)).1).Nodup := by
  have h1 : (hybridAccStatic sR).1.Nodup := by
    unfold hybridAccStatic
    split
    · exact nodup_unionS _ List.nodup_nil
    · exact List.nodup_nil
  have h2 : (hybridAccNextjs nR (hybridAccStatic sR)).1.Nodup := by
    unfold hybridAccNextjs
    split
    · exact nodup_unionS _ h1
    · exact h1
  split
  · unfold hybridAccDynamic
    split
    · exact nodup_unionS _ h2
    · exact h2
  · exact h2

/-- C10: at each of the four public packaging sites — `scrape_url`,
`extract_static_links`, `extract_links_hybrid`, and the
`extract_links_from_network` result packaging — the `count` field equals
the length of the `links` list, and the `links` list is duplicate-free
and in strictly ascending string order (it is `sorted(list(<set>))`). -/
theorem C10_result_shape :
    (∀ (fetch : Str → Except Str (Nat × List Str)) (url : Str),
      (scrapeUrl fetch url).count = (scrapeUrl fetch url).links.length
      ∧ (scrapeUrl fetch url).links.Nodup
      ∧ strictSorted (scrapeUrl fetch url).links)
    ∧ (∀ (fetch : Str → Except Str (Nat × List Str)) (url : Str),
      (extractStaticLinks fetch url).count
        = (extractStaticLinks fetch url).links.length
      ∧ (extractStaticLinks fetch url).links.Nodup
      ∧ strictSorted (extractStaticLinks fetch url).links)
    ∧ (∀ sR nR dR : MethodResult,
      (extractLinksHybrid sR nR dR).count
        = (extractLinksHybrid sR nR dR).links.length
      ∧ (extractLinksHybrid sR nR dR).links.Nodup
      ∧ strictSorted (extractLinksHybrid sR nR dR).links)
    ∧ (∀ (url : Str) (rawLinks : List Str),
      (packageNetworkResult url rawLinks).count
        = (packageNetworkResult url rawLinks).links.length
      ∧ (packageNetworkResult url rawLinks).links.Nodup
      ∧ strictSorted (packageNetworkResult url rawLinks).links) := by
  refine ⟨?_, ?_, ?_, ?_⟩
  · intro fetch url
    unfold scrapeUrl
    by_cases h1 : (pyUrlparse url []).scheme = [] ∨ (pyUrlparse url []).netloc = []
    · rw [if_pos h1]
      exact ⟨rfl, List.nodup_nil, List.Pairwise.nil⟩
    · rw [if_neg h1]
      rcases hf : fetch url with e | p
      · exact ⟨rfl, List.nodup_nil, List.Pairwise.nil⟩
      · show (scrapeUrlResponse url p).count = (scrapeUrlResponse url p).links.length
          ∧ (scrapeUrlResponse url p).links.Nodup
          ∧ strictSorted (scrapeUrlResponse url p).links
        unfold scrapeUrlResponse
        by_cases h2 : 400 ≤ p.1
        · rw [if_pos h2]
          exact ⟨rfl, List.nodup_nil, List.Pairwise.nil⟩
        · rw [if_neg h2]
          exact ⟨rfl, (extractLinksFromHtml_shape p.2 url).1,
            (extractLinksFromHtml_shape p.2 url).2⟩
  · intro fetch url
    unfold extractStaticLinks
    rcases hf : fetch url with e | p
    · exact ⟨rfl, List.nodup_nil, List.Pairwise.nil⟩
    · show (extractStaticResponse url p).count = (extractStaticResponse url p).links.length
        ∧ (extractStaticResponse url p).links.Nodup
        ∧ strictSorted (extractStaticResponse url p).links
      unfold extractStaticResponse
      by_cases h2 : 400 ≤ p.1
      · rw [if_pos h2]
        exact ⟨rfl, List.nodup_nil, List.Pairwise.nil⟩
      · rw [if_neg h2]
        have h := extractStaticCore_nodup url p.2
        exact ⟨(sortedS_length _).symm, sortedS_nodup h, sortedS_strictSorted h⟩
  · intro sR nR dR
    unfold extractLinksHybrid
    have h := hybridAcc_nodup sR nR dR
    exact ⟨(sortedS_length _).symm, sortedS_nodup h, sortedS_strictSorted h⟩
  · intro url rawLinks
    unfold packageNetworkResult
    have h : (rawLinks.foldl (fun acc link =>
        if ¬ unwantedNetwork.any (fun p => containsSub p (lowerS link)) then
          if containsSub (strOf "/blog/") link
              ∧ link ≠ (pyUrlparse url []).scheme ++ strOf "://"
                  ++ (pyUrlparse url []).netloc ++ strOf "/blog" then
            if domainKey (pyUrlparse link []).netloc = []
                ∨ domainKey (pyUrlparse link []).netloc
                  = domainKey (pyUrlparse url []).netloc then insertS acc link
            else acc
          else acc
        else acc) []).Nodup := by
      refine foldl_insert_nodup _ rawLinks ?_ [] List.nodup_nil
      intro s x _
      dsimp only
      split
      · split
        · split
          · exact Or.inr ⟨_, rfl⟩
          · exact Or.inl rfl
        · exact Or.inl rfl
      · exact Or.inl rfl
    exact ⟨(sortedS_length _).symm, sortedS_nodup h, sortedS_strictSorted h⟩

/-! ## Claim C8: the per-depth batch cap -/

/-- URLs not in the processed batch are not visited by it, and the
discovered set only grows. -/
theorem processBatch_untouched (c : Crawler) (fetch : Str → Fetch)
    (depth : Nat) (u : Str) :
    ∀ (l : List Str) (st : ScrapeState), u ∈ st.discovered → u ∉ st.visited →
      u ∉ l →
      u ∈ (processBatch c fetch st l depth).discovered
      ∧ u ∉ (processBatch c fetch st l depth).visited := by
  intro l
  induction l with
  | nil => intro st h1 h2 _; exact ⟨h1, h2⟩
  | cons x t ih =>
    intro st h1 h2 hl
    have hux : u ≠ x := fun he => hl (he ▸ List.mem_cons_self x t)
    have hut : u ∉ t := fun hc => hl (List.mem_cons_of_mem x hc)
    have hstep : processBatch c fetch st (x :: t) depth
        = processBatch c fetch (downloadSingleFile c fetch st x depth).1 t depth := by
      unfold processBatch
      rw [List.foldl_cons]
    rw [hstep]
    by_cases hg : ¬ shouldDownload c st x = true ∨ depth > c.maxDepth
    · rw [downloadSingleFile_skip c fetch st x depth hg]
      exact ih st h1 h2 hut
    · have hns := downloadSingleFile_nonskip c fetch st x depth hg
      refine ih (downloadSingleFile c fetch st x depth).1 ?_ ?_ hut
      · exact hns.2.2.2 u h1
      · rw [hns.1]
        intro hc
        rcases mem_insertS.mp hc with hc' | hc'
        · exact h2 hc'
        · exact hux hc'

/-- The 51-link scenario: the seed page yields 51 same-origin links, one
more than the per-depth cap. -/
def c8Crawler : Crawler := initCrawler (strOf "https://e.com") 2

def c8Doc : List Tag :=
  (List.range 51).map fun i =>
    ⟨strOf "a", [(strOf "href", strOf "https://e.com/p" ++ strOf (toString i))]⟩

def c8Fetch (u : Str) : Fetch :=
  if u = strOf "https://e.com" then .ok 200 (strOf "text/html") 100 c8Doc
  else .ok 200 (strOf "text/html") 10 []

def c8Run : ScrapeState := scrapeRecursive c8Crawler c8Fetch

/-- The state after the depth-0 batch (the seed alone). -/
def c8AfterD0 : ScrapeState :=
  processBatch c8Crawler c8Fetch ⟨[], [strOf "https://e.com"], [], []⟩
    [strOf "https://e.com"] 0

set_option maxRecDepth 40000 in
set_option maxHeartbeats 4000000 in
/-- C8 counterexample: after depth 0 the target `p50` is a discovered,
unvisited target; the depth-1 batch caps at 50 and does not include it;
yet `p50` **is** fetched later in the same session — the surplus target
is deferred to the next depth, not dropped from the session. -/
theorem C8_cap_counterexample :
    strOf "https://e.com/p50" ∈ c8AfterD0.discovered
    ∧ strOf "https://e.com/p50" ∉ c8AfterD0.visited
    ∧ strOf "https://e.com/p50"
        ∉ (c8AfterD0.discovered.filter (· ∉ c8AfterD0.visited)).take 50
    ∧ strOf "https://e.com/p50" ∈ c8Run.fetchLog := by
  refine ⟨by decide, by decide, by decide, by decide⟩

set_option maxRecDepth 40000 in
set_option maxHeartbeats 4000000 in
/-- C8 (amended): the per-depth cap is not a hard session cutoff:
a discovered, unvisited URL outside the processed (capped) batch is
still discovered and still unvisited after the batch, so it remains a
candidate at the next depth of the same session; in the 51-link
scenario the surplus target is indeed fetched at a later depth. -/
theorem C8_cap_deferral :
    (∀ (c : Crawler) (fetch : Str → Fetch) (st : ScrapeState)
       (urls : List Str) (depth : Nat) (u : Str),
      u ∈ st.discovered → u ∉ st.visited → u ∉ urls.take 50 →
      u ∈ (processBatch c fetch st (urls.take 50) depth).discovered
      ∧ u ∉ (processBatch c fetch st (urls.take 50) depth).visited)
    ∧ strOf "https://e.com/p50" ∈ c8Run.fetchLog := by
  constructor
  · intro c fetch st urls depth u h1 h2 h3
    exact processBatch_untouched c fetch depth u (urls.take 50) st h1 h2 h3
  · decide

/-- Witness for C8: the batch-untouched property applied at a concrete
state with an empty batch. -/
theorem C8_cap_deferral_witness :
    strOf "https://e.com/x"
      ∈ (processBatch c8Crawler c8Fetch
          ⟨[], [strOf "https://e.com/x"], [], []⟩ (([] : List Str).take 50) 0).discovered
    ∧ strOf "https://e.com/x"
      ∉ (processBatch c8Crawler c8Fetch
          ⟨[], [strOf "https://e.com/x"], [], []⟩ (([] : List Str).take 50) 0).visited :=
  C8_cap_deferral.1 c8Crawler c8Fetch
    ⟨[], [strOf "https://e.com/x"], [], []⟩ [] 0 (strOf "https://e.com/x")
    (by decide) (by decide) (by decide)

/-! ## Claim C1: idempotence of `normalize_url`

The analysis below re-traces CPython `urllib.parse` far enough to
settle whether `normalize_url` is idempotent: string foundations,
character-class arithmetic, the UTF-8/percent-encoding round trip, the
`parse_qs`/`urlencode` round trip, and a reparse theorem for
`urlunsplit` output. -/


/-! ## Foundations for the idempotence analysis of `normalize_url` -/

theorem hasChar_iff {c : Char} {s : Str} : hasChar c s = true ↔ c ∈ s := by
  simp [hasChar, List.contains_eq_any_beq]

theorem hasChar_eq_false {c : Char} {s : Str} :
    hasChar c s = false ↔ c ∉ s := by
  rw [← Bool.not_eq_true, hasChar_iff]

theorem startsWith_iff {p s : Str} : startsWith p s = true ↔ p <+: s := by
  simp [startsWith, List.isPrefixOf_iff_prefix]

theorem endsWith_iff {p s : Str} : endsWith p s = true ↔ p <:+ s := by
  constructor
  · intro h
    have h2 := List.isPrefixOf_iff_prefix.mp h
    exact List.reverse_prefix.mp (by simpa using h2)
  · intro h
    exact List.isPrefixOf_iff_prefix.mpr
      (by simpa using List.reverse_prefix.mpr h)

/-- A nonempty prefix shares the head. -/
theorem head?_of_isPrefix {v w : Str} (h : v <+: w) (hv : v ≠ []) :
    w.head? = v.head? := by
  obtain ⟨t, rfl⟩ := h
  cases v with
  | nil => exact absurd rfl hv
  | cons x xs => rfl

theorem takeWhile_all {p : Char → Bool} {a : Str} (h : ∀ x ∈ a, p x = true) :
    a.takeWhile p = a := by
  induction a with
  | nil => rfl
  | cons x xs ih =>
    simp only [List.takeWhile_cons, h x (List.mem_cons_self x xs), if_true]
    rw [ih fun y hy => h y (List.mem_cons_of_mem x hy)]

theorem dropWhile_all {p : Char → Bool} {a : Str} (h : ∀ x ∈ a, p x = true) :
    a.dropWhile p = [] :=
  List.dropWhile_eq_nil_iff.mpr fun x hx => by rw [h x hx]

theorem splitFirst_eq_none {c : Char} {s : Str} (h : c ∉ s) :
    splitFirst c s = none := by
  have hall : ∀ x ∈ s, (fun x => decide (x ≠ c)) x = true :=
    fun x hx => decide_eq_true (fun he : x = c => h (he ▸ hx))
  unfold splitFirst
  rw [List.span_eq_take_drop, dropWhile_all hall]

theorem splitFirst_append {c : Char} {a : Str} (h : c ∉ a) (b : Str) :
    splitFirst c (a ++ c :: b) = some (a, b) := by
  have hall : ∀ x ∈ a, (fun x => decide (x ≠ c)) x = true :=
    fun x hx => decide_eq_true (fun he : x = c => h (he ▸ hx))
  unfold splitFirst
  rw [List.span_eq_take_drop, List.takeWhile_append, List.dropWhile_append,
    takeWhile_all hall, dropWhile_all hall]
  simp

theorem splitFirst_eq_some {c : Char} {s pre post : Str}
    (h : splitFirst c s = some (pre, post)) :
    s = pre ++ c :: post ∧ c ∉ pre ∧ pre = s.takeWhile (fun x => decide (x ≠ c)) := by
  unfold splitFirst at h
  rw [List.span_eq_take_drop] at h
  cases hd : s.dropWhile (fun x => decide (x ≠ c)) with
  | nil => rw [hd] at h; exact absurd h (by simp)
  | cons y ys =>
    rw [hd] at h
    have hy : y = c := by
      have := List.head?_dropWhile_not (fun x => decide (x ≠ c)) s
      rw [hd] at this
      simpa using this
    injection h with h'
    have h1 : pre = s.takeWhile (fun x => decide (x ≠ c)) := by
      have := congrArg Prod.fst h'; simpa using this.symm
    have h2 : post = ys := by
      have := congrArg Prod.snd h'; simpa using this.symm
    rw [hy] at hd
    refine ⟨?_, ?_, h1⟩
    · rw [h1, h2]
      conv_lhs => rw [← List.takeWhile_append_dropWhile (fun x => decide (x ≠ c)) s]
      rw [hd]
    · rw [h1]
      intro hmem
      have := List.mem_takeWhile_imp hmem
      simp at this

theorem strOf_slash : strOf "/" = ['/'] := rfl

theorem rstripChar_isPrefix (c : Char) (s : Str) : rstripChar c s <+: s := by
  unfold rstripChar
  have h := List.dropWhile_suffix (l := s.reverse) (p := fun x => decide (x = c))
  have h2 : (s.reverse.dropWhile (fun x => decide (x = c))).reverse
      <+: s.reverse.reverse := List.reverse_prefix.mpr h
  rwa [List.reverse_reverse] at h2

theorem normPath_isPrefix (p : Str) : normPath p <+: p := by
  unfold normPath
  split
  · exact rstripChar_isPrefix '/' p
  · exact List.prefix_refl p

theorem normPath_not_ends (p : Str) (h : normPath p ≠ strOf "/") :
    endsWith (strOf "/") (normPath p) = false := by
  unfold normPath at h ⊢
  split
  · rw [strOf_slash]
    exact endsWith_rstripChar '/' p
  · rename_i hc
    by_cases hp : p = strOf "/"
    · rw [if_neg hc] at h
      exact absurd hp h
    · rcases not_and_or.mp hc with h1 | h2
      · exact absurd hp (by simpa using h1)
      · simpa using h2

theorem normPath_of_not_ends {p : Str}
    (hp : endsWith (strOf "/") p = false) : normPath p = p := by
  unfold normPath
  rw [if_neg]
  intro hc
  rw [hp] at hc
  exact Bool.false_ne_true hc.2

theorem normPath_idem (p : Str) : normPath (normPath p) = normPath p := by
  by_cases h : normPath p = strOf "/"
  · rw [h]
    decide
  · exact normPath_of_not_ends (normPath_not_ends p h)

theorem normPath_ends_eq_root {p : Str}
    (h : endsWith (strOf "/") (normPath p) = true) : normPath p = strOf "/" := by
  by_contra hne
  rw [normPath_not_ends p hne] at h
  exact Bool.false_ne_true h

theorem cleanUrlInput_eq {s : Str}
    (h1 : ∀ ch ∈ s, ¬(ch = '\t' ∨ ch = '\r' ∨ ch = '\n'))
    (h2 : ∀ ch, s.head? = some ch → isC0OrSpace ch = false) :
    cleanUrlInput s = s := by
  unfold cleanUrlInput
  have hd : s.dropWhile isC0OrSpace = s := by
    cases s with
    | nil => rfl
    | cons x t =>
      rw [List.dropWhile_cons, if_neg]
      rw [h2 x rfl]
      exact Bool.false_ne_true
  rw [hd, List.filter_eq_self.mpr]
  intro a ha
  exact decide_eq_true (h1 a ha)

theorem splitFirst_of_mem {c : Char} {s : Str} (h : c ∈ s) :
    ∃ pre post, splitFirst c s = some (pre, post) := by
  unfold splitFirst
  rw [List.span_eq_take_drop]
  cases hd : s.dropWhile (fun x => decide (x ≠ c)) with
  | nil =>
    have := List.dropWhile_eq_nil_iff.mp hd c h
    simp at this
  | cons y ys => exact ⟨_, _, rfl⟩

theorem splitScheme_valid {s : Str} (rest : Str) (hcol : ':' ∉ s) (hne : s ≠ [])
    (hhead : ∀ c, s.head? = some c → (c.isAlpha && decide (c.toNat < 128)) = true)
    (hall : ∀ c ∈ s, isSchemeChar c = true) :
    splitScheme (s ++ ':' :: rest) = (some (lowerS s), rest) := by
  unfold splitScheme
  rw [splitFirst_append hcol]
  dsimp only
  rw [if_pos]
  refine ⟨hne, ?_, List.all_eq_true.mpr hall⟩
  cases s with
  | nil => exact absurd rfl hne
  | cons x t => exact hhead x rfl

theorem splitScheme_none_of_head {w : Str}
    (h : ∀ c, w.head? = some c → (c.isAlpha && decide (c.toNat < 128)) = false) :
    splitScheme w = (none, w) := by
  unfold splitScheme
  cases hsf : splitFirst ':' w with
  | none => rfl
  | some pp =>
    obtain ⟨pre, post⟩ := pp
    obtain ⟨hw, hnotin, hpre⟩ := splitFirst_eq_some hsf
    dsimp only
    rw [if_neg]
    rintro ⟨hn1, hn2, hn3⟩
    have hph : w.head? = pre.head? := head?_of_isPrefix ⟨':' :: post, hw.symm⟩ hn1
    cases hsp : pre with
    | nil => exact hn1 hsp
    | cons x t =>
      rw [hsp] at hph hn2
      have hx := h x (by rw [hph]; rfl)
      simp only [List.head?_cons, Option.all_some] at hn2
      rw [hx] at hn2
      exact Bool.false_ne_true hn2

theorem splitScheme_none_snd {w : Str} (h : (splitScheme w).1 = none) :
    splitScheme w = (none, w) := by
  unfold splitScheme at h ⊢
  cases hsf : splitFirst ':' w with
  | none => rfl
  | some pp =>
    obtain ⟨pre, post⟩ := pp
    rw [hsf] at h
    dsimp only at h ⊢
    split at h
    · exact absurd h (by simp)
    · rename_i hc
      rw [if_neg hc]

theorem splitScheme_some_ne_nil {w : Str}
    (h : ((splitScheme w).1.getD []) = []) : (splitScheme w).1 = none := by
  cases hf : (splitScheme w).1 with
  | none => rfl
  | some sch =>
    exfalso
    rw [hf] at h
    simp only [Option.getD_some] at h
    unfold splitScheme at hf
    cases hsf : splitFirst ':' w with
    | none => rw [hsf] at hf; exact absurd hf (by simp)
    | some pp =>
      obtain ⟨pre, post⟩ := pp
      rw [hsf] at hf
      dsimp only at hf
      split at hf
      · rename_i hc
        have hls : lowerS pre = sch := by
          simpa using hf
        rw [← hls] at h
        have hpe : pre = [] := by
          cases pre with
          | nil => rfl
          | cons a b => exact absurd h (by simp [lowerS])
        exact hc.1 hpe
      · exact absurd hf (by simp)

theorem splitScheme_extend {w p1 opt : Str}
    (hw : splitScheme w = (none, w)) (hpre : p1 <+: w)
    (hopt : ':' ∉ opt) :
    splitScheme (p1 ++ opt) = (none, p1 ++ opt) := by
  by_cases hc : ':' ∈ p1
  · obtain ⟨pre, post1, hsf⟩ := splitFirst_of_mem hc
    obtain ⟨hp1, hnotin, hpret⟩ := splitFirst_eq_some hsf
    obtain ⟨ext, hext⟩ := hpre
    have hwsf : splitFirst ':' w = some (pre, post1 ++ ext) := by
      rw [← hext, hp1, List.append_assoc, List.cons_append]
      exact splitFirst_append hnotin _
    have hcond : ¬(pre ≠ [] ∧ (pre.head?.all fun c =>
        c.isAlpha && decide (c.toNat < 128)) = true ∧ pre.all isSchemeChar = true) := by
      intro hcond
      unfold splitScheme at hw
      rw [hwsf] at hw
      dsimp only at hw
      rw [if_pos hcond] at hw
      exact absurd (congrArg Prod.fst hw) (by simp)
    have hsf2 : splitFirst ':' (p1 ++ opt) = some (pre, post1 ++ opt) := by
      rw [hp1, List.append_assoc, List.cons_append]
      exact splitFirst_append hnotin _
    unfold splitScheme
    rw [hsf2]
    dsimp only
    rw [if_neg hcond]
  · have hno : ':' ∉ p1 ++ opt := by
      intro hm
      rcases List.mem_append.mp hm with hm | hm
      · exact hc hm
      · exact hopt hm
    unfold splitScheme
    rw [splitFirst_eq_none hno]

theorem splitNetloc_append {n rest0 : Str}
    (hn : ∀ ch ∈ n, ¬(ch = '/' ∨ ch = '?' ∨ ch = '#'))
    (hr : ∀ ch, rest0.head? = some ch → (ch = '/' ∨ ch = '?' ∨ ch = '#')) :
    splitNetloc (n ++ rest0) = (n, rest0) := by
  unfold splitNetloc
  have hall : ∀ x ∈ n, (fun c => decide ¬(c = '/' ∨ c = '?' ∨ c = '#')) x = true :=
    fun x hx => decide_eq_true (hn x hx)
  rw [List.takeWhile_append, List.dropWhile_append, takeWhile_all hall,
    dropWhile_all hall]
  simp only [List.isEmpty_nil, if_true, if_pos rfl]
  cases rest0 with
  | nil => simp
  | cons y t =>
    have hy := hr y rfl
    rw [List.takeWhile_cons, List.dropWhile_cons, if_neg, if_neg]
    · simp
    · rw [decide_eq_false (not_not_intro hy)]
      exact Bool.false_ne_true
    · rw [decide_eq_false (not_not_intro hy)]
      exact Bool.false_ne_true

/-! ### `Char` arithmetic bridges -/

theorem char_valid_nat (c : Char) :
    c.toNat < 0xd800 ∨ (0xe000 ≤ c.toNat ∧ c.toNat < 0x110000) := by
  have h := c.valid
  rcases h with h | ⟨h1, h2⟩
  · exact Or.inl h
  · exact Or.inr ⟨h1, h2⟩

theorem toNat_ofNat_valid {n : Nat} (h : n.isValidChar) :
    (Char.ofNat n).toNat = n := by
  unfold Char.ofNat
  rw [dif_pos h]
  rfl

theorem char_toNat_inj {a b : Char} (h : a.toNat = b.toNat) : a = b := by
  rw [← Char.ofNat_toNat a, ← Char.ofNat_toNat b, h]

theorem toLower_toNat (c : Char) :
    (Char.toLower c).toNat =
      if 65 ≤ c.toNat ∧ c.toNat ≤ 90 then c.toNat + 32 else c.toNat := by
  unfold Char.toLower
  split
  · rename_i hc
    rw [if_pos ⟨hc.1, hc.2⟩]
    exact toNat_ofNat_valid (Or.inl (by omega))
  · rename_i hc
    rw [if_neg]
    intro hcon
    exact hc ⟨hcon.1, hcon.2⟩

theorem toLower_idem (c : Char) : (Char.toLower c).toLower = Char.toLower c := by
  apply char_toNat_inj
  rw [toLower_toNat (Char.toLower c), if_neg]
  have h := toLower_toNat c
  by_cases hc : 65 ≤ c.toNat ∧ c.toNat ≤ 90
  · rw [if_pos hc] at h
    rw [h]
    omega
  · rw [if_neg hc] at h
    rw [h]
    exact hc

theorem lowerS_idem (s : Str) : lowerS (lowerS s) = lowerS s := by
  unfold lowerS
  rw [List.map_map]
  exact List.map_congr_left fun c _ => toLower_idem c

theorem isAlpha_iff_toNat (c : Char) :
    c.isAlpha = true ↔
      (65 ≤ c.toNat ∧ c.toNat ≤ 90) ∨ (97 ≤ c.toNat ∧ c.toNat ≤ 122) := by
  unfold Char.isAlpha Char.isUpper Char.isLower
  constructor
  · intro h
    rcases Bool.or_eq_true_iff.mp h with h | h
    · have h1 : c.val ≥ 65 := of_decide_eq_true (Bool.and_eq_true_iff.mp h).1
      have h2 : c.val ≤ 90 := of_decide_eq_true (Bool.and_eq_true_iff.mp h).2
      exact Or.inl ⟨h1, h2⟩
    · have h1 : c.val ≥ 97 := of_decide_eq_true (Bool.and_eq_true_iff.mp h).1
      have h2 : c.val ≤ 122 := of_decide_eq_true (Bool.and_eq_true_iff.mp h).2
      exact Or.inr ⟨h1, h2⟩
  · intro h
    rcases h with ⟨h1, h2⟩ | ⟨h1, h2⟩
    · apply Bool.or_eq_true_iff.mpr
      exact Or.inl (Bool.and_eq_true_iff.mpr ⟨decide_eq_true h1, decide_eq_true h2⟩)
    · apply Bool.or_eq_true_iff.mpr
      exact Or.inr (Bool.and_eq_true_iff.mpr ⟨decide_eq_true h1, decide_eq_true h2⟩)

theorem isDigit_iff_toNat (c : Char) :
    c.isDigit = true ↔ 48 ≤ c.toNat ∧ c.toNat ≤ 57 := by
  unfold Char.isDigit
  constructor
  · intro h
    have h1 : c.val ≥ 48 := of_decide_eq_true (Bool.and_eq_true_iff.mp h).1
    have h2 : c.val ≤ 57 := of_decide_eq_true (Bool.and_eq_true_iff.mp h).2
    exact ⟨h1, h2⟩
  · intro ⟨h1, h2⟩
    exact Bool.and_eq_true_iff.mpr ⟨decide_eq_true h1, decide_eq_true h2⟩

theorem char_eq_iff_toNat {c d : Char} : c = d ↔ c.toNat = d.toNat :=
  ⟨fun h => h ▸ rfl, char_toNat_inj⟩

theorem isSchemeChar_iff (c : Char) :
    isSchemeChar c = true ↔
      ((65 ≤ c.toNat ∧ c.toNat ≤ 90) ∨ (97 ≤ c.toNat ∧ c.toNat ≤ 122)
        ∨ (48 ≤ c.toNat ∧ c.toNat ≤ 57)
        ∨ c.toNat = 43 ∨ c.toNat = 45 ∨ c.toNat = 46) := by
  unfold isSchemeChar
  simp only [Bool.or_eq_true, Bool.and_eq_true, isAlpha_iff_toNat,
    isDigit_iff_toNat, decide_eq_true_eq, char_eq_iff_toNat,
    show ('+').toNat = 43 from rfl, show ('-').toNat = 45 from rfl,
    show ('.').toNat = 46 from rfl]
  omega

theorem alphaAscii_iff (c : Char) :
    (c.isAlpha && decide (c.toNat < 128)) = true ↔
      ((65 ≤ c.toNat ∧ c.toNat ≤ 90) ∨ (97 ≤ c.toNat ∧ c.toNat ≤ 122)) := by
  simp only [Bool.and_eq_true, isAlpha_iff_toNat, decide_eq_true_eq]
  omega

theorem isAlwaysSafe_iff (c : Char) :
    isAlwaysSafe c = true ↔
      ((65 ≤ c.toNat ∧ c.toNat ≤ 90) ∨ (97 ≤ c.toNat ∧ c.toNat ≤ 122)
        ∨ (48 ≤ c.toNat ∧ c.toNat ≤ 57)
        ∨ c.toNat = 95 ∨ c.toNat = 46 ∨ c.toNat = 45 ∨ c.toNat = 126) := by
  unfold isAlwaysSafe
  simp only [Bool.or_eq_true, Bool.and_eq_true, isAlpha_iff_toNat,
    isDigit_iff_toNat, decide_eq_true_eq, char_eq_iff_toNat,
    show ('_').toNat = 95 from rfl, show ('.').toNat = 46 from rfl,
    show ('-').toNat = 45 from rfl, show ('~').toNat = 126 from rfl]
  omega

theorem hexUp_toNat {m : Nat} (hm : m < 16) :
    (hexUp m).toNat = if m < 10 then 48 + m else 55 + m := by
  unfold hexUp
  split
  · rw [show ('0').toNat = 48 from rfl]
    exact toNat_ofNat_valid (Or.inl (by omega))
  · rw [show ('A').toNat = 65 from rfl, show 65 + m - 10 = 55 + m from by omega]
    exact toNat_ofNat_valid (Or.inl (by omega))

/-- The character repertoire of `quote_plus` output: ASCII
alphanumerics, `_ . - ~`, and `+ %`. -/
abbrev qpNat (n : Nat) : Prop :=
  (65 ≤ n ∧ n ≤ 90) ∨ (97 ≤ n ∧ n ≤ 122) ∨ (48 ≤ n ∧ n ≤ 57)
    ∨ n = 95 ∨ n = 46 ∨ n = 45 ∨ n = 126 ∨ n = 43 ∨ n = 37

/-- The character repertoire of `urlencode(...)` output: `quote_plus`
output plus the two separator characters `= &`. -/
abbrev qencNat (n : Nat) : Prop := qpNat n ∨ n = 61 ∨ n = 38

theorem mem_pctByte {ch : Char} {b : Nat} (hb : b < 256) (h : ch ∈ pctByte b) :
    qpNat ch.toNat := by
  have hx : ∀ m : Nat, m < 16 → qpNat (hexUp m).toNat := by
    intro m hm
    rw [hexUp_toNat hm]
    unfold qpNat
    by_cases h10 : m < 10
    · rw [if_pos h10]
      omega
    · rw [if_neg h10]
      omega
  simp only [pctByte, List.mem_cons, List.not_mem_nil, or_false] at h
  rcases h with rfl | rfl | rfl
  · decide
  · exact hx _ (by omega)
  · exact hx _ (by omega)

theorem utf8Bytes_lt {b : Nat} {c : Char} (hbm : b ∈ utf8Bytes c) :
    b < 256 := by
  have hval := char_valid_nat c
  simp only [utf8Bytes] at hbm
  split at hbm
  · rcases List.mem_singleton.mp hbm with rfl
    omega
  · split at hbm
    · simp only [List.mem_cons, List.not_mem_nil, or_false] at hbm
      rcases hbm with rfl | rfl
      · omega
      · omega
    · split at hbm
      · simp only [List.mem_cons, List.not_mem_nil, or_false] at hbm
        rcases hbm with rfl | rfl | rfl
        · omega
        · omega
        · omega
      · simp only [List.mem_cons, List.not_mem_nil, or_false] at hbm
        rcases hbm with rfl | rfl | rfl | rfl
        · omega
        · omega
        · omega
        · omega

theorem mem_quotePlus {ch : Char} {x : Str} (h : ch ∈ pyQuotePlus x) :
    qpNat ch.toNat := by
  unfold pyQuotePlus at h
  rw [List.mem_flatMap] at h
  obtain ⟨c, _, hm⟩ := h
  split at hm
  · rename_i hsafe
    rcases List.mem_singleton.mp hm with rfl
    have := (isAlwaysSafe_iff ch).mp hsafe
    unfold qpNat
    omega
  · split at hm
    · rcases List.mem_singleton.mp hm with rfl
      decide
    · rw [List.mem_flatMap] at hm
      obtain ⟨b, hbm, hin⟩ := hm
      exact mem_pctByte (utf8Bytes_lt hbm) hin

theorem mem_joinChar {ch c : Char} {l : List Str} (h : ch ∈ joinChar c l) :
    ch = c ∨ ∃ p ∈ l, ch ∈ p := by
  induction l with
  | nil => exact absurd h (List.not_mem_nil ch)
  | cons x xs ih =>
    cases xs with
    | nil =>
      exact Or.inr ⟨x, List.mem_cons_self x [], h⟩
    | cons y ys =>
      rw [show joinChar c (x :: y :: ys) = x ++ c :: joinChar c (y :: ys) from rfl,
        List.mem_append] at h
      rcases h with h | h
      · exact Or.inr ⟨x, List.mem_cons_self _ _, h⟩
      · rcases List.mem_cons.mp h with rfl | h
        · exact Or.inl rfl
        · rcases ih h with h | ⟨p, hp, hcp⟩
          · exact Or.inl h
          · exact Or.inr ⟨p, List.mem_cons_of_mem x hp, hcp⟩

theorem mem_urlencode {ch : Char} {d : List (Str × List Str)}
    (h : ch ∈ pyUrlencode d) : qencNat ch.toNat := by
  unfold pyUrlencode at h
  rcases mem_joinChar h with rfl | ⟨p, hp, hcp⟩
  · exact Or.inr (Or.inr rfl)
  · rw [List.mem_flatMap] at hp
    obtain ⟨kv, _, hmap⟩ := hp
    rw [List.mem_map] at hmap
    obtain ⟨v, _, rfl⟩ := hmap
    rw [List.mem_append] at hcp
    rcases hcp with hcp | hcp
    · exact Or.inl (mem_quotePlus hcp)
    · rcases List.mem_cons.mp hcp with rfl | hcp
      · exact Or.inr (Or.inl rfl)
      · exact Or.inl (mem_quotePlus hcp)

theorem utf8F_step1 {f b0 : Nat} {rest : List Nat} (h : b0 < 0x80) :
    utf8DecodeReplaceF (f + 1) (b0 :: rest)
      = Char.ofNat b0 :: utf8DecodeReplaceF f rest := by
  simp only [utf8DecodeReplaceF]
  rw [if_pos h]

theorem utf8F_step2 {f b0 b1 : Nat} {rest : List Nat}
    (h0 : 0xC2 ≤ b0 ∧ b0 ≤ 0xDF) (h1 : 0x80 ≤ b1 ∧ b1 < 0xC0) :
    utf8DecodeReplaceF (f + 1) (b0 :: b1 :: rest)
      = Char.ofNat ((b0 - 0xC0) * 64 + (b1 - 0x80))
          :: utf8DecodeReplaceF f rest := by
  simp only [utf8DecodeReplaceF]
  rw [if_neg (by omega), if_pos h0, if_pos (show isCont b1 = true from by
    simp only [isCont, decide_eq_true_eq, Bool.and_eq_true]
    omega)]

theorem utf8F_step3 {f b0 b1 b2 : Nat} {rest : List Nat}
    (h0 : 0xE0 ≤ b0 ∧ b0 ≤ 0xEF)
    (h1 : (if b0 = 0xE0 then 0xA0 else 0x80) ≤ b1
        ∧ b1 ≤ (if b0 = 0xED then 0x9F else 0xBF))
    (h2 : 0x80 ≤ b2 ∧ b2 < 0xC0) :
    utf8DecodeReplaceF (f + 1) (b0 :: b1 :: b2 :: rest)
      = Char.ofNat ((b0 - 0xE0) * 4096 + (b1 - 0x80) * 64 + (b2 - 0x80))
          :: utf8DecodeReplaceF f rest := by
  have hb1 : b1 ≤ 0xBF := by
    rcases h1 with ⟨_, hr⟩
    by_cases he : b0 = 0xED
    · rw [if_pos he] at hr; omega
    · rw [if_neg he] at hr; exact hr
  simp only [utf8DecodeReplaceF]
  rw [if_neg (by omega), if_neg (by omega), if_pos h0, if_pos h1,
    if_pos (show isCont b2 = true from by
      simp only [isCont, decide_eq_true_eq, Bool.and_eq_true]
      omega)]

theorem utf8F_step4 {f b0 b1 b2 b3 : Nat} {rest : List Nat}
    (h0 : 0xF0 ≤ b0 ∧ b0 ≤ 0xF4)
    (h1 : (if b0 = 0xF0 then 0x90 else 0x80) ≤ b1
        ∧ b1 ≤ (if b0 = 0xF4 then 0x8F else 0xBF))
    (h2 : 0x80 ≤ b2 ∧ b2 < 0xC0) (h3 : 0x80 ≤ b3 ∧ b3 < 0xC0) :
    utf8DecodeReplaceF (f + 1) (b0 :: b1 :: b2 :: b3 :: rest)
      = Char.ofNat ((b0 - 0xF0) * 262144 + (b1 - 0x80) * 4096
            + (b2 - 0x80) * 64 + (b3 - 0x80))
          :: utf8DecodeReplaceF f rest := by
  simp only [utf8DecodeReplaceF]
  rw [if_neg (by omega), if_neg (by omega), if_neg (by omega), if_pos h0,
    if_pos h1,
    if_pos (show isCont b2 = true from by
      simp only [isCont, decide_eq_true_eq, Bool.and_eq_true]
      omega),
    if_pos (show isCont b3 = true from by
      simp only [isCont, decide_eq_true_eq, Bool.and_eq_true]
      omega)]

theorem utf8Bytes_length_pos (c : Char) : 1 ≤ (utf8Bytes c).length := by
  simp only [utf8Bytes]
  split_ifs <;> simp

theorem length_le_flatMap_utf8 (cs : Str) :
    cs.length ≤ (cs.flatMap utf8Bytes).length := by
  induction cs with
  | nil => simp
  | cons c cs ih =>
    rw [List.flatMap_cons, List.length_cons, List.length_append]
    have := utf8Bytes_length_pos c
    omega

theorem utf8_decode_flat (cs : Str) : ∀ fuel, cs.length ≤ fuel →
    utf8DecodeReplaceF fuel (cs.flatMap utf8Bytes) = cs := by
  induction cs with
  | nil =>
    intro fuel _
    cases fuel <;> rfl
  | cons c cs ih =>
    intro fuel hf
    cases fuel with
    | zero => simp at hf
    | succ f =>
      have hlen : cs.length ≤ f := by
        rw [List.length_cons] at hf
        omega
      rw [List.flatMap_cons]
      have hv := char_valid_nat c
      by_cases h1 : c.toNat < 0x80
      · have hb : utf8Bytes c = [c.toNat] := by
          simp only [utf8Bytes]
          rw [if_pos h1]
        rw [hb, List.cons_append, List.nil_append, utf8F_step1 h1,
          Char.ofNat_toNat, ih f hlen]
      · by_cases h2 : c.toNat < 0x800
        · have hb : utf8Bytes c
              = [0xC0 + c.toNat / 64, 0x80 + c.toNat % 64] := by
            simp only [utf8Bytes]
            rw [if_neg h1, if_pos h2]
          rw [hb, List.cons_append, List.cons_append, List.nil_append,
            utf8F_step2 (by omega) (by omega)]
          rw [show (0xC0 + c.toNat / 64 - 0xC0) * 64 + (0x80 + c.toNat % 64 - 0x80)
              = c.toNat from by omega]
          rw [Char.ofNat_toNat, ih f hlen]
        · by_cases h3 : c.toNat < 0x10000
          · have hb : utf8Bytes c
                = [0xE0 + c.toNat / 4096, 0x80 + c.toNat / 64 % 64,
                   0x80 + c.toNat % 64] := by
              simp only [utf8Bytes]
              rw [if_neg h1, if_neg h2, if_pos h3]
            rw [hb, List.cons_append, List.cons_append, List.cons_append,
              List.nil_append,
              utf8F_step3 (by omega) (by constructor <;> split <;> omega)
                (by omega)]
            rw [show (0xE0 + c.toNat / 4096 - 0xE0) * 4096
                + (0x80 + c.toNat / 64 % 64 - 0x80) * 64
                + (0x80 + c.toNat % 64 - 0x80) = c.toNat from by omega]
            rw [Char.ofNat_toNat, ih f hlen]
          · have hb : utf8Bytes c
                = [0xF0 + c.toNat / 262144, 0x80 + c.toNat / 4096 % 64,
                   0x80 + c.toNat / 64 % 64, 0x80 + c.toNat % 64] := by
              simp only [utf8Bytes]
              rw [if_neg h1, if_neg h2, if_neg h3]
            rw [hb, List.cons_append, List.cons_append, List.cons_append,
              List.cons_append, List.nil_append,
              utf8F_step4 (by omega) (by constructor <;> split <;> omega)
                (by omega) (by omega)]
            rw [show (0xF0 + c.toNat / 262144 - 0xF0) * 262144
                + (0x80 + c.toNat / 4096 % 64 - 0x80) * 4096
                + (0x80 + c.toNat / 64 % 64 - 0x80) * 64
                + (0x80 + c.toNat % 64 - 0x80) = c.toNat from by omega]
            rw [Char.ofNat_toNat, ih f hlen]

theorem utf8DecodeReplace_flat (cs : Str) :
    utf8DecodeReplace (cs.flatMap utf8Bytes) = cs :=
  utf8_decode_flat cs _ (length_le_flatMap_utf8 cs)

theorem hexVal_hexUp {m : Nat} (hm : m < 16) : hexVal? (hexUp m) = some m := by
  have ht := hexUp_toNat hm
  unfold hexVal?
  by_cases h10 : m < 10
  · rw [if_pos h10] at ht
    have le1 : '0' ≤ hexUp m := show ('0').toNat ≤ (hexUp m).toNat by
      rw [ht, show ('0').toNat = 48 from rfl]
      omega
    have le2 : hexUp m ≤ '9' := show (hexUp m).toNat ≤ ('9').toNat by
      rw [ht, show ('9').toNat = 57 from rfl]
      omega
    rw [if_pos ⟨le1, le2⟩, ht]
    rw [show ('0').toNat = 48 from rfl]
    congr 1
    omega
  · rw [if_neg h10] at ht
    have hA : ('A').toNat ≤ (hexUp m).toNat := by
      rw [ht, show ('A').toNat = 65 from rfl]
      omega
    have hF : (hexUp m).toNat ≤ ('F').toNat := by
      rw [ht, show ('F').toNat = 70 from rfl]
      omega
    rw [if_neg, if_neg, if_pos ⟨hA, hF⟩, ht]
    · rw [show ('A').toNat = 65 from rfl]
      congr 1
      omega
    · rintro ⟨ha, hb⟩
      have hx : ('a').toNat ≤ (hexUp m).toNat := ha
      rw [ht, show ('a').toNat = 97 from rfl] at hx
      omega
    · rintro ⟨ha, hb⟩
      have hx : (hexUp m).toNat ≤ ('9').toNat := hb
      rw [ht, show ('9').toNat = 57 from rfl] at hx
      omega

theorem unquote_step_pct {f : Nat} {h1c h2c : Char} {rest : Str}
    {acc : List Nat} {a b : Nat}
    (hh1 : hexVal? h1c = some a) (hh2 : hexVal? h2c = some b) :
    pyUnquoteCoreF (f + 1) ('%' :: h1c :: h2c :: rest) acc
      = pyUnquoteCoreF f rest (acc ++ [16 * a + b]) := by
  simp only [pyUnquoteCoreF]
  rw [hh1, hh2]

theorem unquote_step_ascii {f : Nat} {c : Char} {rest : Str} {acc : List Nat}
    (hne : c ≠ '%') (hlt : c.toNat < 128) :
    pyUnquoteCoreF (f + 1) (c :: rest) acc
      = pyUnquoteCoreF f rest (acc ++ [c.toNat]) := by
  rw [pyUnquoteCoreF.eq_4 acc f c rest (fun h1 h2 r hc _ => hne hc),
    if_pos hlt]

/-- The per-character effect of `quote_plus` followed by the
`'+' → ' '` substitution of `unquote_plus`. -/
def quotePlusSub (c : Char) : Str :=
  if isAlwaysSafe c then [c]
  else if c = ' ' then [' ']
  else (utf8Bytes c).flatMap pctByte

theorem hexUp_ne_plus {m : Nat} (hm : m < 16) : hexUp m ≠ '+' := by
  intro he
  have ht := hexUp_toNat hm
  rw [he, show ('+').toNat = 43 from rfl] at ht
  by_cases h10 : m < 10
  · rw [if_pos h10] at ht
    omega
  · rw [if_neg h10] at ht
    omega

theorem quotePlus_map_sub (x : Str) :
    (pyQuotePlus x).map (fun c => if c = '+' then ' ' else c)
      = x.flatMap quotePlusSub := by
  unfold pyQuotePlus
  rw [List.map_flatMap]
  apply List.flatMap_congr
  intro c _
  by_cases hs : isAlwaysSafe c = true
  · rw [if_pos hs]
    unfold quotePlusSub
    rw [if_pos hs]
    have hc : c ≠ '+' := by
      rintro rfl
      rw [show isAlwaysSafe '+' = false from rfl] at hs
      exact Bool.false_ne_true hs
    simp [hc]
  · rw [if_neg hs]
    unfold quotePlusSub
    rw [if_neg hs]
    by_cases hsp : c = ' '
    · rw [if_pos hsp, if_pos hsp]
      rfl
    · rw [if_neg hsp, if_neg hsp, List.map_flatMap]
      apply List.flatMap_congr
      intro b hb
      have hb256 : b < 256 := utf8Bytes_lt hb
      unfold pctByte
      simp only [List.map_cons, List.map_nil]
      rw [if_neg (show ('%' : Char) ≠ '+' from by decide),
        if_neg (hexUp_ne_plus (by omega)),
        if_neg (hexUp_ne_plus (Nat.mod_lt b (by omega)))]

theorem pct_flat_length (bs : List Nat) :
    (bs.flatMap pctByte).length = 3 * bs.length := by
  induction bs with
  | nil => rfl
  | cons b bs ih =>
    rw [List.flatMap_cons, List.length_append, ih, List.length_cons]
    rw [show (pctByte b).length = 3 from rfl]
    omega

theorem unquote_scan_pct (bs : List Nat) (hb : ∀ b ∈ bs, b < 256) :
    ∀ fuel (t : Str) (acc : List Nat),
      (bs.flatMap pctByte).length + t.length ≤ fuel →
      pyUnquoteCoreF fuel (bs.flatMap pctByte ++ t) acc
        = pyUnquoteCoreF (fuel - bs.length) t (acc ++ bs) := by
  induction bs with
  | nil =>
    intro fuel t acc h
    simp
  | cons b bs ih =>
    intro fuel t acc h
    rw [List.flatMap_cons] at h ⊢
    rw [List.length_append, pct_flat_length,
      show (pctByte b).length = 3 from rfl] at h
    cases fuel with
    | zero => omega
    | succ f =>
      have hblt := hb b (List.mem_cons_self _ _)
      rw [show pctByte b = ['%', hexUp (b / 16), hexUp (b % 16)] from rfl,
        List.append_assoc,
        show (['%', hexUp (b / 16), hexUp (b % 16)] : Str)
            ++ (bs.flatMap pctByte ++ t)
          = '%' :: hexUp (b / 16) :: hexUp (b % 16)
            :: (bs.flatMap pctByte ++ t) from rfl,
        unquote_step_pct (hexVal_hexUp (by omega))
          (hexVal_hexUp (Nat.mod_lt b (by omega))),
        show 16 * (b / 16) + b % 16 = b from by omega,
        ih (fun y hy => hb y (List.mem_cons_of_mem b hy)) f t (acc ++ [b])
          (by rw [pct_flat_length]; omega),
        List.append_assoc, List.singleton_append,
        show f - bs.length = f + 1 - (b :: bs).length from by
          rw [List.length_cons]
          omega]

theorem unquote_scan_sub (x : Str) :
    ∀ fuel (acc : List Nat),
      (x.flatMap quotePlusSub).length ≤ fuel →
      pyUnquoteCoreF fuel (x.flatMap quotePlusSub) acc
        = utf8DecodeReplace (acc ++ x.flatMap utf8Bytes) := by
  induction x with
  | nil =>
    intro fuel acc h
    rw [List.flatMap_nil, List.flatMap_nil, List.append_nil,
      pyUnquoteCoreF.eq_1]
  | cons c x ih =>
    intro fuel acc h
    rw [List.flatMap_cons] at h ⊢
    rw [List.flatMap_cons (f := utf8Bytes)]
    by_cases hs : isAlwaysSafe c = true
    · have hsub : quotePlusSub c = [c] := by
        unfold quotePlusSub
        rw [if_pos hs]
      rw [hsub] at h ⊢
      cases fuel with
      | zero =>
        rw [List.length_append] at h
        simp at h
      | succ f =>
        rw [List.singleton_append]
        have hlt : c.toNat < 128 := by
          have := (isAlwaysSafe_iff c).mp hs
          omega
        have hne : c ≠ '%' := by
          rintro rfl
          rw [show isAlwaysSafe '%' = false from rfl] at hs
          exact Bool.false_ne_true hs
        rw [unquote_step_ascii hne hlt,
          ih f (acc ++ [c.toNat]) (by
            rw [List.length_append] at h
            simp only [List.length_singleton] at h
            omega)]
        have hbytes : utf8Bytes c = [c.toNat] := by
          simp only [utf8Bytes]
          rw [if_pos (by omega)]
        rw [hbytes, ← List.append_assoc]
    · by_cases hsp : c = ' '
      · subst hsp
        have hsub : quotePlusSub ' ' = [' '] := by
          unfold quotePlusSub
          rw [if_neg hs, if_pos rfl]
        rw [hsub] at h ⊢
        cases fuel with
        | zero =>
          rw [List.length_append] at h
          simp at h
        | succ f =>
          rw [List.singleton_append]
          rw [unquote_step_ascii (by decide) (by decide),
            ih f (acc ++ [(' ').toNat]) (by
              rw [List.length_append] at h
              simp only [List.length_singleton] at h
              omega)]
          have hbytes : utf8Bytes ' ' = [(' ').toNat] := by
            simp only [utf8Bytes]
            rw [if_pos (by decide)]
          rw [hbytes, ← List.append_assoc]
      · have hsub : quotePlusSub c = (utf8Bytes c).flatMap pctByte := by
          unfold quotePlusSub
          rw [if_neg hs, if_neg hsp]
        rw [hsub] at h ⊢
        rw [List.length_append] at h
        rw [unquote_scan_pct (utf8Bytes c) (fun b hb => utf8Bytes_lt hb)
            fuel _ acc (by omega),
          ih (fuel - (utf8Bytes c).length) (acc ++ utf8Bytes c) (by
            rw [pct_flat_length] at h
            omega),
          List.append_assoc]

theorem unquote_plus_quote_plus (x : Str) :
    pyUnquotePlus (pyQuotePlus x) = x := by
  unfold pyUnquotePlus pyUnquote
  rw [quotePlus_map_sub,
    unquote_scan_sub x _ [] (le_refl _),
    List.nil_append]
  exact utf8DecodeReplace_flat x

theorem splitAll_no_sep {c : Char} {a : Str} (ha : c ∉ a) :
    splitAll c a = [a] := by
  induction a with
  | nil => rfl
  | cons x xs ih =>
    have hx : ¬(x = c) := fun he => ha (he ▸ List.mem_cons_self x xs)
    rw [show splitAll c (x :: xs)
        = if x = c then [] :: splitAll c xs
          else match splitAll c xs with
            | [] => [[x]]
            | r :: rs => (x :: r) :: rs from rfl,
      if_neg hx, ih (fun hm => ha (List.mem_cons_of_mem x hm))]

theorem splitAll_append_cons {c : Char} {a : Str} (ha : c ∉ a) (b : Str) :
    splitAll c (a ++ c :: b) = a :: splitAll c b := by
  induction a with
  | nil =>
    rw [List.nil_append,
      show splitAll c (c :: b)
        = if c = c then [] :: splitAll c b
          else match splitAll c b with
            | [] => [[c]]
            | r :: rs => (c :: r) :: rs from rfl,
      if_pos rfl]
  | cons x xs ih =>
    have hx : ¬(x = c) := fun he => ha (he ▸ List.mem_cons_self x xs)
    rw [List.cons_append,
      show splitAll c (x :: (xs ++ c :: b))
        = if x = c then [] :: splitAll c (xs ++ c :: b)
          else match splitAll c (xs ++ c :: b) with
            | [] => [[x]]
            | r :: rs => (x :: r) :: rs from rfl,
      if_neg hx, ih (fun hm => ha (List.mem_cons_of_mem x hm))]

theorem splitAll_joinChar {c : Char} {ps : List Str}
    (h : ∀ p ∈ ps, c ∉ p) (hne : ps ≠ []) :
    splitAll c (joinChar c ps) = ps := by
  induction ps with
  | nil => exact absurd rfl hne
  | cons p ps ih =>
    cases ps with
    | nil => exact splitAll_no_sep (h p (List.mem_cons_self p []))
    | cons q qs =>
      rw [show joinChar c (p :: q :: qs) = p ++ c :: joinChar c (q :: qs)
          from rfl,
        splitAll_append_cons (h p (List.mem_cons_self _ _)),
        ih (fun r hr => h r (List.mem_cons_of_mem p hr)) (by simp)]

theorem quotePlus_not_amp {k : Str} : ('&') ∉ pyQuotePlus k := by
  intro h
  have := mem_quotePlus h
  rw [show ('&').toNat = 38 from rfl] at this
  unfold qpNat at this
  omega

theorem quotePlus_not_eq {k : Str} : ('=') ∉ pyQuotePlus k := by
  intro h
  have := mem_quotePlus h
  rw [show ('=').toNat = 61 from rfl] at this
  unfold qpNat at this
  omega

theorem foldr_qsl_encoded (ps : List (Str × Str)) :
    (ps.map fun kv => pyQuotePlus kv.1 ++ '=' :: pyQuotePlus kv.2).foldr
      (fun piece acc =>
        if piece = [] then acc
        else
          let (n, v) := (splitFirst '=' piece).getD (piece, [])
          (pyUnquotePlus n, pyUnquotePlus v) :: acc)
      [] = ps := by
  induction ps with
  | nil => rfl
  | cons kv ps ih =>
    rw [List.map_cons, List.foldr_cons, ih]
    have hne : pyQuotePlus kv.1 ++ '=' :: pyQuotePlus kv.2 ≠ [] := by
      cases h : pyQuotePlus kv.1 with
      | nil => simp
      | cons a b => simp
    rw [if_neg hne, splitFirst_append quotePlus_not_eq]
    simp only [Option.getD_some]
    rw [unquote_plus_quote_plus, unquote_plus_quote_plus]

theorem joinChar_cons_ne_nil {c : Char} {x : Str} {xs : List Str}
    (hx : x ≠ []) : joinChar c (x :: xs) ≠ [] := by
  cases xs with
  | nil => exact hx
  | cons y ys =>
    rw [show joinChar c (x :: y :: ys) = x ++ c :: joinChar c (y :: ys)
        from rfl]
    cases x with
    | nil => exact absurd rfl hx
    | cons a b => simp

theorem enc_piece_ne_nil {k v : Str} :
    pyQuotePlus k ++ '=' :: pyQuotePlus v ≠ [] := by
  cases h : pyQuotePlus k with
  | nil => simp
  | cons a b => simp

theorem amp_not_mem_enc_piece {k v : Str} :
    ('&') ∉ pyQuotePlus k ++ '=' :: pyQuotePlus v := by
  intro hm
  rcases List.mem_append.mp hm with hm | hm
  · exact quotePlus_not_amp hm
  · rcases List.mem_cons.mp hm with he | hm
    · exact absurd he (by decide)
    · exact quotePlus_not_amp hm

theorem parse_qsl_urlencode (d : List (Str × List Str)) :
    pyParseQsl (pyUrlencode d)
      = d.flatMap fun kv => kv.2.map fun v => (kv.1, v) := by
  have hpieces : (d.flatMap fun kv => kv.2.map fun v =>
      pyQuotePlus kv.1 ++ '=' :: pyQuotePlus v)
      = (d.flatMap fun kv => kv.2.map fun v => (kv.1, v)).map
          (fun kv => pyQuotePlus kv.1 ++ '=' :: pyQuotePlus kv.2) := by
    rw [List.map_flatMap]
    apply List.flatMap_congr
    intro kv _
    rw [List.map_map]
    rfl
  cases hd : d.flatMap fun kv => kv.2.map fun v => (kv.1, v) with
  | nil =>
    unfold pyUrlencode pyParseQsl
    rw [hpieces, hd]
    rfl
  | cons p ps =>
    unfold pyUrlencode pyParseQsl
    rw [hpieces, hd]
    dsimp only
    rw [List.map_cons, if_neg (joinChar_cons_ne_nil enc_piece_ne_nil)]
    rw [splitAll_joinChar ?hmem ?hne]
    case hmem =>
      intro piece hp
      rcases List.mem_cons.mp hp with rfl | hp
      · exact amp_not_mem_enc_piece
      · rw [List.mem_map] at hp
        obtain ⟨kv, _, rfl⟩ := hp
        exact amp_not_mem_enc_piece
    case hne => simp
    exact foldr_qsl_encoded (p :: ps)

theorem qsInsert_fresh (acc : List (Str × List Str)) (k : Str) (v : Str)
    (hk : ∀ e ∈ acc, e.1 ≠ k) : qsInsert acc k v = acc ++ [(k, [v])] := by
  induction acc with
  | nil => rfl
  | cons e rest ih =>
    obtain ⟨k', ws⟩ := e
    rw [show qsInsert ((k', ws) :: rest) k v
        = if k' = k then (k', ws ++ [v]) :: rest
          else (k', ws) :: qsInsert rest k v from rfl,
      if_neg (hk (k', ws) (List.mem_cons_self _ _)),
      ih (fun e he => hk e (List.mem_cons_of_mem _ he)), List.cons_append]

theorem qsInsert_last (pref : List (Str × List Str)) (k : Str)
    (hk : ∀ e ∈ pref, e.1 ≠ k) (ws : List Str) (v : Str) :
    qsInsert (pref ++ [(k, ws)]) k v = pref ++ [(k, ws ++ [v])] := by
  induction pref with
  | nil =>
    rw [List.nil_append, List.nil_append]
    rw [show qsInsert [(k, ws)] k v
        = if k = k then (k, ws ++ [v]) :: []
          else (k, ws) :: qsInsert [] k v from rfl, if_pos rfl]
  | cons e rest ih =>
    obtain ⟨k', ws'⟩ := e
    rw [List.cons_append, List.cons_append,
      show qsInsert ((k', ws') :: (rest ++ [(k, ws)])) k v
        = if k' = k then (k', ws' ++ [v]) :: (rest ++ [(k, ws)])
          else (k', ws') :: qsInsert (rest ++ [(k, ws)]) k v from rfl,
      if_neg (hk (k', ws') (List.mem_cons_self _ _)),
      ih (fun e he => hk e (List.mem_cons_of_mem _ he))]

theorem foldl_qsInsert_vs (vs : List Str) (k : Str) :
    ∀ (pref : List (Str × List Str)) (ws : List Str),
      (∀ e ∈ pref, e.1 ≠ k) →
      (vs.map fun v => (k, v)).foldl
          (fun acc (kv : Str × Str) => qsInsert acc kv.1 kv.2)
          (pref ++ [(k, ws)])
        = pref ++ [(k, ws ++ vs)] := by
  induction vs with
  | nil =>
    intro pref ws _
    rw [List.map_nil, List.foldl_nil, List.append_nil]
  | cons v vs ih =>
    intro pref ws hk
    rw [List.map_cons, List.foldl_cons]
    rw [show qsInsert (pref ++ [(k, ws)]) (k, v).1 (k, v).2
        = qsInsert (pref ++ [(k, ws)]) k v from rfl,
      qsInsert_last pref k hk ws v, ih pref (ws ++ [v]) hk,
      List.append_assoc, List.singleton_append]

theorem foldl_qsInsert_flat (d : List (Str × List Str)) :
    ∀ (pref : List (Str × List Str)),
      (∀ e ∈ pref, ∀ kv ∈ d, e.1 ≠ kv.1) →
      (d.map Prod.fst).Nodup →
      (∀ kv ∈ d, kv.2 ≠ []) →
      (d.flatMap fun kv => kv.2.map fun v => (kv.1, v)).foldl
          (fun acc (kv : Str × Str) => qsInsert acc kv.1 kv.2) pref
        = pref ++ d := by
  induction d with
  | nil =>
    intro pref _ _ _
    rw [List.flatMap_nil, List.foldl_nil, List.append_nil]
  | cons kv d ih =>
    intro pref hdisj hkeys hvals
    obtain ⟨k, vs⟩ := kv
    rw [List.flatMap_cons, List.foldl_append]
    dsimp only
    cases hvs : vs with
    | nil => exact absurd rfl (hvs ▸ hvals (k, vs) (List.mem_cons_self _ _))
    | cons v0 vs' =>
      have hfresh : ∀ e ∈ pref, e.1 ≠ k :=
        fun e he => hdisj e he (k, vs) (List.mem_cons_self _ _)
      have hstep : ((v0 :: vs').map fun v => (k, v)).foldl
          (fun acc (kv : Str × Str) => qsInsert acc kv.1 kv.2) pref
          = pref ++ [(k, v0 :: vs')] := by
        rw [List.map_cons, List.foldl_cons]
        dsimp only
        rw [qsInsert_fresh pref k v0 hfresh,
          foldl_qsInsert_vs vs' k pref [v0] hfresh, List.singleton_append]
      rw [hstep, ih (pref ++ [(k, v0 :: vs')]) ?hdisj2
          (by rw [List.map_cons] at hkeys; exact hkeys.of_cons)
          (fun e he => hvals e (List.mem_cons_of_mem _ he)),
        List.append_assoc, List.singleton_append]
      case hdisj2 =>
        intro e he kv2 hkv2
        rcases List.mem_append.mp he with he | he
        · exact hdisj e he kv2 (List.mem_cons_of_mem _ hkv2)
        · rcases List.mem_singleton.mp he with rfl
          rw [List.map_cons] at hkeys
          intro hek
          have hmem : kv2.1 ∈ d.map Prod.fst := List.mem_map_of_mem Prod.fst hkv2
          rw [← hek] at hmem
          exact (List.nodup_cons.mp hkeys).1 hmem

theorem parse_qs_urlencode (d : List (Str × List Str))
    (hkeys : (d.map Prod.fst).Nodup) (hvals : ∀ kv ∈ d, kv.2 ≠ []) :
    pyParseQs (pyUrlencode d) = d := by
  unfold pyParseQs
  rw [parse_qsl_urlencode d,
    foldl_qsInsert_flat d [] (fun e he => absurd he (List.not_mem_nil e))
      hkeys hvals, List.nil_append]

theorem keys_qsInsert (acc : List (Str × List Str)) (k : Str) (v : Str) :
    (qsInsert acc k v).map Prod.fst
      = if k ∈ acc.map Prod.fst then acc.map Prod.fst
        else acc.map Prod.fst ++ [k] := by
  induction acc with
  | nil => rfl
  | cons e rest ih =>
    obtain ⟨k', ws⟩ := e
    by_cases hk : k' = k
    · subst hk
      rw [show qsInsert ((k', ws) :: rest) k' v
          = if k' = k' then (k', ws ++ [v]) :: rest
            else (k', ws) :: qsInsert rest k' v from rfl, if_pos rfl,
        List.map_cons, List.map_cons, if_pos (List.mem_cons_self _ _)]
    · rw [show qsInsert ((k', ws) :: rest) k v
          = if k' = k then (k', ws ++ [v]) :: rest
            else (k', ws) :: qsInsert rest k v from rfl, if_neg hk,
        List.map_cons, List.map_cons, ih]
      by_cases hmem : k ∈ rest.map Prod.fst
      · rw [if_pos hmem, if_pos (List.mem_cons_of_mem _ hmem)]
      · rw [if_neg hmem, if_neg, List.cons_append]
        intro hm
        rcases List.mem_cons.mp hm with hm | hm
        · exact hk (by simpa using hm.symm)
        · exact hmem hm

theorem nodup_keys_qsInsert {acc : List (Str × List Str)} {k : Str} {v : Str}
    (h : (acc.map Prod.fst).Nodup) :
    ((qsInsert acc k v).map Prod.fst).Nodup := by
  rw [keys_qsInsert]
  by_cases hmem : k ∈ acc.map Prod.fst
  · rw [if_pos hmem]
    exact h
  · rw [if_neg hmem]
    exact List.Nodup.append h (List.nodup_singleton k)
      (by intro a ha hb; rcases List.mem_singleton.mp hb with rfl; exact hmem ha)

theorem vals_qsInsert {acc : List (Str × List Str)} {k : Str} {v : Str}
    (h : ∀ e ∈ acc, e.2 ≠ []) : ∀ e ∈ qsInsert acc k v, e.2 ≠ [] := by
  induction acc with
  | nil =>
    intro e he
    rcases List.mem_singleton.mp he with rfl
    simp
  | cons e0 rest ih =>
    obtain ⟨k', ws⟩ := e0
    intro e he
    rw [show qsInsert ((k', ws) :: rest) k v
        = if k' = k then (k', ws ++ [v]) :: rest
          else (k', ws) :: qsInsert rest k v from rfl] at he
    by_cases hk : k' = k
    · rw [if_pos hk] at he
      rcases List.mem_cons.mp he with rfl | he
      · simp
      · exact h e (List.mem_cons_of_mem _ he)
    · rw [if_neg hk] at he
      rcases List.mem_cons.mp he with rfl | he
      · exact h (k', ws) (List.mem_cons_self _ _)
      · exact ih (fun e2 he2 => h e2 (List.mem_cons_of_mem _ he2)) e he

theorem parse_qs_wf (qs : Str) :
    ((pyParseQs qs).map Prod.fst).Nodup ∧ ∀ e ∈ pyParseQs qs, e.2 ≠ [] := by
  unfold pyParseQs
  generalize pyParseQsl qs = ps
  induction ps using List.reverseRecOn with
  | nil => exact ⟨List.nodup_nil, fun e he => absurd he (List.not_mem_nil e)⟩
  | append_singleton ps kv ih =>
    rw [List.foldl_append, List.foldl_cons, List.foldl_nil]
    exact ⟨nodup_keys_qsInsert ih.1, vals_qsInsert ih.2⟩

/-- The query transformation of `normalize_url`: parse, drop tracking
keys, re-encode. -/
def normQuery (q : Str) : Str :=
  pyUrlencode ((pyParseQs q).filter fun kv => ¬isTracking kv.1)

theorem normQuery_idem (q : Str) : normQuery (normQuery q) = normQuery q := by
  unfold normQuery
  rw [parse_qs_urlencode ((pyParseQs q).filter fun kv => ¬isTracking kv.1)
      ((parse_qs_wf q).1.sublist (List.Sublist.map Prod.fst
        (List.filter_sublist (pyParseQs q))))
      (fun kv hkv => (parse_qs_wf q).2 kv (List.mem_of_mem_filter hkv))]
  congr 1
  apply List.filter_eq_self.mpr
  intro kv hkv
  simpa using List.of_mem_filter hkv

theorem pyUrlsplit_build {w url2 netloc rest2 path query : Str}
    {o : Option Str}
    (h1 : cleanUrlInput w = w)
    (h2 : splitScheme w = (o, url2))
    (h3 : (if startsWith (strOf "//") url2 = true
        then splitNetloc (url2.drop 2) else ([], url2)) = (netloc, rest2))
    (h4 : '#' ∉ rest2)
    (h5 : (splitFirst '?' rest2).getD (rest2, []) = (path, query)) :
    pyUrlsplit w [] = ⟨o.getD [], netloc, path, query, []⟩ := by
  unfold pyUrlsplit
  rw [h1]
  dsimp only
  rw [h2]
  dsimp only
  rw [h3]
  dsimp only
  rw [splitFirst_eq_none h4]
  dsimp only [Option.getD_none]
  rw [h5]

theorem unsplit_query_tail (s n p q : Str) :
    pyUrlunsplit ⟨s, n, p, q, []⟩
      = pyUrlunsplit ⟨s, n, p, [], []⟩
          ++ (if q = [] then [] else '?' :: q) := by
  unfold pyUrlunsplit
  by_cases h : q = [] <;> simp [h]

theorem split_query_tail {P q1 : Str} (hP : '?' ∉ P) :
    (splitFirst '?' (P ++ (if q1 = [] then [] else '?' :: q1))).getD
        (P ++ (if q1 = [] then [] else '?' :: q1), []) = (P, q1) := by
  by_cases h : q1 = []
  · subst h
    rw [if_pos rfl, List.append_nil, splitFirst_eq_none hP]
    rfl
  · rw [if_neg h, splitFirst_append hP]
    rfl

theorem unsplit_noquery_netloc (s n p1 : Str) (hn : n ≠ [])
    (hp6 : p1 = [] ∨ startsWith (strOf "/") p1 = true) :
    pyUrlunsplit ⟨s, n, p1, [], []⟩
      = (if s ≠ [] then s ++ ':' :: (strOf "//" ++ n ++ p1)
         else strOf "//" ++ n ++ p1) := by
  have hu : ¬(p1 ≠ [] ∧ ¬ startsWith (strOf "/") p1 = true) := by
    rcases hp6 with h | h
    · exact fun hc => hc.1 h
    · exact fun hc => hc.2 h
  unfold pyUrlunsplit
  dsimp only
  rw [if_neg hu, if_pos (Or.inl hn)]
  simp

theorem unsplit_noquery_B (s p1 : Str) (hs : s ≠ []) (hnet : s ∈ usesNetloc)
    (hp7 : ¬ startsWith (strOf "//") p1 = true) :
    pyUrlunsplit ⟨s, [], p1, [], []⟩
      = s ++ ':' :: (strOf "//"
          ++ (if p1 ≠ [] ∧ ¬ startsWith (strOf "/") p1 = true
              then '/' :: p1 else p1)) := by
  unfold pyUrlunsplit
  dsimp only
  rw [if_pos (Or.inr ⟨hs, hnet, hp7⟩), if_pos hs]
  simp

theorem unsplit_noquery_C (s p1 : Str) (hC : s = [] ∨ s ∉ usesNetloc) :
    pyUrlunsplit ⟨s, [], p1, [], []⟩
      = if s ≠ [] then s ++ ':' :: p1 else p1 := by
  have hcond : ¬((([] : Str) ≠ []) ∨ (s ≠ [] ∧ s ∈ usesNetloc
      ∧ ¬ startsWith (strOf "//") p1 = true)) := by
    rintro (h | ⟨h1, h2, h3⟩)
    · exact h rfl
    · rcases hC with h | h
      · exact h1 h
      · exact h h2
  unfold pyUrlunsplit
  dsimp only
  rw [if_neg hcond]
  simp

/-- No tab, carriage return or newline (invariance under the
`urlsplit` unsafe-byte removal). -/
abbrev cleanChars (w : Str) : Prop :=
  ∀ ch ∈ w, ¬(ch = '\t' ∨ ch = '\r' ∨ ch = '\n')

theorem cleanChars_nil : cleanChars [] :=
  fun ch hch => absurd hch (List.not_mem_nil ch)

theorem cleanChars_append {a b : Str} (ha : cleanChars a) (hb : cleanChars b) :
    cleanChars (a ++ b) := by
  intro ch hch
  rcases List.mem_append.mp hch with h | h
  · exact ha ch h
  · exact hb ch h

theorem cleanChars_cons {c : Char} {b : Str}
    (hc : ¬(c = '\t' ∨ c = '\r' ∨ c = '\n')) (hb : cleanChars b) :
    cleanChars (c :: b) := by
  intro ch hch
  rcases List.mem_cons.mp hch with rfl | h
  · exact hc
  · exact hb ch h

theorem cleanChars_scheme {s : Str} (hall : ∀ c ∈ s, isSchemeChar c = true) :
    cleanChars s := by
  intro ch hch
  have h := (isSchemeChar_iff ch).mp (hall ch hch)
  rintro (rfl | rfl | rfl) <;> revert h <;> decide

theorem cleanChars_qenc {q1 : Str} (hq : ∀ ch ∈ q1, qencNat ch.toNat) :
    cleanChars q1 := by
  intro ch hch
  have h := hq ch hch
  rintro (rfl | rfl | rfl) <;> revert h <;> decide

theorem cleanChars_tail {q1 : Str} (hq : ∀ ch ∈ q1, qencNat ch.toNat) :
    cleanChars (if q1 = [] then [] else '?' :: q1) := by
  by_cases h : q1 = []
  · rw [if_pos h]
    exact cleanChars_nil
  · rw [if_neg h]
    exact cleanChars_cons (by decide) (cleanChars_qenc hq)

theorem head?_append_of_ne_nil {a b : Str} (ha : a ≠ []) :
    (a ++ b).head? = a.head? := by
  cases a with
  | nil => exact absurd rfl ha
  | cons x xs => rfl

theorem qenc_no_stop {q1 : Str} (hq : ∀ ch ∈ q1, qencNat ch.toNat) :
    ∀ ch ∈ q1, ¬(ch = '/' ∨ ch = '?' ∨ ch = '#') := by
  intro ch hch
  have h := hq ch hch
  rintro (rfl | rfl | rfl) <;> revert h <;> decide

theorem qenc_not_colon {q1 : Str} (hq : ∀ ch ∈ q1, qencNat ch.toNat) :
    (':') ∉ q1 := by
  intro hm
  have h := hq ':' hm
  revert h
  decide

theorem qenc_not_hash {q1 : Str} (hq : ∀ ch ∈ q1, qencNat ch.toNat) :
    ('#') ∉ q1 := by
  intro hm
  have h := hq '#' hm
  revert h
  decide

theorem tail_not_colon {q1 : Str} (hq : ∀ ch ∈ q1, qencNat ch.toNat) :
    (':') ∉ (if q1 = [] then [] else '?' :: q1) := by
  by_cases h : q1 = []
  · rw [if_pos h]
    exact List.not_mem_nil _
  · rw [if_neg h]
    intro hm
    rcases List.mem_cons.mp hm with he | hm
    · exact absurd he (by decide)
    · exact qenc_not_colon hq hm

theorem tail_not_hash {q1 : Str} (hq : ∀ ch ∈ q1, qencNat ch.toNat) :
    ('#') ∉ (if q1 = [] then [] else '?' :: q1) := by
  by_cases h : q1 = []
  · rw [if_pos h]
    exact List.not_mem_nil _
  · rw [if_neg h]
    intro hm
    rcases List.mem_cons.mp hm with he | hm
    · exact absurd he (by decide)
    · exact qenc_not_hash hq hm

theorem tail_head_not_slash {q1 : Str} :
    ∀ ch, (if q1 = [] then ([] : Str) else '?' :: q1).head? = some ch →
      ch ≠ '/' := by
  intro ch hch
  by_cases h : q1 = []
  · rw [if_pos h] at hch
    exact absurd hch (by simp)
  · rw [if_neg h] at hch
    injection hch with hch
    rw [← hch]
    decide

theorem not_startsWith_slashes {p1 tail : Str}
    (hp : ¬ startsWith (strOf "//") p1 = true)
    (ht : ∀ ch, tail.head? = some ch → ch ≠ '/') :
    ¬ startsWith (strOf "//") (p1 ++ tail) = true := by
  intro h
  obtain ⟨t, ht2⟩ := startsWith_iff.mp h
  have ht3 : ('/' : Char) :: '/' :: t = p1 ++ tail := ht2
  match p1, ht3 with
  | [], ht3 =>
    rw [List.nil_append] at ht3
    exact ht '/' (by rw [← ht3]; rfl) rfl
  | [c], ht3 =>
    rw [List.singleton_append] at ht3
    injection ht3 with h1 h2
    exact ht '/' (by rw [← h2]; rfl) rfl
  | c1 :: c2 :: rest, ht3 =>
    rw [List.cons_append, List.cons_append] at ht3
    injection ht3 with h1 h23
    injection h23 with h2 h3
    exact hp (startsWith_iff.mpr ⟨rest, by rw [← h1, ← h2]; rfl⟩)

theorem splitNetloc_stop {rest0 : Str}
    (hr : ∀ ch, rest0.head? = some ch → (ch = '/' ∨ ch = '?' ∨ ch = '#')) :
    splitNetloc rest0 = ([], rest0) := by
  have h := splitNetloc_append (n := [])
    (fun ch hch => absurd hch (List.not_mem_nil ch)) hr
  rwa [List.nil_append] at h

theorem startsWith_append_self (p t : Str) : startsWith p (p ++ t) = true :=
  startsWith_iff.mpr ⟨t, rfl⟩

theorem urlsplit_of_unsplit (s n p1 q1 : Str)
    (hs : s = [] ∨ (':' ∉ s ∧ lowerS s = s
        ∧ (∀ c, s.head? = some c → (c.isAlpha && decide (c.toNat < 128)) = true)
        ∧ (∀ c ∈ s, isSchemeChar c = true)))
    (hn1 : ∀ ch ∈ n, ¬(ch = '/' ∨ ch = '?' ∨ ch = '#'))
    (hn2 : cleanChars n)
    (hp4 : ('#') ∉ p1) (hp5 : ('?') ∉ p1) (hpc : cleanChars p1)
    (hp6 : n ≠ [] → p1 = [] ∨ startsWith (strOf "/") p1 = true)
    (hp7 : n = [] → ¬ startsWith (strOf "//") p1 = true)
    (hp9 : s = [] → n = [] → splitScheme p1 = (none, p1))
    (hp11 : s = [] → n = [] → ∀ ch, p1.head? = some ch →
      isC0OrSpace ch = false)
    (hq : ∀ ch ∈ q1, qencNat ch.toNat) :
    pyUrlsplit (pyUrlunsplit ⟨s, n, p1, q1, []⟩) []
      = ⟨s, n,
          (if n = [] ∧ s ≠ [] ∧ s ∈ usesNetloc ∧ p1 ≠ []
              ∧ ¬ startsWith (strOf "/") p1 = true then '/' :: p1 else p1),
          q1, []⟩ := by
  rw [unsplit_query_tail]
  generalize htl : (if q1 = [] then ([] : Str) else '?' :: q1) = tail
  have htc : cleanChars tail := htl ▸ cleanChars_tail hq
  have htcolon : (':') ∉ tail := htl ▸ tail_not_colon hq
  have hthash : ('#') ∉ tail := htl ▸ tail_not_hash hq
  have hthead : ∀ ch, tail.head? = some ch → ch ≠ '/' :=
    htl ▸ tail_head_not_slash
  have htstop : ∀ ch, tail.head? = some ch →
      (ch = '/' ∨ ch = '?' ∨ ch = '#') := by
    rw [← htl]
    intro ch hch
    by_cases h : q1 = []
    · rw [if_pos h] at hch
      exact absurd hch (by simp)
    · rw [if_neg h] at hch
      injection hch with hch
      exact Or.inr (Or.inl hch.symm)
  have hsplitq : ∀ P : Str, ('?') ∉ P →
      (splitFirst '?' (P ++ tail)).getD (P ++ tail, []) = (P, q1) := by
    intro P hP
    rw [← htl]
    exact split_query_tail hP
  have hhash : ∀ P : Str, ('#') ∉ P → ('#') ∉ P ++ tail := by
    intro P hP hm
    rcases List.mem_append.mp hm with hm | hm
    · exact hP hm
    · exact hthash hm
  by_cases hnn : n = []
  · subst hnn
    by_cases hse : s = []
    · subst hse
      rw [unsplit_noquery_C [] p1 (Or.inl rfl), if_neg (by simp),
        if_neg (fun hc => hc.2.1 rfl)]
      apply pyUrlsplit_build (o := none)
      · apply cleanUrlInput_eq
        · exact cleanChars_append hpc htc
        · intro ch hch
          cases hp1 : p1 with
          | nil =>
            rw [hp1, List.nil_append] at hch
            rcases htstop ch hch with rfl | rfl | rfl <;> decide
          | cons a b =>
            rw [hp1] at hch
            injection hch with hch
            have := hp11 rfl rfl a (by rw [hp1]; rfl)
            rw [hch] at this
            exact this
      · exact splitScheme_extend (hp9 rfl rfl) (List.prefix_refl p1) htcolon
      · rw [if_neg (not_startsWith_slashes (hp7 rfl) hthead)]
      · exact hhash p1 hp4
      · exact hsplitq p1 hp5
    · rcases hs with rfl | ⟨hcol, hlow, hhead, hall⟩
      · exact absurd rfl hse
      have hheadclean : ∀ X : Str, ∀ ch, (s ++ ':' :: X).head? = some ch →
          isC0OrSpace ch = false := by
        intro X ch hch
        rw [head?_append_of_ne_nil hse] at hch
        have hal := hhead ch hch
        have := (alphaAscii_iff ch).mp hal
        unfold isC0OrSpace
        rw [decide_eq_false]
        omega
      by_cases hnet : s ∈ usesNetloc
      · rw [unsplit_noquery_B s p1 hse hnet (hp7 rfl)]
        by_cases hpp : p1 ≠ [] ∧ ¬ startsWith (strOf "/") p1 = true
        · rw [if_pos hpp, if_pos ⟨rfl, hse, hnet, hpp.1, hpp.2⟩]
          have hassoc : (s ++ ':' :: (strOf "//" ++ ('/' :: p1))) ++ tail
              = s ++ ':' :: (strOf "//" ++ (('/' :: p1) ++ tail)) := by
            simp [List.append_assoc]
          rw [hassoc]
          apply pyUrlsplit_build (o := some s)
          · apply cleanUrlInput_eq
            · apply cleanChars_append (cleanChars_scheme hall)
              apply cleanChars_cons (by decide)
              exact cleanChars_append (by decide)
                (cleanChars_append (cleanChars_cons (by decide) hpc) htc)
            · exact hheadclean _
          · have h2 := splitScheme_valid (s := s)
              (strOf "//" ++ (('/' :: p1) ++ tail)) hcol hse hhead hall
            rw [hlow] at h2
            exact h2
          · rw [if_pos (startsWith_append_self (strOf "//") _),
              show (strOf "//" ++ (('/' :: p1) ++ tail)).drop 2
                = ('/' :: p1) ++ tail from rfl]
            exact splitNetloc_stop (fun ch hch => Or.inl (by
              rw [List.cons_append] at hch
              injection hch with hch
              exact hch.symm))
          · intro hm
            rcases List.mem_append.mp hm with hm | hm
            · rcases List.mem_cons.mp hm with he | hm
              · exact absurd he (by decide)
              · exact hp4 hm
            · exact hthash hm
          · apply hsplitq
            intro hm
            rcases List.mem_cons.mp hm with he | hm
            · exact absurd he (by decide)
            · exact hp5 hm
        · rw [if_neg hpp, if_neg (fun hc => hpp ⟨hc.2.2.2.1, hc.2.2.2.2⟩)]
          have hstart : p1 ≠ [] → startsWith (strOf "/") p1 = true := by
            intro hne
            by_contra hcon
            exact hpp ⟨hne, hcon⟩
          have hrstop2 : ∀ ch, (p1 ++ tail).head? = some ch →
              (ch = '/' ∨ ch = '?' ∨ ch = '#') := by
            intro ch hch
            cases hp1 : p1 with
            | nil =>
              rw [hp1, List.nil_append] at hch
              exact htstop ch hch
            | cons a b =>
              rw [hp1] at hch
              injection hch with hch
              obtain ⟨t2, ht2⟩ := startsWith_iff.mp (hstart (by rw [hp1]; simp))
              rw [hp1] at ht2
              have h3 : ('/' :: t2 : Str) = a :: b := ht2
              injection h3 with h1 _
              exact Or.inl (by rw [← hch, ← h1])
          have hassoc : (s ++ ':' :: (strOf "//" ++ p1)) ++ tail
              = s ++ ':' :: (strOf "//" ++ (p1 ++ tail)) := by
            simp [List.append_assoc]
          rw [hassoc]
          apply pyUrlsplit_build (o := some s)
          · apply cleanUrlInput_eq
            · apply cleanChars_append (cleanChars_scheme hall)
              apply cleanChars_cons (by decide)
              exact cleanChars_append (by decide) (cleanChars_append hpc htc)
            · exact hheadclean _
          · have h2 := splitScheme_valid (s := s)
              (strOf "//" ++ (p1 ++ tail)) hcol hse hhead hall
            rw [hlow] at h2
            exact h2
          · rw [if_pos (startsWith_append_self (strOf "//") _),
              show (strOf "//" ++ (p1 ++ tail)).drop 2 = p1 ++ tail from rfl]
            exact splitNetloc_stop hrstop2
          · exact hhash p1 hp4
          · exact hsplitq p1 hp5
      · rw [unsplit_noquery_C s p1 (Or.inr hnet), if_pos hse,
          if_neg (fun hc => hnet hc.2.2.1)]
        have hassoc : (s ++ ':' :: p1) ++ tail = s ++ ':' :: (p1 ++ tail) := by
          simp
        rw [hassoc]
        apply pyUrlsplit_build (o := some s)
        · apply cleanUrlInput_eq
          · apply cleanChars_append (cleanChars_scheme hall)
            apply cleanChars_cons (by decide)
            exact cleanChars_append hpc htc
          · exact hheadclean _
        · have h2 := splitScheme_valid (s := s) (p1 ++ tail) hcol hse hhead hall
          rw [hlow] at h2
          exact h2
        · rw [if_neg (not_startsWith_slashes (hp7 rfl) hthead)]
        · exact hhash p1 hp4
        · exact hsplitq p1 hp5
  · -- netloc present
    rw [unsplit_noquery_netloc s n p1 hnn (hp6 hnn)]
    have hrstop : ∀ ch, (p1 ++ tail).head? = some ch →
        (ch = '/' ∨ ch = '?' ∨ ch = '#') := by
      intro ch hch
      cases hp1 : p1 with
      | nil =>
        rw [hp1, List.nil_append] at hch
        exact htstop ch hch
      | cons a b =>
        rw [hp1] at hch
        injection hch with hch
        rcases hp6 hnn with he | hsw
        · rw [hp1] at he
          exact absurd he (by simp)
        · obtain ⟨t2, ht2⟩ := startsWith_iff.mp hsw
          rw [hp1] at ht2
          have h3 : ('/' :: t2 : Str) = a :: b := ht2
          injection h3 with h1 _
          exact Or.inl (by rw [← hch, ← h1])
    by_cases hse : s = []
    · subst hse
      rw [if_neg (by simp), if_neg (fun hc => hnn hc.1)]
      have hassoc : (strOf "//" ++ n ++ p1) ++ tail
          = strOf "//" ++ (n ++ (p1 ++ tail)) := by
        simp [List.append_assoc]
      rw [hassoc]
      apply pyUrlsplit_build (o := none)
      · apply cleanUrlInput_eq
        · exact cleanChars_append (by decide)
            (cleanChars_append hn2 (cleanChars_append hpc htc))
        · intro ch hch
          rw [show (strOf "//" ++ (n ++ (p1 ++ tail))).head? = some '/'
              from rfl] at hch
          injection hch with hch
          rw [← hch]
          decide
      · apply splitScheme_none_of_head
        intro c hc
        rw [show (strOf "//" ++ (n ++ (p1 ++ tail))).head? = some '/'
            from rfl] at hc
        injection hc with hc
        rw [← hc]
        decide
      · rw [if_pos (startsWith_append_self (strOf "//") _),
          show (strOf "//" ++ (n ++ (p1 ++ tail))).drop 2 = n ++ (p1 ++ tail)
            from rfl]
        exact splitNetloc_append hn1 hrstop
      · exact hhash p1 hp4
      · exact hsplitq p1 hp5
    · rcases hs with rfl | ⟨hcol, hlow, hhead, hall⟩
      · exact absurd rfl hse
      rw [if_pos hse, if_neg (fun hc => hnn hc.1)]
      have hassoc : (s ++ ':' :: (strOf "//" ++ n ++ p1)) ++ tail
          = s ++ ':' :: (strOf "//" ++ (n ++ (p1 ++ tail))) := by
        simp [List.append_assoc]
      rw [hassoc]
      apply pyUrlsplit_build (o := some s)
      · apply cleanUrlInput_eq
        · apply cleanChars_append (cleanChars_scheme hall)
          apply cleanChars_cons (by decide)
          exact cleanChars_append (by decide)
            (cleanChars_append hn2 (cleanChars_append hpc htc))
        · intro ch hch
          rw [head?_append_of_ne_nil hse] at hch
          have hal := hhead ch hch
          have := (alphaAscii_iff ch).mp hal
          unfold isC0OrSpace
          rw [decide_eq_false]
          omega
      · have := splitScheme_valid (s := s)
          (strOf "//" ++ (n ++ (p1 ++ tail))) hcol hse hhead hall
        rw [hlow] at this
        exact this
      · rw [if_pos (startsWith_append_self (strOf "//") _),
          show (strOf "//" ++ (n ++ (p1 ++ tail))).drop 2 = n ++ (p1 ++ tail)
            from rfl]
        exact splitNetloc_append hn1 hrstop
      · exact hhash p1 hp4
      · exact hsplitq p1 hp5

theorem cleanUrlInput_clean (u : Str) : cleanChars (cleanUrlInput u) := by
  intro ch hch
  have := List.of_mem_filter hch
  simpa using this

theorem cleanUrlInput_head (u : Str) :
    ∀ ch, (cleanUrlInput u).head? = some ch → isC0OrSpace ch = false := by
  intro ch hch
  unfold cleanUrlInput at hch
  cases hw : u.dropWhile isC0OrSpace with
  | nil =>
    rw [hw] at hch
    exact absurd hch (by simp)
  | cons x t =>
    have hx : isC0OrSpace x = false := by
      have := List.head?_dropWhile_not isC0OrSpace u
      rw [hw] at this
      simpa using this
    rw [hw] at hch
    rw [List.filter_cons, if_pos] at hch
    · injection hch with hch
      rw [← hch]
      exact hx
    · apply decide_eq_true
      rintro (rfl | rfl | rfl) <;> revert hx <;> decide

theorem splitFirst_none_not_mem {c : Char} {s : Str}
    (h : splitFirst c s = none) : c ∉ s := by
  intro hm
  obtain ⟨pre, post, he⟩ := splitFirst_of_mem hm
  rw [he] at h
  cases h

theorem toLower_schemeChar {c : Char} (h : isSchemeChar c = true) :
    isSchemeChar c.toLower = true := by
  rw [isSchemeChar_iff] at h ⊢
  rw [toLower_toNat]
  by_cases hc : 65 ≤ c.toNat ∧ c.toNat ≤ 90
  · rw [if_pos hc]
    omega
  · rw [if_neg hc]
    omega

theorem toLower_alphaAscii {c : Char}
    (h : (c.isAlpha && decide (c.toNat < 128)) = true) :
    (c.toLower.isAlpha && decide (c.toLower.toNat < 128)) = true := by
  rw [alphaAscii_iff] at h ⊢
  rw [toLower_toNat]
  by_cases hc : 65 ≤ c.toNat ∧ c.toNat ≤ 90
  · rw [if_pos hc]
    omega
  · rw [if_neg hc]
    omega

theorem toLower_ne_colon {c : Char} (h : isSchemeChar c = true) :
    c.toLower ≠ ':' := by
  intro he
  have h58 : c.toLower.toNat = 58 := by
    rw [he]
    rfl
  rw [toLower_toNat] at h58
  rw [isSchemeChar_iff] at h
  by_cases hc : 65 ≤ c.toNat ∧ c.toNat ≤ 90
  · rw [if_pos hc] at h58
    omega
  · rw [if_neg hc] at h58
    omega

theorem splitScheme_some_inv {w sc url2 : Str}
    (h : splitScheme w = (some sc, url2)) :
    sc ≠ [] ∧ (':') ∉ sc ∧ lowerS sc = sc
      ∧ (∀ c, sc.head? = some c → (c.isAlpha && decide (c.toNat < 128)) = true)
      ∧ (∀ c ∈ sc, isSchemeChar c = true)
      ∧ ∃ pre, w = pre ++ ':' :: url2 := by
  unfold splitScheme at h
  cases hsf : splitFirst ':' w with
  | none =>
    rw [hsf] at h
    exact absurd h (by simp)
  | some pp =>
    obtain ⟨pre, post⟩ := pp
    rw [hsf] at h
    dsimp only at h
    split at h
    · rename_i hc
      obtain ⟨hne, hhd, hall⟩ := hc
      have hsc : lowerS pre = sc := by
        have := congrArg Prod.fst h
        simpa using this
      have hpost : post = url2 := by
        have := congrArg Prod.snd h
        simpa using this
      obtain ⟨hw, hnotin, _⟩ := splitFirst_eq_some hsf
      have hallmem : ∀ c ∈ pre, isSchemeChar c = true := List.all_eq_true.mp hall
      refine ⟨?_, ?_, ?_, ?_, ?_, pre, by rw [hw, hpost]⟩
      · rw [← hsc]
        cases pre with
        | nil => exact absurd rfl hne
        | cons a b => simp [lowerS]
      · rw [← hsc]
        unfold lowerS
        intro hm
        rw [List.mem_map] at hm
        obtain ⟨c, hcm, hce⟩ := hm
        exact toLower_ne_colon (hallmem c hcm) hce
      · rw [← hsc]
        exact lowerS_idem pre
      · rw [← hsc]
        intro c hc
        cases hpre : pre with
        | nil => exact absurd hpre hne
        | cons a b =>
          rw [hpre] at hc
          have ha := hhd
          rw [hpre] at ha
          simp only [List.head?_cons, Option.all_some] at ha
          unfold lowerS at hc
          rw [List.map_cons] at hc
          injection hc with hc
          rw [← hc]
          exact toLower_alphaAscii ha
      · rw [← hsc]
        unfold lowerS
        intro c hc
        rw [List.mem_map] at hc
        obtain ⟨c0, hc0m, rfl⟩ := hc
        exact toLower_schemeChar (hallmem c0 hc0m)
    · exact absurd h (by simp)

theorem splitScheme_prefix_none {w v : Str}
    (hw : splitScheme w = (none, w)) (hv : v <+: w) :
    splitScheme v = (none, v) := by
  have h := splitScheme_extend hw hv (List.not_mem_nil ':')
  rwa [List.append_nil] at h

theorem splitScheme_slash_head {v : Str}
    (h : v.head? = some '/') : splitScheme v = (none, v) := by
  apply splitScheme_none_of_head
  intro c hc
  rw [h] at hc
  injection hc with hc
  rw [← hc]
  decide

/-- The structural invariants of `urlsplit` output needed for the
reparse analysis: a valid lowercased scheme, a netloc free of `/?#`,
a path free of `#?`, all components free of removed bytes, a rooted
path when a netloc is present, and a scheme-undetectable clean path
when scheme and netloc are absent. -/
theorem pyUrlsplit_inv (u : Str) :
    ((pyUrlsplit u []).scheme = [] ∨
      ((':') ∉ (pyUrlsplit u []).scheme
        ∧ lowerS (pyUrlsplit u []).scheme = (pyUrlsplit u []).scheme
        ∧ (∀ c, (pyUrlsplit u []).scheme.head? = some c →
            (c.isAlpha && decide (c.toNat < 128)) = true)
        ∧ (∀ c ∈ (pyUrlsplit u []).scheme, isSchemeChar c = true)))
    ∧ (∀ ch ∈ (pyUrlsplit u []).netloc, ¬(ch = '/' ∨ ch = '?' ∨ ch = '#'))
    ∧ cleanChars (pyUrlsplit u []).netloc
    ∧ ('#') ∉ (pyUrlsplit u []).path
    ∧ ('?') ∉ (pyUrlsplit u []).path
    ∧ cleanChars (pyUrlsplit u []).path
    ∧ ((pyUrlsplit u []).netloc ≠ [] →
        (pyUrlsplit u []).path = []
          ∨ startsWith (strOf "/") (pyUrlsplit u []).path = true)
    ∧ ((pyUrlsplit u []).scheme = [] → (pyUrlsplit u []).netloc = [] →
        splitScheme (pyUrlsplit u []).path = (none, (pyUrlsplit u []).path))
    ∧ ((pyUrlsplit u []).scheme = [] → (pyUrlsplit u []).netloc = [] →
        ∀ ch, (pyUrlsplit u []).path.head? = some ch →
          isC0OrSpace ch = false) := by
  have hwclean := cleanUrlInput_clean u
  have hwhead := cleanUrlInput_head u
  rcases hss : splitScheme (cleanUrlInput u) with ⟨sch?, url2⟩
  have hsch : (pyUrlsplit u []).scheme = sch?.getD [] := by
    rw [show (pyUrlsplit u []).scheme
        = (splitScheme (cleanUrlInput u)).1.getD [] from rfl, hss]
  have hnet : (pyUrlsplit u []).netloc
      = (if startsWith (strOf "//") url2 = true
          then splitNetloc (url2.drop 2) else ([], url2)).1 := by
    rw [show (pyUrlsplit u []).netloc
        = (if startsWith (strOf "//") (splitScheme (cleanUrlInput u)).2 = true
            then splitNetloc ((splitScheme (cleanUrlInput u)).2.drop 2)
            else ([], (splitScheme (cleanUrlInput u)).2)).1 from rfl, hss]
  have hurl2mem : ∀ ch ∈ url2, ch ∈ cleanUrlInput u := by
    cases hsc : sch? with
    | none =>
      have h2 := splitScheme_none_snd (w := cleanUrlInput u)
        (by rw [hss, hsc])
      rw [hss, hsc] at h2
      have : url2 = cleanUrlInput u := by
        have := congrArg Prod.snd h2
        simpa using this
      rw [this]
      exact fun ch hch => hch
    | some sc =>
      rw [hsc] at hss
      obtain ⟨_, _, _, _, _, pre, hdec⟩ := splitScheme_some_inv hss
      intro ch hch
      rw [hdec]
      exact List.mem_append.mpr (Or.inr (List.mem_cons_of_mem _ hch))
  -- the remainder after the netloc stage, as one abbreviation
  rcases hnl : (if startsWith (strOf "//") url2 = true
      then splitNetloc (url2.drop 2) else ([], url2)) with ⟨nl, rest2⟩
  rw [hnl] at hnet
  have hrest2 : (pyUrlsplit u []).path
      = ((splitFirst '?'
          (((splitFirst '#' rest2).getD (rest2, [])).1)).getD
            ((((splitFirst '#' rest2).getD (rest2, [])).1), [])).1 := by
    rw [show (pyUrlsplit u []).path
        = ((splitFirst '?'
            ((((splitFirst '#'
              ((if startsWith (strOf "//") (splitScheme (cleanUrlInput u)).2 = true
                then splitNetloc ((splitScheme (cleanUrlInput u)).2.drop 2)
                else ([], (splitScheme (cleanUrlInput u)).2)).2)).getD
              (((if startsWith (strOf "//") (splitScheme (cleanUrlInput u)).2 = true
                then splitNetloc ((splitScheme (cleanUrlInput u)).2.drop 2)
                else ([], (splitScheme (cleanUrlInput u)).2)).2), [])).1))).getD
          (((((splitFirst '#'
              ((if startsWith (strOf "//") (splitScheme (cleanUrlInput u)).2 = true
                then splitNetloc ((splitScheme (cleanUrlInput u)).2.drop 2)
                else ([], (splitScheme (cleanUrlInput u)).2)).2)).getD
              (((if startsWith (strOf "//") (splitScheme (cleanUrlInput u)).2 = true
                then splitNetloc ((splitScheme (cleanUrlInput u)).2.drop 2)
                else ([], (splitScheme (cleanUrlInput u)).2)).2), [])).1)), [])).1
        from rfl, hss, hnl]
  have hnet2 : (pyUrlsplit u []).netloc = nl := hnet
  -- branch facts about the netloc stage
  have hKey : (∀ ch ∈ nl, ¬(ch = '/' ∨ ch = '?' ∨ ch = '#'))
      ∧ (∀ ch ∈ nl, ch ∈ cleanUrlInput u)
      ∧ (∀ ch ∈ rest2, ch ∈ cleanUrlInput u)
      ∧ (nl ≠ [] → ∀ ch, rest2.head? = some ch →
          (ch = '/' ∨ ch = '?' ∨ ch = '#'))
      ∧ (sch? = none → nl = [] →
          ((rest2 <+: cleanUrlInput u)
            ∨ (∀ ch, rest2.head? = some ch →
                (ch = '/' ∨ ch = '?' ∨ ch = '#')))) := by
    by_cases hsl : startsWith (strOf "//") url2 = true
    · rw [if_pos hsl] at hnl
      unfold splitNetloc at hnl
      have hnl1 : (url2.drop 2).takeWhile
          (fun c => decide ¬(c = '/' ∨ c = '?' ∨ c = '#')) = nl := by
        have := congrArg Prod.fst hnl
        simpa using this
      have hnl2 : (url2.drop 2).dropWhile
          (fun c => decide ¬(c = '/' ∨ c = '?' ∨ c = '#')) = rest2 := by
        have := congrArg Prod.snd hnl
        simpa using this
      have hdropmem : ∀ ch ∈ url2.drop 2, ch ∈ cleanUrlInput u :=
        fun ch hch => hurl2mem ch ((List.drop_suffix 2 url2).sublist.subset hch)
      have hstop : ∀ ch, rest2.head? = some ch →
          (ch = '/' ∨ ch = '?' ∨ ch = '#') := by
        intro ch hch
        have h := List.head?_dropWhile_not
          (fun c => decide ¬(c = '/' ∨ c = '?' ∨ c = '#')) (url2.drop 2)
        rw [hnl2, hch] at h
        have h3 : (decide (¬(ch = '/' ∨ ch = '?' ∨ ch = '#'))) = false := h
        exact not_not.mp (of_decide_eq_false h3)
      refine ⟨?_, ?_, ?_, fun _ => hstop, fun _ _ => Or.inr hstop⟩
      · intro ch hch
        rw [← hnl1] at hch
        have := List.mem_takeWhile_imp hch
        simpa using this
      · intro ch hch
        rw [← hnl1] at hch
        exact hdropmem ch (( List.takeWhile_prefix _).sublist.subset hch)
      · intro ch hch
        rw [← hnl2] at hch
        exact hdropmem ch ((List.dropWhile_suffix _).sublist.subset hch)
    · rw [if_neg hsl] at hnl
      have hnl1 : nl = [] := by
        have := congrArg Prod.fst hnl
        simpa using this.symm
      have hnl2 : rest2 = url2 := by
        have := congrArg Prod.snd hnl
        simpa using this.symm
      subst hnl1
      refine ⟨fun ch hch => absurd hch (List.not_mem_nil ch),
        fun ch hch => absurd hch (List.not_mem_nil ch),
        fun ch hch => hurl2mem ch (hnl2 ▸ hch),
        fun hne => absurd rfl hne, fun hsc _ => Or.inl ?_⟩
      rw [hnl2]
      have h2 := splitScheme_none_snd (w := cleanUrlInput u)
        (by rw [hss, hsc])
      rw [hss, hsc] at h2
      have : url2 = cleanUrlInput u := by
        have := congrArg Prod.snd h2
        simpa using this
      rw [this]
  -- the fragment and query stages
  obtain ⟨u4, hu4eq, hu4hash, hu4pre⟩ :
      ∃ u4, ((splitFirst '#' rest2).getD (rest2, [])).1 = u4
        ∧ ('#') ∉ u4 ∧ u4 <+: rest2 := by
    cases hfr : splitFirst '#' rest2 with
    | none =>
      exact ⟨rest2, rfl, splitFirst_none_not_mem hfr,
        List.prefix_refl rest2⟩
    | some pp =>
      obtain ⟨pre, post⟩ := pp
      obtain ⟨hdec, hnm, _⟩ := splitFirst_eq_some hfr
      exact ⟨pre, rfl, hnm, ⟨'#' :: post, hdec.symm⟩⟩
  obtain ⟨p0, hp0eq, hp0q, hp0pre⟩ :
      ∃ p0, ((splitFirst '?' u4).getD (u4, [])).1 = p0
        ∧ ('?') ∉ p0 ∧ p0 <+: u4 := by
    cases hqs : splitFirst '?' u4 with
    | none =>
      exact ⟨u4, rfl, splitFirst_none_not_mem hqs,
        List.prefix_refl u4⟩
    | some pp =>
      obtain ⟨pre, post⟩ := pp
      obtain ⟨hdec, hnm, _⟩ := splitFirst_eq_some hqs
      exact ⟨pre, rfl, hnm, ⟨'?' :: post, hdec.symm⟩⟩
  have hpath : (pyUrlsplit u []).path = p0 := by
    rw [hrest2, hu4eq, hp0eq]
  have hp0rest : p0 <+: rest2 := hp0pre.trans hu4pre
  have hp0hash : ('#') ∉ p0 := fun hm => hu4hash (hp0pre.sublist.subset hm)
  have hp0head : p0 ≠ [] → rest2.head? = p0.head? :=
    fun hne => head?_of_isPrefix hp0rest hne
  -- path head is the stop character when it exists after a netloc stage stop
  have hslash : (∀ ch, rest2.head? = some ch →
        (ch = '/' ∨ ch = '?' ∨ ch = '#')) → p0 = []
      ∨ startsWith (strOf "/") p0 = true := by
    intro hstop
    cases hp0 : p0 with
    | nil => exact Or.inl rfl
    | cons a b =>
      right
      have hha : rest2.head? = some a := by
        rw [hp0head (by rw [hp0]; simp), hp0]
        rfl
      rcases hstop a hha with rfl | rfl | rfl
      · exact startsWith_iff.mpr ⟨b, rfl⟩
      · exact absurd (by rw [hp0]; exact List.mem_cons_self _ _) hp0q
      · exact absurd (by rw [hp0]; exact List.mem_cons_self _ _) hp0hash
  refine ⟨?_, ?_, ?_, ?_, ?_, ?_, ?_, ?_, ?_⟩
  · -- scheme invariant
    cases hsc : sch? with
    | none =>
      left
      rw [hsch, hsc]
      rfl
    | some sc =>
      right
      rw [hsc] at hss
      obtain ⟨h1, h2, h3, h4, h5, _⟩ := splitScheme_some_inv hss
      rw [hsch, hsc]
      exact ⟨h2, h3, h4, h5⟩
  · rw [hnet2]
    exact hKey.1
  · rw [hnet2]
    exact fun ch hch => hwclean ch (hKey.2.1 ch hch)
  · rw [hpath]
    exact hp0hash
  · rw [hpath]
    exact hp0q
  · rw [hpath]
    exact fun ch hch =>
      hwclean ch (hKey.2.2.1 ch (hp0rest.sublist.subset hch))
  · rw [hnet2, hpath]
    intro hne
    exact hslash (hKey.2.2.2.1 hne)
  · rw [hsch, hnet2, hpath]
    intro hsnil hnl0
    have hscn : sch? = none := by
      cases hsc : sch? with
      | none => rfl
      | some sc =>
        rw [hsc] at hss hsnil
        obtain ⟨h1, _⟩ := splitScheme_some_inv hss
        exact absurd (by simpa using hsnil) h1
    rcases hKey.2.2.2.2 hscn hnl0 with hpre | hstop
    · exact splitScheme_prefix_none
        (splitScheme_none_snd (w := cleanUrlInput u) (by rw [hss, hscn]))
        (hp0rest.trans hpre)
    · rcases hslash hstop with rfl | hsw
      · rfl
      · obtain ⟨t, ht⟩ := startsWith_iff.mp hsw
        apply splitScheme_slash_head
        rw [← ht]
        rfl
  · rw [hsch, hnet2, hpath]
    intro hsnil hnl0 ch hch
    have hscn : sch? = none := by
      cases hsc : sch? with
      | none => rfl
      | some sc =>
        rw [hsc] at hss hsnil
        obtain ⟨h1, _⟩ := splitScheme_some_inv hss
        exact absurd (by simpa using hsnil) h1
    rcases hKey.2.2.2.2 hscn hnl0 with hpre | hstop
    · have hp0w : p0 <+: cleanUrlInput u := hp0rest.trans hpre
      have : (cleanUrlInput u).head? = p0.head? :=
        head?_of_isPrefix hp0w (by intro he; rw [he] at hch; cases hch)
      exact hwhead ch (by rw [this]; exact hch)
    · rcases hslash hstop with rfl | hsw
      · cases hch
      · obtain ⟨t, ht⟩ := startsWith_iff.mp hsw
        rw [← ht] at hch
        have : ch = '/' := by
          injection hch with h
          exact h.symm
        rw [this]
        decide

theorem normPath_nil : normPath [] = [] := by decide

theorem startsWith_slash_iff {v : Str} :
    startsWith (strOf "/") v = true ↔ v.head? = some '/' := by
  cases v with
  | nil => simp [startsWith, strOf, List.isPrefixOf]
  | cons x t =>
    constructor
    · intro h
      obtain ⟨r, hr⟩ := startsWith_iff.mp h
      have : ('/' :: r : Str) = x :: t := hr
      injection this with h1 _
      rw [← h1]
      rfl
    · intro h
      injection h with h
      exact startsWith_iff.mpr ⟨t, by rw [h]; rfl⟩

theorem endsWith_single_cons {c x : Char} {t : Str} (ht : t ≠ []) :
    endsWith [c] (x :: t) = endsWith [c] t := by
  unfold endsWith
  simp only [List.reverse_cons, List.reverse_nil, List.nil_append]
  cases h : t.reverse with
  | nil =>
    exact absurd (by simpa using congrArg List.reverse h) ht
  | cons y ys =>
    rw [List.cons_append]
    simp [List.isPrefixOf]

theorem startsWith_two_cons {p1 : Str} :
    startsWith (strOf "//") ('/' :: p1) = startsWith (strOf "/") p1 := by
  simp [startsWith, strOf, List.isPrefixOf]

/-- The shape of `normalize_url` output under a parameter-free path:
the unsplit of the normalized components (fragment dropped, params
empty). -/
theorem normalizeUrl_eq (u : Str)
    (hsemi : hasChar ';' (pyUrlsplit u []).path = false) :
    normalizeUrl u
      = pyUrlunsplit ⟨(pyUrlsplit u []).scheme, (pyUrlsplit u []).netloc,
          normPath (pyUrlsplit u []).path,
          normQuery (pyUrlsplit u []).query, []⟩ := by
  unfold normalizeUrl pyUrlparse pyUrlunparse normQuery
  dsimp only
  rw [if_neg (show ¬((pyUrlsplit u []).scheme ∈ usesParams
      ∧ hasChar ';' (pyUrlsplit u []).path = true) from
    fun hc => by rw [hsemi] at hc; exact Bool.false_ne_true hc.2)]
  dsimp only
  rw [if_neg (show ¬((([] : Str)) ≠ []) from by simp)]

/-- C1 (amended): URL canonicalization is idempotent on every URL whose
parsed path contains no `;` (so the `_splitparams` step is a no-op),
whose parse does not combine an empty netloc with a `//`-initial path,
and whose netloc is ASCII and bracket-free (the embedding of `urlsplit`
is total there): `normalize_url(normalize_url(u)) == normalize_url(u)`.
The unamended claim is refuted by `C1_normalize_counterexample`. -/
theorem C1_normalize_idempotent (u : Str)
    (hsemi : hasChar ';' (pyUrlsplit u []).path = false)
    (hpp : ¬((pyUrlsplit u []).netloc = []
        ∧ startsWith (strOf "//") (pyUrlsplit u []).path = true))
    (_hnet : ∀ ch ∈ (pyUrlsplit u []).netloc,
        ch.toNat < 128 ∧ ch ≠ '[' ∧ ch ≠ ']') :
    normalizeUrl (normalizeUrl u) = normalizeUrl u := by
  obtain ⟨hSch, hN1, hN2, hPh, hPq, hPc, hP6, hP9, hP11⟩ := pyUrlsplit_inv u
  have hsemi0 : (';') ∉ (pyUrlsplit u []).path := hasChar_eq_false.mp hsemi
  have hp1pre : normPath (pyUrlsplit u []).path <+: (pyUrlsplit u []).path :=
    normPath_isPrefix _
  have hp4 : ('#') ∉ normPath (pyUrlsplit u []).path :=
    fun hm => hPh (hp1pre.sublist.subset hm)
  have hp5 : ('?') ∉ normPath (pyUrlsplit u []).path :=
    fun hm => hPq (hp1pre.sublist.subset hm)
  have hpc : cleanChars (normPath (pyUrlsplit u []).path) :=
    fun ch hch => hPc ch (hp1pre.sublist.subset hch)
  have hsemi1 : (';') ∉ normPath (pyUrlsplit u []).path :=
    fun hm => hsemi0 (hp1pre.sublist.subset hm)
  have hp6 : (pyUrlsplit u []).netloc ≠ [] →
      normPath (pyUrlsplit u []).path = []
        ∨ startsWith (strOf "/") (normPath (pyUrlsplit u []).path) = true := by
    intro hne
    rcases hP6 hne with hnil | hsw
    · left
      rw [hnil]
      exact normPath_nil
    · cases hnp : normPath (pyUrlsplit u []).path with
      | nil => exact Or.inl rfl
      | cons a b =>
        right
        rw [startsWith_slash_iff] at hsw ⊢
        rw [← hnp]
        exact (head?_of_isPrefix hp1pre (by rw [hnp]; simp)).symm.trans hsw
  have hp7 : (pyUrlsplit u []).netloc = [] →
      ¬ startsWith (strOf "//") (normPath (pyUrlsplit u []).path) = true := by
    intro hn0 hsw
    exact hpp ⟨hn0, startsWith_iff.mpr ((startsWith_iff.mp hsw).trans hp1pre)⟩
  have hp9 : (pyUrlsplit u []).scheme = [] → (pyUrlsplit u []).netloc = [] →
      splitScheme (normPath (pyUrlsplit u []).path)
        = (none, normPath (pyUrlsplit u []).path) :=
    fun h1 h2 => splitScheme_prefix_none (hP9 h1 h2) hp1pre
  have hp11 : (pyUrlsplit u []).scheme = [] → (pyUrlsplit u []).netloc = [] →
      ∀ ch, (normPath (pyUrlsplit u []).path).head? = some ch →
        isC0OrSpace ch = false := by
    intro h1 h2 ch hch
    apply hP11 h1 h2 ch
    cases hnp : normPath (pyUrlsplit u []).path with
    | nil =>
      rw [hnp] at hch
      cases hch
    | cons a b =>
      rw [hnp] at hch
      exact (head?_of_isPrefix hp1pre (by rw [hnp]; simp)).trans (hnp ▸ hch)
  have hq : ∀ ch ∈ normQuery (pyUrlsplit u []).query, qencNat ch.toNat := by
    intro ch hch
    unfold normQuery at hch
    exact mem_urlencode hch
  have step1 := normalizeUrl_eq u hsemi
  have step2 := urlsplit_of_unsplit (pyUrlsplit u []).scheme
      (pyUrlsplit u []).netloc (normPath (pyUrlsplit u []).path)
      (normQuery (pyUrlsplit u []).query)
      hSch hN1 hN2 hp4 hp5 hpc hp6 hp7 hp9 hp11 hq
  by_cases hC : (pyUrlsplit u []).netloc = [] ∧ (pyUrlsplit u []).scheme ≠ []
      ∧ (pyUrlsplit u []).scheme ∈ usesNetloc
      ∧ normPath (pyUrlsplit u []).path ≠ []
      ∧ ¬ startsWith (strOf "/") (normPath (pyUrlsplit u []).path) = true
  · rw [if_pos hC] at step2
    obtain ⟨hn0, hse, hnet, hp1ne, hnsw⟩ := hC
    have step3 : hasChar ';' (pyUrlsplit (pyUrlunsplit
        ⟨(pyUrlsplit u []).scheme, (pyUrlsplit u []).netloc,
          normPath (pyUrlsplit u []).path,
          normQuery (pyUrlsplit u []).query, []⟩) []).path = false := by
      rw [step2]
      apply hasChar_eq_false.mpr
      intro hm
      rcases List.mem_cons.mp hm with he | hm
      · exact absurd he (by decide)
      · exact hsemi1 hm
    have step4 := normalizeUrl_eq _ step3
    rw [step2] at step4
    dsimp only at step4
    rw [normQuery_idem] at step4
    have hp1root : normPath (pyUrlsplit u []).path ≠ strOf "/" := by
      intro he
      rw [he] at hnsw
      exact hnsw (by decide)
    have step6 : normPath ('/' :: normPath (pyUrlsplit u []).path)
        = '/' :: normPath (pyUrlsplit u []).path := by
      apply normPath_of_not_ends
      have e1 : endsWith (strOf "/") ('/' :: normPath (pyUrlsplit u []).path)
          = endsWith (strOf "/") (normPath (pyUrlsplit u []).path) := by
        rw [strOf_slash]
        exact endsWith_single_cons hp1ne
      rw [e1]
      exact normPath_not_ends _ hp1root
    rw [step6] at step4
    have step7 : pyUrlunsplit ⟨(pyUrlsplit u []).scheme,
        (pyUrlsplit u []).netloc, '/' :: normPath (pyUrlsplit u []).path,
        normQuery (pyUrlsplit u []).query, []⟩
        = pyUrlunsplit ⟨(pyUrlsplit u []).scheme, (pyUrlsplit u []).netloc,
          normPath (pyUrlsplit u []).path,
          normQuery (pyUrlsplit u []).query, []⟩ := by
      rw [hn0,
        unsplit_query_tail (pyUrlsplit u []).scheme []
          ('/' :: normPath (pyUrlsplit u []).path)
          (normQuery (pyUrlsplit u []).query),
        unsplit_query_tail (pyUrlsplit u []).scheme []
          (normPath (pyUrlsplit u []).path)
          (normQuery (pyUrlsplit u []).query),
        unsplit_noquery_B _ _ hse hnet (by
          rw [startsWith_two_cons]
          exact hnsw),
        unsplit_noquery_B _ _ hse hnet (hp7 hn0)]
      rw [if_neg (show ¬(('/' :: normPath (pyUrlsplit u []).path) ≠ []
          ∧ ¬ startsWith (strOf "/")
              ('/' :: normPath (pyUrlsplit u []).path) = true) from by
        rintro ⟨_, hns⟩
        exact hns (startsWith_slash_iff.mpr rfl)),
        if_pos (show normPath (pyUrlsplit u []).path ≠ []
          ∧ ¬ startsWith (strOf "/") (normPath (pyUrlsplit u []).path) = true
          from ⟨hp1ne, hnsw⟩)]
    rw [step1, step4, step7]
  · rw [if_neg hC] at step2
    have step3 : hasChar ';' (pyUrlsplit (pyUrlunsplit
        ⟨(pyUrlsplit u []).scheme, (pyUrlsplit u []).netloc,
          normPath (pyUrlsplit u []).path,
          normQuery (pyUrlsplit u []).query, []⟩) []).path = false := by
      rw [step2]
      exact hasChar_eq_false.mpr hsemi1
    have step4 := normalizeUrl_eq _ step3
    rw [step2] at step4
    dsimp only at step4
    rw [normQuery_idem, normPath_idem] at step4
    rw [step1, step4]

/-- Witness: the hypotheses of `C1_normalize_idempotent` hold and the
conclusion evaluates on a concrete URL with a tracking parameter. -/
theorem C1_normalize_idempotent_witness :
    hasChar ';' (pyUrlsplit (strOf "https://x.com/a?utm_source=f&id=5")
        []).path = false
    ∧ normalizeUrl (normalizeUrl (strOf "https://x.com/a?utm_source=f&id=5"))
      = normalizeUrl (strOf "https://x.com/a?utm_source=f&id=5") :=
  ⟨by decide, C1_normalize_idempotent _ (by decide) (by decide) (by decide)⟩

/-- C1 counterexample: `normalize_url` is not idempotent in general.
One pass turns `https://x.com/a/;p1/` into `https://x.com/a/;p1`
(trailing-slash strip); the second pass then finds a `;` after the last
`/` and `_splitparams` rewrites it to `https://x.com/a;p1`. -/
theorem C1_normalize_counterexample :
    normalizeUrl (normalizeUrl (strOf "https://x.com/a/;p1/"))
      ≠ normalizeUrl (strOf "https://x.com/a/;p1/") := by decide

end Scrape
